import Mathlib

/-!
# BF16: run-length compiler and virtual machine of `bf16_grayscale.c`

A shallow embedding of the two algorithmic parts of `src/bf16_grayscale.c`:

* the compile loop of `main` (lines 146-191), which turns the bytes of the
  source file into the global `program` array of 16-bit slots, two slots per
  instruction (opcode character, operand);
* `run_program` (lines 64-113), which executes that array on the 30000-cell
  `memory` until the end of the program or until a `.` instruction.

Conventions of the embedding.

* Bytes, 16-bit slots and cells are natural numbers; every store into a
  `uint16_t` slot is reduced `% 65536` and every store into a `uint8_t`
  cell `% 256` where the C value can exceed the type.
* The operator characters are written as their ASCII codes:
  `>` 62, `<` 60, `+` 43, `-` 45, `[` 91, `]` 93, `.` 46, `,` 44, `?` 63.
* The input file is a list of bytes together with a file position `pos`;
  `fread` of one byte reads `src[pos]` and advances `pos`, and fails at
  `pos = src.length` leaving `pos` where it is; `fseek(file, -1, SEEK_CUR)`
  is `pos - 1`.
* An access outside `program[0 .. 16777216)` or `memory[0 .. 30000)` and a
  signed overflow of the `int address` are undefined behaviour in C; the
  embedding stops there with the result `undefined`.
* `size_t` is taken to be 64 bits wide and `int` 32 bits wide, and the host
  stores a `uint16_t` low byte first, which fixes the two bytes that `fwrite`
  writes for an operand slot.
* Loops that need not terminate take a fuel argument counting iterations and
  return `timeout` when it runs out.
-/

namespace BF16

/-- Number of `uint16_t` slots of the global array `program`. -/
def PROGRAM_CAP : Nat := 16777216

/-- Number of cells of the global array `memory`. -/
def MEMORY_SIZE : Nat := 30000

/-- Largest value of a C `int`. -/
def INT_MAX : Int := 2147483647

/-- Smallest value of a C `int`. -/
def INT_MIN : Int := -2147483648

/-- Number of values of a `size_t`. -/
def SIZE_MOD : Nat := 18446744073709551616

/-- Array update `a[i] = v`. -/
def store (a : Nat → Nat) (i v : Nat) : Nat → Nat :=
  fun j => if j = i then v else a j

/-- The function `isBFChar` of the source (lines 117-121). -/
def isBFChar (a : Nat) : Bool :=
  a == 62 || a == 60 || a == 43 || a == 45 ||
    a == 91 || a == 93 || a == 46 || a == 44 ||
    a == 63

/-- Result of a loop of the program: a final state, an undefined access, or
fuel exhausted. -/
inductive Outcome (α : Type) where
  | done (a : α)
  | undefined
  | timeout

/-! ## The compile loop -/

/-- State of the compile loop: the array `program`, `program_size`, and the
position of the input file. -/
structure Compiler where
  program : Nat → Nat
  program_size : Nat
  pos : Nat

/-- The inner look-ahead loop of the run case (lines 163-171), on the bytes
that remain in the file. `n` is the slot `program[program_size]`. The result
is the final slot value, the final file position and the flag `found`. -/
def runLoop (ch : Nat) : List Nat → Nat → Nat → Nat × Nat × Bool
  | [], n, pos => (n, pos, false)
  | tmp :: rest, n, pos =>
    if isBFChar tmp = false then runLoop ch rest n (pos + 1)
    else if tmp ≠ ch then (n, pos + 1 - 1, true)
    else runLoop ch rest ((n + 1) % 65536) (pos + 1)

/-- The backward scan of the `]` case (lines 179-183), started with `fuel = i`
iterations available (each iteration lowers `i` by 2). The result is the final
`(i, depth)`. -/
def scanBack (program : Nat → Nat) : Nat → Nat → Nat → Nat × Nat
  | 0, i, depth => (i, depth)
  | fuel + 1, i, depth =>
    if 0 < i ∧ 0 < depth then
      let i1 := i - 2
      let d1 := if program i1 = 91 then depth - 1 else depth
      let d2 := if program i1 = 93 then d1 + 1 else d1
      scanBack program fuel i1 d2
    else (i, depth)

/-- The body of the compile loop (the `switch (ch)` of lines 148-190) for a
byte `ch` that has just been read; `c.pos` is the position after that byte.
`none` stands for a write outside the array `program`. -/
def compileStep (src : List Nat) (ch : Nat) (c : Compiler) : Option Compiler :=
  if ch = 46 ∨ ch = 44 ∨ ch = 63 ∨ ch = 91 then
    if c.program_size < PROGRAM_CAP then
      some { c with
        program := store c.program c.program_size ch
        program_size := c.program_size + 2 }
    else none
  else if ch = 62 ∨ ch = 60 ∨ ch = 43 ∨ ch = 45 then
    if c.program_size + 1 < PROGRAM_CAP then
      let r := runLoop ch (src.drop c.pos) 1 c.pos
      some {
        program := store (store c.program c.program_size ch) (c.program_size + 1) r.1
        program_size := c.program_size + 2
        pos := if r.2.2 then r.2.1 else r.2.1 - 1 }
    else none
  else if ch = 93 then
    if c.program_size + 1 < PROGRAM_CAP then
      let p1 := store c.program c.program_size ch
      let i := (scanBack p1 c.program_size c.program_size 1).1
      let d := (c.program_size - i) % 65536
      some { c with
        program := store (store p1 (i + 1) d) (c.program_size + 1) d
        program_size := c.program_size + 2 }
    else none
  else some c

/-- The compile loop `while (fread(&ch, 1, 1, file) == 1)` (lines 147-191);
`fuel` bounds the number of iterations. -/
def compileLoop (src : List Nat) : Nat → Compiler → Outcome Compiler
  | 0, c => if c.pos < src.length then .timeout else .done c
  | fuel + 1, c =>
    match src.get? c.pos with
    | none => .done c
    | some ch =>
      match compileStep src ch { c with pos := c.pos + 1 } with
      | none => .undefined
      | some c1 => compileLoop src fuel c1

/-- The state before the compile loop: zeroed `program`, `program_size = 0`,
file just opened. -/
def Compiler.init : Compiler := ⟨fun _ => 0, 0, 0⟩

/-- Compilation of a source file. -/
def compile (fuel : Nat) (src : List Nat) : Outcome Compiler :=
  compileLoop src fuel Compiler.init

/-- The instruction pairs `(opcode, operand)` of the first `size` slots. -/
def instrs (program : Nat → Nat) (size : Nat) : List (Nat × Nat) :=
  (List.range (size / 2)).map fun k => (program (2 * k), program (2 * k + 1))

/-- The instruction pairs of a compile outcome, when there is one. -/
def Outcome.instrs : Outcome Compiler → Option (List (Nat × Nat))
  | .done c => some (BF16.instrs c.program c.program_size)
  | _ => none

/-! ## The virtual machine -/

/-- The keys that `run_program` samples for the `,` instruction. -/
structure Keyboard where
  z : Bool
  x : Bool
  ret : Bool
  space : Bool
  up : Bool
  down : Bool
  left : Bool
  right : Bool

/-- The byte `key` assembled at lines 92-101. -/
def sample_key (k : Keyboard) : Nat :=
  (((((((0 ||| (if k.z then 128 else 0)) ||| (if k.x then 64 else 0))
    ||| (if k.ret then 32 else 0)) ||| (if k.space then 16 else 0))
    ||| (if k.up then 8 else 0)) ||| (if k.down then 4 else 0))
    ||| (if k.left then 2 else 0)) ||| (if k.right then 1 else 0)

/-- What `run_program` prints. -/
inductive Event where
  | dump (address : Int) (value : Nat)
  | unexpected (ch : Nat)
deriving DecidableEq

/-- The globals `run_program` works on, the number of keyboard samples taken
so far, and the lines printed so far. -/
structure VM where
  program : Nat → Nat
  program_size : Nat
  cursor : Nat
  address : Int
  memory : Nat → Nat
  samples : Nat
  log : List Event

/-- Whether `memory[address]` is inside the array. -/
def VM.inRange (vm : VM) : Prop := 0 ≤ vm.address ∧ vm.address < 30000

instance (vm : VM) : Decidable vm.inRange := by
  unfold VM.inRange; exact inferInstance

/-- The cell `memory[address]`. -/
def VM.cell (vm : VM) : Nat := vm.memory vm.address.toNat

/-- The assignment `memory[address] = v`. -/
def VM.setCell (vm : VM) (v : Nat) : Nat → Nat := store vm.memory vm.address.toNat v

/-- Result of one iteration of the loop of `run_program`. -/
inductive Step where
  | next (vm : VM)
  | ret (vm : VM)
  | undefined

/-- One iteration of the body of `while (cursor < program_size)` in
`run_program` (lines 66-111): `next` is a `break` out of the switch, `ret` the
`return` of the `.` case. `kbd n` is the keyboard state at the `n`-th sample. -/
def exec (kbd : Nat → Keyboard) (vm : VM) : Step :=
  if vm.cursor < PROGRAM_CAP then
    let op := vm.program vm.cursor
    let cur := vm.cursor + 1
    if op = 62 then
      if cur < PROGRAM_CAP ∧ vm.address + vm.program cur ≤ INT_MAX then
        .next { vm with address := vm.address + vm.program cur, cursor := cur + 1 }
      else .undefined
    else if op = 60 then
      if cur < PROGRAM_CAP ∧ INT_MIN ≤ vm.address - vm.program cur then
        .next { vm with address := vm.address - vm.program cur, cursor := cur + 1 }
      else .undefined
    else if op = 43 then
      if cur < PROGRAM_CAP ∧ vm.inRange then
        .next { vm with
          memory := vm.setCell ((vm.cell + vm.program cur) % 256)
          cursor := cur + 1 }
      else .undefined
    else if op = 45 then
      if cur < PROGRAM_CAP ∧ vm.inRange then
        .next { vm with
          memory := vm.setCell (((vm.cell : Int) - (vm.program cur : Int)) % 256).toNat
          cursor := cur + 1 }
      else .undefined
    else if op = 91 then
      if vm.inRange then
        if vm.cell = 0 then
          if cur < PROGRAM_CAP then
            .next { vm with cursor := cur + vm.program cur + 1 }
          else .undefined
        else .next { vm with cursor := cur + 1 }
      else .undefined
    else if op = 93 then
      if vm.inRange then
        if vm.cell ≠ 0 then
          if cur < PROGRAM_CAP then
            .next { vm with
              cursor := ((cur + SIZE_MOD - vm.program cur % SIZE_MOD) % SIZE_MOD + 1) % SIZE_MOD }
          else .undefined
        else .next { vm with cursor := cur + 1 }
      else .undefined
    else if op = 46 then
      .ret { vm with cursor := cur + 1 }
    else if op = 44 then
      if vm.inRange then
        .next { vm with
          cursor := cur + 1
          memory := vm.setCell (sample_key (kbd vm.samples))
          samples := vm.samples + 1 }
      else .undefined
    else if op = 63 then
      if vm.inRange then
        .next { vm with cursor := cur + 1, log := vm.log ++ [Event.dump vm.address vm.cell] }
      else .undefined
    else
      .next { vm with cursor := cur, log := vm.log ++ [Event.unexpected op] }
  else .undefined

/-- How a call of `run_program` ends: by the `return` of a `.` instruction,
by the loop test failing, in an undefined access, or out of fuel. -/
inductive RunResult where
  | output (vm : VM)
  | halted (vm : VM)
  | undefined
  | timeout

/-- The function `run_program` (lines 64-113); `fuel` bounds the number of
loop iterations. -/
def run_program (kbd : Nat → Keyboard) : Nat → VM → RunResult
  | 0, vm => if vm.cursor < vm.program_size then .timeout else .halted vm
  | fuel + 1, vm =>
    if vm.cursor < vm.program_size then
      match exec kbd vm with
      | .next vm1 => run_program kbd fuel vm1
      | .ret vm1 => .output vm1
      | .undefined => .undefined
    else .halted vm

/-- The machine at program start for a compiled program: `cursor = 0`,
`address = 0`, zeroed `memory`. -/
def VM.fresh (c : Compiler) : VM :=
  { program := c.program, program_size := c.program_size, cursor := 0,
    address := 0, memory := fun _ => 0, samples := 0, log := [] }

/-- A keyboard with no key held. -/
def noKeys : Keyboard := ⟨false, false, false, false, false, false, false, false⟩

/-- The state after `n` successive calls of `run_program` (the frame loop of
`main` calls it once per frame, line 269), when every call returns. -/
def run_calls (kbd : Nat → Keyboard) (fuel : Nat) : Nat → VM → Option VM
  | 0, vm => some vm
  | n + 1, vm =>
    match run_program kbd fuel vm with
    | .output vm1 => run_calls kbd fuel n vm1
    | .halted vm1 => run_calls kbd fuel n vm1
    | _ => none

/-- Number of iterations of the loop of `run_program`, within one call, that
start with the cursor at slot `slot`. -/
def visits (kbd : Nat → Keyboard) (slot : Nat) : Nat → VM → Nat
  | 0, _ => 0
  | fuel + 1, vm =>
    if vm.cursor < vm.program_size then
      (if vm.cursor = slot then 1 else 0) +
        match exec kbd vm with
        | .next vm1 => visits kbd slot fuel vm1
        | _ => 0
    else 0

/-! ## A token view of the compile loop

The compile loop reads the file byte by byte, with a look-ahead and two
`fseek` calls in the run case. The definitions below describe the same
translation in two structural passes (group the operator bytes into tokens,
then emit one instruction per token); `compileLoop_eq_emit` proves that the
loop computes exactly this whenever the file does not end in one of
`>`, `<`, `+`, `-`. They serve the proofs only. -/

/-- The operators that are collapsed into runs: `>`, `<`, `+`, `-`. -/
def isRunOp (a : Nat) : Bool := a == 62 || a == 60 || a == 43 || a == 45

/-- Whether the last byte of the file is one of `>`, `<`, `+`, `-`. -/
def endsInRun (src : List Nat) : Bool :=
  match src.getLast? with
  | some b => isRunOp b
  | none => false

/-- The bytes from the first operator other than `ch` on. -/
def runRest (ch : Nat) : List Nat → List Nat
  | [] => []
  | b :: rest =>
    if isBFChar b = false then runRest ch rest
    else if b ≠ ch then b :: rest
    else runRest ch rest

/-- The number of bytes `ch` before the first operator other than `ch`. -/
def runCount (ch : Nat) : List Nat → Nat
  | [] => 0
  | b :: rest =>
    if isBFChar b = false then runCount ch rest
    else if b ≠ ch then 0
    else runCount ch rest + 1

/-- Put one more run operator `b` in front of a token list. -/
def pushRun (b : Nat) : List (Nat × Nat) → List (Nat × Nat)
  | [] => [(b, 1)]
  | (b1, k) :: ts => if b1 = b then (b, k + 1) :: ts else (b, 1) :: (b1, k) :: ts

/-- The tokens of a source: one `(c, k)` per maximal run of `k` equal run
operators (other bytes between them not counted), one `(c, 0)` per other
operator. -/
def groupRuns : List Nat → List (Nat × Nat)
  | [] => []
  | b :: rest =>
    if isRunOp b then pushRun b (groupRuns rest)
    else if isBFChar b then (b, 0) :: groupRuns rest
    else groupRuns rest

/-- The instruction written for one token, on `(program, program_size)`. -/
def emitTok (t : Nat × Nat) (st : (Nat → Nat) × Nat) : Option ((Nat → Nat) × Nat) :=
  if isRunOp t.1 then
    if st.2 + 1 < PROGRAM_CAP then
      some (store (store st.1 st.2 t.1) (st.2 + 1) (t.2 % 65536), st.2 + 2)
    else none
  else if t.1 = 93 then
    if st.2 + 1 < PROGRAM_CAP then
      let p1 := store st.1 st.2 93
      let i := (scanBack p1 st.2 st.2 1).1
      let d := (st.2 - i) % 65536
      some (store (store p1 (i + 1) d) (st.2 + 1) d, st.2 + 2)
    else none
  else
    if st.2 < PROGRAM_CAP then some (store st.1 st.2 t.1, st.2 + 2) else none

/-- The instructions written for a list of tokens. -/
def emit : List (Nat × Nat) → (Nat → Nat) × Nat → Option ((Nat → Nat) × Nat)
  | [], st => some st
  | t :: ts, st =>
    match emitTok t st with
    | none => none
    | some st1 => emit ts st1

/-- The outcome of the compile loop for an emitted program and a final file
position. -/
def emitOutcome (pos : Nat) : Option ((Nat → Nat) × Nat) → Outcome Compiler
  | some st => .done ⟨st.1, st.2, pos⟩
  | none => .undefined

/-- The slots 2 to 13 of a program hold the loop `[->+<]`. -/
def isMoveLoop (p : Nat → Nat) : Prop :=
  p 2 = 91 ∧ p 3 = 10 ∧ p 4 = 45 ∧ p 5 = 1 ∧ p 6 = 62 ∧ p 7 = 1 ∧
    p 8 = 43 ∧ p 9 = 1 ∧ p 10 = 60 ∧ p 11 = 1 ∧ p 12 = 93 ∧ p 13 = 10

/-! ## Bracket nesting and matching -/

/-- Depth scan of the brackets of a byte sequence from depth `d`: no `]` at
depth 0, and depth 0 at the end. -/
def nestOk : List Nat → Nat → Bool
  | [], d => d == 0
  | b :: rest, d =>
    if b = 91 then nestOk rest (d + 1)
    else if b = 93 then (if d = 0 then false else nestOk rest (d - 1))
    else nestOk rest d

/-- The brackets of a source are well nested. -/
def wellNested (src : List Nat) : Bool := nestOk src 0

/-- Matching of the brackets of the first `k` instructions of a program with a
stack: the result is the stack of the slots of the `[` still open (innermost
first) and the list of matched pairs `(slot of [, slot of ])`. A `]` met with
an empty stack is skipped. -/
def pairing (program : Nat → Nat) : Nat → List Nat × List (Nat × Nat)
  | 0 => ([], [])
  | k + 1 =>
    if program (2 * k) = 91 then (2 * k :: (pairing program k).1, (pairing program k).2)
    else if program (2 * k) = 93 then
      match (pairing program k).1 with
      | [] => ([], (pairing program k).2)
      | t :: s => (s, (t, 2 * k) :: (pairing program k).2)
    else pairing program k

/-- The matched bracket pairs of a program of `size` slots. -/
def bracketPairs (program : Nat → Nat) (size : Nat) : List (Nat × Nat) :=
  (pairing program (size / 2)).2

/-- The backward scan started at slot `n` with depth `d > 0` comes to each
open bracket of the stack in turn, one level lower each time. -/
def Chain (p : Nat → Nat) : Nat → List Nat → Prop
  | _, [] => True
  | n, t :: s =>
    t % 2 = 0 ∧ t < n ∧ p t = 91 ∧
      (∀ d, 0 < d → scanBack p n n d = scanBack p t t (d - 1)) ∧ Chain p t s

/-- Invariant of the emitted program `p` of `k` instructions whose stack
matching is `(S, P)`. -/
structure BracketInv (p : Nat → Nat) (k : Nat) (S : List Nat) (P : List (Nat × Nat)) :
    Prop where
  eq : pairing p k = (S, P)
  chain : Chain p (2 * k) S
  pairs : ∀ i j, (i, j) ∈ P → i % 2 = 0 ∧ j % 2 = 0 ∧ i < j ∧ j < 2 * k ∧
    p i = 91 ∧ p j = 93 ∧ p (i + 1) = (j - i) % 65536 ∧ p (j + 1) = (j - i) % 65536
  fresh : ∀ i j, (i, j) ∈ P → i ∉ S
  opens : ∀ i, i < k → p (2 * i) = 91 → 2 * i ∈ S ∨ ∃ j, (2 * i, j) ∈ P
  closes : ∀ j, j < k → p (2 * j) = 93 → ∃ i, (i, 2 * j) ∈ P

/-- The state after `n` successive loop iterations of `run_program` none of
which returns or is undefined. -/
def execN (kbd : Nat → Keyboard) : Nat → VM → Option VM
  | 0, vm => some vm
  | n + 1, vm =>
    match exec kbd vm with
    | .next vm1 => execN kbd n vm1
    | _ => none

/-- A machine about to run `+` with operand 3. -/
def vmPlus3 : VM :=
  { program := store (store (fun _ => 0) 0 43) 1 3, program_size := 2, cursor := 0,
    address := 0, memory := fun _ => 0, samples := 0, log := [] }

/-- A machine about to run `+` with operand 1 three times. -/
def vmPlus111 : VM :=
  { program := fun j => if j < 6 then (if j % 2 = 0 then 43 else 1) else 0,
    program_size := 6, cursor := 0, address := 0, memory := fun _ => 0,
    samples := 0, log := [] }

/-- Shape of a compiled program `p` of `n` slots: operator characters in the
even slots, 16-bit values everywhere, zeros from slot `n` on, and bracket
operands that keep a jump inside the program. -/
structure ProgramOK (p : Nat → Nat) (n : Nat) : Prop where
  even : n % 2 = 0
  cap : n ≤ PROGRAM_CAP
  zero : ∀ j, n ≤ j → p j = 0
  ops : ∀ j, j % 2 = 0 → j < n → isBFChar (p j) = true
  word : ∀ j, p j < 65536
  opens : ∀ i, i % 2 = 0 → i < n → p i = 91 → p (i + 1) % 2 = 0 ∧ i + p (i + 1) + 2 ≤ n
  closes : ∀ j, j % 2 = 0 → 2 ≤ j → j < n → p j = 93 → p (j + 1) % 2 = 0 ∧ p (j + 1) ≤ j

/-- The loop that writes `program.bin` (lines 196-200), on a host that stores
a `uint16_t` low byte first: for each instruction the opcode slot cut to a
`uint8_t`, then the two bytes of the operand slot. `fuel` bounds the number of
iterations. -/
def exportLoop (program : Nat → Nat) (program_size : Nat) : Nat → Nat → List Nat
  | 0, _ => []
  | fuel + 1, i =>
    if i < program_size then
      [program i % 256, program (i + 1) % 256, program (i + 1) / 256 % 256] ++
        exportLoop program program_size fuel (i + 2)
    else []

/-- The bytes written to `program.bin`; `program_size` iterations are enough
since `i` grows by 2. -/
def exportBytes (program : Nat → Nat) (program_size : Nat) : List Nat :=
  exportLoop program program_size program_size 0

/-- A reader of the export format as the specification describes it: records
of 3 bytes, an opcode byte and a little-endian 16-bit operand. No reader exists
in the source. -/
def decodeRecords : List Nat → List (Nat × Nat)
  | b0 :: b1 :: b2 :: rest => (b0, b1 + 256 * b2) :: decodeRecords rest
  | _ => []

/-- The state at the `n`-th instruction boundary: the machine after `n` loop
iterations of `run_program`, counted across calls (a `return` at `.` ends a
call and the next call goes on from the same globals); once the cursor has
reached `program_size` nothing moves any more. `none` after an undefined
access. -/
def boundary (kbd : Nat → Keyboard) : Nat → VM → Option VM
  | 0, vm => some vm
  | n + 1, vm =>
    if vm.cursor < vm.program_size then
      match exec kbd vm with
      | .next vm1 => boundary kbd n vm1
      | .ret vm1 => boundary kbd n vm1
      | .undefined => none
    else some vm

/-- Invariant of a machine that runs a compiled program: the program has the
shape `ProgramOK`, the cursor is even and at most `program_size`, the cursor
is 0 only before the first instruction (pointer 0, cell 0 still 0), and
nothing was printed as an unexpected character. -/
structure VMOK (vm : VM) : Prop where
  prog : ProgramOK vm.program vm.program_size
  even : vm.cursor % 2 = 0
  le : vm.cursor ≤ vm.program_size
  start : vm.cursor = 0 → vm.address = 0 ∧ vm.memory 0 = 0
  quiet : ∀ ch, Event.unexpected ch ∉ vm.log

/-- Depth scan of the brackets of a byte sequence from depth `d`: no `]` at
depth 0, that is, every `]` has a matching `[` before it. -/
def closesMatched : List Nat → Nat → Bool
  | [], _ => true
  | b :: rest, d =>
    if b = 91 then closesMatched rest (d + 1)
    else if b = 93 then (if d = 0 then false else closesMatched rest (d - 1))
    else closesMatched rest d

/-- A machine whose cursor is on a slot holding 0, which is no operator. -/
def vmBadOpcode : VM :=
  { program := fun _ => 0, program_size := 2, cursor := 0, address := 0,
    memory := fun _ => 0, samples := 0, log := [] }

/-- A machine about to run `+` with operand 1 on a cell holding 255. -/
def vmInc255 : VM :=
  { program := store (store (fun _ => 0) 0 43) 1 1, program_size := 2, cursor := 0,
    address := 0, memory := store (fun _ => 0) 0 255, samples := 0, log := [] }

/-- The fresh machine of the two-instruction program `>` 29999, `>` 1. -/
def vmMoves : VM :=
  { program := store (store (store (store (fun _ => 0) 0 62) 1 29999) 2 62) 3 1,
    program_size := 4, cursor := 0, address := 0, memory := fun _ => 0,
    samples := 0, log := [] }

/-! ## Basic facts -/

@[simp] theorem store_same (a : Nat → Nat) (i v : Nat) : store a i v i = v := by
  simp [store]

theorem store_other (a : Nat → Nat) (i v j : Nat) (h : j ≠ i) : store a i v j = a j := by
  simp [store, h]

theorem run_program_at_end (kbd : Nat → Keyboard) (vm : VM)
    (h : vm.program_size ≤ vm.cursor) (fuel : Nat) :
    run_program kbd fuel vm = .halted vm := by
  cases fuel <;> simp [run_program, Nat.not_lt.mpr h]

theorem visits_at_end (kbd : Nat → Keyboard) (vm : VM)
    (h : vm.program_size ≤ vm.cursor) (fuel slot : Nat) :
    visits kbd slot fuel vm = 0 := by
  cases fuel <;> simp [visits, Nat.not_lt.mpr h]

/-! ## Claims about `run_program` -/

/-- C5: when the cursor has reached the end of the program, `run_program`
returns at once through the loop test with the machine unchanged, whatever the
fuel, and so does every further call. -/
theorem halted_is_noop (kbd : Nat → Keyboard) (vm : VM)
    (h : vm.program_size ≤ vm.cursor) :
    (∀ fuel, run_program kbd fuel vm = .halted vm) ∧
      (∀ fuel n, run_calls kbd fuel n vm = some vm) ∧
      (∀ fuel slot, visits kbd slot fuel vm = 0) := by
  have h1 : ∀ fuel, run_program kbd fuel vm = .halted vm := run_program_at_end kbd vm h
  refine ⟨h1, ?_, fun fuel slot => visits_at_end kbd vm h fuel slot⟩
  intro fuel n
  induction n with
  | zero => rfl
  | succ n ih => simp [run_calls, h1, ih]

/-- Witness of C5 at the machine of the empty program. -/
theorem halted_is_noop_witness :
    (VM.fresh Compiler.init).program_size ≤ (VM.fresh Compiler.init).cursor ∧
      ((∀ fuel, run_program (fun _ => noKeys) fuel (VM.fresh Compiler.init)
          = .halted (VM.fresh Compiler.init)) ∧
        (∀ fuel n, run_calls (fun _ => noKeys) fuel n (VM.fresh Compiler.init)
          = some (VM.fresh Compiler.init)) ∧
        (∀ fuel slot, visits (fun _ => noKeys) slot fuel (VM.fresh Compiler.init) = 0)) :=
  ⟨Nat.le_refl 0, halted_is_noop (fun _ => noKeys) (VM.fresh Compiler.init) (Nat.le_refl 0)⟩

/-- C6: with the cell at the pointer holding `v` and the operand being `n`,
the `+` instruction stores `(v + n) % 256` and the `-` instruction stores the
residue of `v - n` modulo 256, which is the one `r < 256` with
`(r + n) % 256 = v`; neither fails. -/
theorem cell_arithmetic_wraps (kbd : Nat → Keyboard) (vm : VM) (v n : Nat)
    (hv : v < 256) (hcur : vm.cursor + 1 < PROGRAM_CAP)
    (hr : vm.inRange) (hcell : vm.cell = v) (hop : vm.program (vm.cursor + 1) = n) :
    (vm.program vm.cursor = 43 →
      exec kbd vm = .next { vm with
        memory := store vm.memory vm.address.toNat ((v + n) % 256)
        cursor := vm.cursor + 2 }) ∧
    (vm.program vm.cursor = 45 →
      ∃ r, r < 256 ∧ (r + n) % 256 = v ∧ (r : Int) = ((v : Int) - (n : Int)) % 256 ∧
        exec kbd vm = .next { vm with
          memory := store vm.memory vm.address.toNat r
          cursor := vm.cursor + 2 }) := by
  have hc0 : vm.cursor < PROGRAM_CAP := by omega
  constructor
  · intro h
    simp [exec, h, hc0, hcur, hr, hcell, hop, VM.setCell]
  · intro h
    refine ⟨(((v : Int) - (n : Int)) % 256).toNat, ?_, ?_, ?_, ?_⟩
    · omega
    · omega
    · omega
    · simp [exec, h, hc0, hcur, hr, hcell, hop, VM.setCell]

/-- Witness of C6: `+` with operand 1 on a cell holding 255 stores 0. -/
theorem cell_arithmetic_wraps_witness :
    exec (fun _ => noKeys) vmInc255 = .next { vmInc255 with
      memory := store vmInc255.memory vmInc255.address.toNat ((255 + 1) % 256)
      cursor := vmInc255.cursor + 2 } :=
  (cell_arithmetic_wraps (fun _ => noKeys) vmInc255 255 1 (by decide) (by decide)
    (by decide) rfl rfl).1 rfl

/-- C7 as stated fails: from the fresh machine, `>` 29999 followed by `>` 1
runs to the end of the program without any error and leaves the pointer at
30000, outside the memory window. -/
theorem pointer_leaves_window :
    ∃ vm, run_program (fun _ => noKeys) 2 vmMoves = .halted vm ∧ vm.address = 30000 ∧
      ¬ vm.inRange :=
  ⟨_, rfl, rfl, by decide⟩

/-- C7 amended: `>` and `<` with operand `n` set the pointer to `address + n`
and `address - n` with no test against the memory window; memory is not
touched and the only limit is the range of `int`. -/
theorem move_is_unchecked (kbd : Nat → Keyboard) (vm : VM) (n : Nat)
    (hcur : vm.cursor + 1 < PROGRAM_CAP) (hop : vm.program (vm.cursor + 1) = n) :
    (vm.program vm.cursor = 62 → vm.address + n ≤ INT_MAX →
      exec kbd vm = .next { vm with address := vm.address + n, cursor := vm.cursor + 2 }) ∧
    (vm.program vm.cursor = 60 → INT_MIN ≤ vm.address - n →
      exec kbd vm = .next { vm with address := vm.address - n, cursor := vm.cursor + 2 }) := by
  have hc0 : vm.cursor < PROGRAM_CAP := by omega
  constructor
  · intro h hle
    simp [exec, h, hc0, hcur, hop, hle]
  · intro h hle
    simp [exec, h, hc0, hcur, hop, hle]

/-- Witness of C7 amended: at pointer 29999 the instruction `>` 1 gives
pointer 30000. -/
theorem move_is_unchecked_witness :
    exec (fun _ => noKeys) { vmMoves with cursor := 2, address := 29999 } =
      .next { vmMoves with cursor := 2 + 2, address := 29999 + (1 : Nat) } :=
  (move_is_unchecked (fun _ => noKeys) { vmMoves with cursor := 2, address := 29999 } 1
    (by decide) rfl).1 rfl (by decide)

/-! ## The compile loop computes the token translation -/

theorem runRest_length_le (ch : Nat) (l : List Nat) : (runRest ch l).length ≤ l.length := by
  induction l with
  | nil => simp [runRest]
  | cons b rest ih =>
    unfold runRest
    split
    · simp; omega
    · split
      · simp
      · simp; omega

theorem runRest_drop (ch : Nat) (l : List Nat) :
    l.drop (l.length - (runRest ch l).length) = runRest ch l := by
  induction l with
  | nil => simp [runRest]
  | cons b rest ih =>
    have hle := runRest_length_le ch rest
    unfold runRest
    split
    · have : (b :: rest).length - (runRest ch rest).length
          = (rest.length - (runRest ch rest).length) + 1 := by simp; omega
      rw [this, List.drop_succ_cons, ih]
    · split
      · simp
      · have : (b :: rest).length - (runRest ch rest).length
            = (rest.length - (runRest ch rest).length) + 1 := by simp; omega
        rw [this, List.drop_succ_cons, ih]

theorem runRest_head (ch : Nat) (l : List Nat) (d : Nat) (r : List Nat)
    (h : runRest ch l = d :: r) : isBFChar d = true ∧ d ≠ ch := by
  induction l with
  | nil => simp [runRest] at h
  | cons b rest ih =>
    unfold runRest at h
    split at h
    · exact ih h
    · split at h
      · rename_i h1 h2
        simp at h
        obtain ⟨rfl, -⟩ := h
        exact ⟨by simpa using h1, h2⟩
      · exact ih h

theorem runRest_nil (ch : Nat) (l : List Nat) (h : runRest ch l = []) :
    ∀ b ∈ l, b = ch ∨ isBFChar b = false := by
  induction l with
  | nil => simp
  | cons b rest ih =>
    unfold runRest at h
    split at h
    · rename_i h1
      intro x hx
      rcases List.mem_cons.mp hx with rfl | hx
      · exact Or.inr h1
      · exact ih h x hx
    · split at h
      · simp at h
      · rename_i h1 h2
        intro x hx
        rcases List.mem_cons.mp hx with rfl | hx
        · exact Or.inl (by simpa using h2)
        · exact ih h x hx

theorem runLoop_eq (ch : Nat) (l : List Nat) (n pos : Nat) (hn : n < 65536) :
    runLoop ch l n pos =
      ((n + runCount ch l) % 65536, pos + (l.length - (runRest ch l).length),
        !(runRest ch l).isEmpty) := by
  induction l generalizing n pos with
  | nil => simp [runLoop, runCount, runRest, Nat.mod_eq_of_lt hn]
  | cons b rest ih =>
    have hle := runRest_length_le ch rest
    unfold runLoop runCount runRest
    split
    · rw [ih n (pos + 1) hn]
      simp; omega
    · split
      · simp [Nat.mod_eq_of_lt hn]
      · rw [ih ((n + 1) % 65536) (pos + 1) (Nat.mod_lt _ (by decide))]
        simp
        constructor
        · omega
        · omega

theorem isRunOp_iff (a : Nat) :
    isRunOp a = true ↔ (a = 62 ∨ a = 60 ∨ a = 43 ∨ a = 45) := by
  simp [isRunOp, or_assoc]

theorem isBFChar_iff (a : Nat) :
    isBFChar a = true ↔
      (a = 62 ∨ a = 60 ∨ a = 43 ∨ a = 45 ∨ a = 91 ∨ a = 93 ∨ a = 46 ∨ a = 44 ∨ a = 63) := by
  simp [isBFChar, or_assoc]

theorem isBFChar_of_isRunOp {a : Nat} (h : isRunOp a = true) : isBFChar a = true := by
  rw [isRunOp_iff] at h
  rw [isBFChar_iff]
  omega

theorem isRunOp_false_of_not_BF {a : Nat} (h : isBFChar a = false) : isRunOp a = false := by
  cases h1 : isRunOp a
  · rfl
  · rw [isBFChar_of_isRunOp h1] at h
    cases h

theorem groupRuns_head (b : Nat) (rest : List Nat) (hb : isBFChar b = true) :
    ∃ k ts, groupRuns (b :: rest) = (b, k) :: ts := by
  unfold groupRuns
  split
  · cases hg : groupRuns rest with
    | nil => exact ⟨1, [], rfl⟩
    | cons t ts =>
      obtain ⟨b1, k⟩ := t
      by_cases hb1 : b1 = b
      · exact ⟨k + 1, ts, by simp [pushRun, hb1]⟩
      · exact ⟨1, (b1, k) :: ts, by simp [pushRun, hb1]⟩
  · simp [hb]

theorem groupRuns_run (ch : Nat) (l : List Nat) (hch : isRunOp ch = true) :
    groupRuns (ch :: l) = (ch, runCount ch l + 1) :: groupRuns (runRest ch l) := by
  induction l with
  | nil => simp [groupRuns, hch, pushRun, runCount, runRest]
  | cons b rest ih =>
    by_cases hb : isBFChar b = false
    · have h1 : groupRuns (b :: rest) = groupRuns rest := by
        simp [groupRuns, hb, isRunOp_false_of_not_BF hb]
      have h2 : groupRuns (ch :: b :: rest) = groupRuns (ch :: rest) := by
        simp only [groupRuns, hch, if_true] at h1 ⊢
        rw [h1]
      rw [h2, ih]
      simp [runCount, runRest, hb]
    · have hb1 : isBFChar b = true := by simpa using hb
      by_cases hbc : b = ch
      · subst hbc
        have h2 : groupRuns (b :: b :: rest) = pushRun b (groupRuns (b :: rest)) := by
          simp [groupRuns, hch]
        rw [h2, ih]
        simp [pushRun, runCount, runRest, hb1]
      · obtain ⟨k, ts, hk⟩ := groupRuns_head b rest hb1
        have h2 : groupRuns (ch :: b :: rest) = pushRun ch (groupRuns (b :: rest)) := by
          simp [groupRuns, hch]
        rw [h2, hk]
        simp [pushRun, runCount, runRest, hb1, hbc, hk]

theorem compileStep_junk (src : List Nat) (ch : Nat) (c : Compiler)
    (h : isBFChar ch = false) : compileStep src ch c = some c := by
  have h1 : ¬ (ch = 62 ∨ ch = 60 ∨ ch = 43 ∨ ch = 45 ∨ ch = 91 ∨ ch = 93 ∨ ch = 46 ∨
      ch = 44 ∨ ch = 63) := by
    rw [← isBFChar_iff]; simp [h]
  unfold compileStep
  rw [if_neg (by omega), if_neg (by omega), if_neg (by omega)]

theorem compileStep_run (src : List Nat) (ch : Nat) (c : Compiler)
    (h : isRunOp ch = true) :
    compileStep src ch c =
      if c.program_size + 1 < PROGRAM_CAP then
        some {
          program := store (store c.program c.program_size ch) (c.program_size + 1)
            (runLoop ch (src.drop c.pos) 1 c.pos).1
          program_size := c.program_size + 2
          pos := if (runLoop ch (src.drop c.pos) 1 c.pos).2.2
            then (runLoop ch (src.drop c.pos) 1 c.pos).2.1
            else (runLoop ch (src.drop c.pos) 1 c.pos).2.1 - 1 }
      else none := by
  rw [isRunOp_iff] at h
  unfold compileStep
  rw [if_neg (by omega), if_pos (by omega)]

theorem compileStep_close (src : List Nat) (c : Compiler) :
    compileStep src 93 c =
      if c.program_size + 1 < PROGRAM_CAP then
        some { c with
          program := store (store (store c.program c.program_size 93)
            ((scanBack (store c.program c.program_size 93) c.program_size c.program_size 1).1 + 1)
            ((c.program_size -
              (scanBack (store c.program c.program_size 93) c.program_size c.program_size 1).1)
              % 65536))
            (c.program_size + 1)
            ((c.program_size -
              (scanBack (store c.program c.program_size 93) c.program_size c.program_size 1).1)
              % 65536)
          program_size := c.program_size + 2 }
      else none := by
  unfold compileStep
  rw [if_neg (by omega), if_neg (by omega), if_pos rfl]

theorem compileStep_unit (src : List Nat) (ch : Nat) (c : Compiler)
    (h : ch = 46 ∨ ch = 44 ∨ ch = 63 ∨ ch = 91) :
    compileStep src ch c =
      if c.program_size < PROGRAM_CAP then
        some { c with
          program := store c.program c.program_size ch
          program_size := c.program_size + 2 }
      else none := by
  unfold compileStep
  rw [if_pos h]

theorem groupRuns_junk (b : Nat) (rest : List Nat) (hb : isBFChar b = false) :
    groupRuns (b :: rest) = groupRuns rest := by
  simp [groupRuns, hb, isRunOp_false_of_not_BF hb]

/-- When a run reaches the end of a file that does not end in a run operator,
the byte that the final `fseek` makes the loop read again is not an operator. -/
theorem run_at_eof (src : List Nat) (hend : endsInRun src = false) (pos ch : Nat)
    (hp : pos < src.length) (hch : src[pos] = ch) (hrun : isRunOp ch = true)
    (hall : ∀ b ∈ src.drop (pos + 1), b = ch ∨ isBFChar b = false) :
    pos + 2 ≤ src.length ∧ groupRuns (src.drop (src.length - 1)) = [] := by
  have hlast : src.getLast? = some (src[src.length - 1]) := by
    rw [List.getLast?_eq_getElem?, List.getElem?_eq_getElem (by omega)]
  have hnr : isRunOp (src[src.length - 1]) = false := by
    simpa [endsInRun, hlast] using hend
  have h2 : pos + 2 ≤ src.length := by
    by_contra hcon
    have hpe : src.length - 1 = pos := by omega
    have : src[src.length - 1] = ch := by
      rw [← hch]; congr 1
    rw [this, hrun] at hnr
    cases hnr
  refine ⟨h2, ?_⟩
  have hmem : src[src.length - 1] ∈ src.drop (pos + 1) := by
    rw [List.mem_iff_getElem]
    refine ⟨src.length - 1 - (pos + 1), by simp; omega, ?_⟩
    rw [List.getElem_drop]
    congr 1
    omega
  have hjunk : isBFChar (src[src.length - 1]) = false := by
    rcases hall _ hmem with h | h
    · rw [h, hrun] at hnr
      cases hnr
    · exact h
  have hd : src.drop (src.length - 1) = [src[src.length - 1]] := by
    rw [List.drop_eq_getElem_cons (by omega)]
    have : src.length - 1 + 1 = src.length := by omega
    rw [this, List.drop_length]
  rw [hd, groupRuns_junk _ _ hjunk]
  rfl

/-- On a file that does not end in `>`, `<`, `+` or `-`, the compile loop run
with more fuel than there are bytes left computes the token translation of the
rest of the file and ends at the end of the file. -/
theorem compileLoop_eq_emit (src : List Nat) (hend : endsInRun src = false) :
    ∀ (fuel : Nat) (c : Compiler), c.pos ≤ src.length → src.length - c.pos < fuel →
      compileLoop src fuel c =
        emitOutcome src.length
          (emit (groupRuns (src.drop c.pos)) (c.program, c.program_size)) := by
  intro fuel
  induction fuel with
  | zero => intro c _ h; omega
  | succ fuel ih =>
    intro c hpos hfuel
    by_cases hp : c.pos < src.length
    · have hget : src.get? c.pos = some src[c.pos] := by
        simp [List.getElem?_eq_getElem hp]
      have hdrop : src.drop c.pos = src[c.pos] :: src.drop (c.pos + 1) :=
        List.drop_eq_getElem_cons hp
      have hall := run_at_eof src hend c.pos _ hp rfl
      rw [hdrop]
      simp only [compileLoop, hget]
      generalize src[c.pos] = ch at hall
      by_cases hrun : isRunOp ch = true
      · rw [compileStep_run _ _ _ hrun, groupRuns_run _ _ hrun]
        simp only [emit, emitTok, hrun, if_true]
        by_cases hcap : c.program_size + 1 < PROGRAM_CAP
        · simp only [hcap, if_true]
          rw [runLoop_eq _ _ _ _ (by decide)]
          have hle := runRest_length_le ch (src.drop (c.pos + 1))
          have hsuf := runRest_drop ch (src.drop (c.pos + 1))
          simp only [List.length_drop] at hle hsuf ⊢
          cases hrest : runRest ch (src.drop (c.pos + 1)) with
          | nil =>
            obtain ⟨h2, hg⟩ := hall hrun (runRest_nil _ _ hrest)
            rw [ih _ (by simp; omega) (by simp; omega)]
            simp only [List.isEmpty_nil, Bool.not_true, List.length_nil, Nat.sub_zero,
              Bool.false_eq_true, if_false]
            have : c.pos + 1 + (src.length - (c.pos + 1)) - 1 = src.length - 1 := by omega
            rw [this, hg, groupRuns]
            simp [emit, Nat.add_comm]
          | cons d r =>
            rw [hrest] at hle hsuf
            simp only [List.length_cons] at hle hsuf
            rw [List.drop_drop] at hsuf
            rw [ih _ (by simp; omega) (by simp; omega)]
            simp only [List.isEmpty_cons, Bool.not_false, if_true, List.length_cons]
            rw [hsuf, Nat.add_comm 1]
        · simp [hcap, emitOutcome]
      · have hrun0 : isRunOp ch = false := by simpa using hrun
        by_cases hbf : isBFChar ch = true
        · have hg : groupRuns (ch :: src.drop (c.pos + 1))
              = (ch, 0) :: groupRuns (src.drop (c.pos + 1)) := by
            simp [groupRuns, hrun0, hbf]
          rw [hg]
          by_cases h93 : ch = 93
          · subst h93
            rw [compileStep_close]
            simp only [emit, emitTok, hrun0, Bool.false_eq_true, if_false, if_true]
            by_cases hcap : c.program_size + 1 < PROGRAM_CAP
            · simp only [hcap, if_true]
              rw [ih _ (by simp; omega) (by simp; omega)]
            · simp [hcap, emitOutcome]
          · have hu : ch = 46 ∨ ch = 44 ∨ ch = 63 ∨ ch = 91 := by
              have h1 := (isBFChar_iff ch).mp hbf
              have h2 : ¬ (ch = 62 ∨ ch = 60 ∨ ch = 43 ∨ ch = 45) := by
                rw [← isRunOp_iff]; simp [hrun0]
              omega
            rw [compileStep_unit _ _ _ hu]
            simp only [emit, emitTok, hrun0, h93, Bool.false_eq_true, if_false]
            by_cases hcap : c.program_size < PROGRAM_CAP
            · simp only [hcap, if_true]
              rw [ih _ (by simp; omega) (by simp; omega)]
            · simp [hcap, emitOutcome]
        · have hbf0 : isBFChar ch = false := by simpa using hbf
          rw [compileStep_junk _ _ _ hbf0, groupRuns_junk _ _ hbf0]
          simp only []
          rw [ih _ (by simp; omega) (by simp; omega)]
    · have hpe : c.pos = src.length := by omega
      have hget : src.get? c.pos = none := by
        simp [List.getElem?_eq_none, hpe]
      simp only [compileLoop, hget]
      rw [hpe, List.drop_length]
      simp only [groupRuns, emit, emitOutcome]
      rw [← hpe]

/-- Compilation of a file that does not end in a run operator, with more fuel
than the file has bytes. -/
theorem compile_eq_emit (src : List Nat) (hend : endsInRun src = false) (fuel : Nat)
    (hfuel : src.length < fuel) :
    compile fuel src = emitOutcome src.length (emit (groupRuns src) (fun _ => 0, 0)) := by
  have h := compileLoop_eq_emit src hend fuel Compiler.init (Nat.zero_le _)
    (by simpa [Compiler.init] using hfuel)
  simpa [compile, Compiler.init] using h

theorem groupRuns_single_run (c : Nat) (hc : isRunOp c = true) (l : List Nat)
    (hl : ∀ b ∈ l, b = c ∨ isBFChar b = false) :
    groupRuns l = if l.count c = 0 then [] else [(c, l.count c)] := by
  induction l with
  | nil => simp [groupRuns]
  | cons b rest ih =>
    have ih1 := ih (fun x hx => hl x (List.mem_cons_of_mem _ hx))
    rcases hl b (List.mem_cons_self _ _) with hb | hb
    · subst hb
      have : groupRuns (b :: rest) = pushRun b (groupRuns rest) := by simp [groupRuns, hc]
      rw [this, ih1]
      by_cases h0 : rest.count b = 0
      · simp [h0, pushRun]
      · simp [h0, pushRun]
    · have hne : b ≠ c := by
        intro h; rw [h, isBFChar_of_isRunOp hc] at hb; cases hb
      rw [groupRuns_junk _ _ hb, ih1, List.count_cons_of_ne (Ne.symm hne)]

theorem runCount_replicate (c d : Nat) (rest : List Nat) (hc : isRunOp c = true)
    (hd : isBFChar d = true) (hdc : d ≠ c) (k : Nat) :
    runCount c (List.replicate k c ++ d :: rest) = k ∧
      runRest c (List.replicate k c ++ d :: rest) = d :: rest := by
  induction k with
  | zero => simp [runCount, runRest, hd, hdc]
  | succ k ih =>
    simp [List.replicate_succ, runCount, runRest, isBFChar_of_isRunOp hc, ih.1, ih.2]

theorem groupRuns_replicate (c d : Nat) (rest : List Nat) (hc : isRunOp c = true)
    (hd : isBFChar d = true) (hdc : d ≠ c) (k : Nat) :
    groupRuns (List.replicate (k + 1) c ++ d :: rest) = (c, k + 1) :: groupRuns (d :: rest) := by
  have h := runCount_replicate c d rest hc hd hdc k
  rw [List.replicate_succ, List.cons_append, groupRuns_run _ _ hc, h.1, h.2]

theorem instrs_two (p : Nat → Nat) : instrs p 2 = [(p 0, p 1)] := by
  simp [instrs, List.range_succ]

/-- The instructions compiled from a source made of bytes `c` and non-operator
bytes that ends in a non-operator byte. -/
theorem compile_single_run (c : Nat) (src : List Nat) (fuel : Nat)
    (hc : isRunOp c = true) (hk : 1 ≤ src.count c)
    (hsrc : ∀ b ∈ src, b = c ∨ isBFChar b = false)
    (hend : endsInRun src = false) (hfuel : src.length < fuel) :
    (compile fuel src).instrs = some [(c, src.count c % 65536)] := by
  rw [compile_eq_emit src hend fuel hfuel, groupRuns_single_run c hc src hsrc,
    if_neg (by omega)]
  simp [emit, emitTok, hc, PROGRAM_CAP, emitOutcome, Outcome.instrs, instrs_two, store]

/-- The source of `k` bytes `+` followed by a newline. -/
theorem compile_plus_newline (k : Nat) (hk : 1 ≤ k) :
    (∀ b ∈ List.replicate k 43 ++ [10], b = 43 ∨ isBFChar b = false) ∧
      (List.replicate k 43 ++ [10]).count 43 = k ∧
      (compile (k + 2) (List.replicate k 43 ++ [10])).instrs = some [(43, k % 65536)] := by
  have h1 : ∀ b ∈ List.replicate k 43 ++ [10], b = 43 ∨ isBFChar b = false := by
    intro b hb
    rcases List.mem_append.mp hb with h | h
    · exact Or.inl (List.eq_of_mem_replicate h)
    · simp at h; subst h; exact Or.inr (by decide)
  have h2 : (List.replicate k 43 ++ [10]).count 43 = k := by
    simp [List.count_append, List.count_replicate_self]
  have h3 : endsInRun (List.replicate k 43 ++ [10]) = false := by
    simp [endsInRun, isRunOp]
  have h4 := compile_single_run 43 _ (k + 2) (by decide) (by omega) h1 h3 (by simp)
  rw [h2] at h4
  exact ⟨h1, h2, h4⟩

/-! ## Claims about the compile loop -/

/-- C2 as stated fails: 65536 bytes `+` followed by a newline compile to the
single instruction `+` with operand 0, not 65536, because the operand slot is a
`uint16_t` that the look-ahead loop increments once per byte. -/
theorem run_of_65536_wraps :
    (∀ b ∈ List.replicate 65536 43 ++ [10], b = 43 ∨ isBFChar b = false) ∧
      (List.replicate 65536 43 ++ [10]).count 43 = 65536 ∧
      (compile (65536 + 2) (List.replicate 65536 43 ++ [10])).instrs
        = some [(43, 65536 % 65536)] ∧
      [(43, 65536 % 65536)] ≠ [(43, 65536)] :=
  ⟨(compile_plus_newline 65536 (by decide)).1, (compile_plus_newline 65536 (by decide)).2.1,
    (compile_plus_newline 65536 (by decide)).2.2, by decide⟩

/-- C2 amended: for a run operator `c` and a source made of `k >= 1` bytes `c`
and of non-operator bytes, whose last byte is a non-operator byte, the compile
loop terminates (any fuel above the length of the source is enough) with
exactly one instruction, of opcode `c` and operand `k % 65536`, which is `k`
when `k <= 65535`. -/
theorem single_run_one_instruction (c k : Nat) (src : List Nat) (fuel : Nat)
    (hc : isRunOp c = true) (hk : 1 ≤ k) (hcount : src.count c = k)
    (hsrc : ∀ b ∈ src, b = c ∨ isBFChar b = false)
    (hend : endsInRun src = false) (hfuel : src.length < fuel) :
    (compile fuel src).instrs = some [(c, k % 65536)] ∧
      (k ≤ 65535 → (compile fuel src).instrs = some [(c, k)]) := by
  subst hcount
  have h := compile_single_run c src fuel hc hk hsrc hend hfuel
  refine ⟨h, fun hle => ?_⟩
  rw [h, Nat.mod_eq_of_lt (by omega)]

/-- Witness of C2 amended: `+ + +` with blanks between and a final newline. -/
theorem single_run_one_instruction_witness :
    (compile 7 [43, 32, 43, 32, 43, 10]).instrs = some [(43, 3 % 65536)] ∧
      (3 ≤ 65535 → (compile 7 [43, 32, 43, 32, 43, 10]).instrs = some [(43, 3)]) :=
  single_run_one_instruction 43 3 [43, 32, 43, 32, 43, 10] 7 (by decide) (by decide)
    (by decide) (by decide) (by decide) (by decide)

/-- C3: for every `k >= 1` the source of `k` bytes `+` followed by `.`
compiles (any fuel above its length) to the two instructions `+` `k % 65536`
and `.`, and one call of `run_program` on the fresh machine (any fuel from 2 on)
returns through the `return` of the `.` instruction with the cursor at slot 4,
just past it, the pointer still 0, the cell at the pointer equal to `k % 256`
and all other cells 0. -/
theorem plus_run_then_output (k : Nat) (hk : 1 ≤ k) (kbd : Nat → Keyboard)
    (fuel1 fuel2 : Nat) (h1 : k + 1 < fuel1) (h2 : 2 ≤ fuel2) :
    ∃ c vm, compile fuel1 (List.replicate k 43 ++ [46]) = .done c ∧
      instrs c.program c.program_size = [(43, k % 65536), (46, 0)] ∧
      run_program kbd fuel2 (VM.fresh c) = .output vm ∧
      vm.cursor = 4 ∧ vm.address = 0 ∧ vm.cell = k % 256 ∧
      (∀ i, i ≠ 0 → vm.memory i = 0) ∧ vm.log = [] := by
  obtain ⟨m, rfl⟩ : ∃ m, k = m + 1 := ⟨k - 1, by omega⟩
  obtain ⟨g, rfl⟩ : ∃ g, fuel2 = g + 2 := ⟨fuel2 - 2, by omega⟩
  have hend : endsInRun (List.replicate (m + 1) 43 ++ [46]) = false := by
    simp [endsInRun, isRunOp]
  have hg : groupRuns (List.replicate (m + 1) 43 ++ [46]) = [(43, m + 1), (46, 0)] := by
    rw [groupRuns_replicate 43 46 [] (by decide) (by decide) (by decide) m]
    rfl
  have hc := compile_eq_emit _ hend fuel1 (by simpa using h1)
  rw [hg] at hc
  simp only [emit, emitTok, isRunOp, PROGRAM_CAP, emitOutcome] at hc
  simp at hc
  have hrun : run_program kbd (g + 2)
      (VM.fresh ⟨store (store (store (fun _ => 0) 0 43) 1 ((m + 1) % 65536)) 2 46, 4, m + 1 + 1⟩)
      = .output { program := store (store (store (fun _ => 0) 0 43) 1 ((m + 1) % 65536)) 2 46,
                  program_size := 4, cursor := 4, address := 0,
                  memory := store (fun _ => 0) 0 ((m + 1) % 256), samples := 0, log := [] } := by
    have hmod : (m + 1) % 65536 % 256 = (m + 1) % 256 := by omega
    simp [run_program, exec, VM.fresh, PROGRAM_CAP, VM.inRange, VM.cell, VM.setCell,
      store_other, hmod]
  refine ⟨_, _, hc, ?_, hrun, rfl, rfl, ?_, ?_, rfl⟩
  · simp [instrs, List.range_succ, store]
  · simp [VM.cell, store]
  · intro i hi
    simp [store, hi]

/-- Witness of C3: `++++.` suspends at the `.` with cell value 4. -/
theorem plus_run_then_output_witness :
    ∃ c vm, compile 6 (List.replicate 4 43 ++ [46]) = .done c ∧
      instrs c.program c.program_size = [(43, 4 % 65536), (46, 0)] ∧
      run_program (fun _ => noKeys) 2 (VM.fresh c) = .output vm ∧
      vm.cursor = 4 ∧ vm.address = 0 ∧ vm.cell = 4 % 256 ∧
      (∀ i, i ≠ 0 → vm.memory i = 0) ∧ vm.log = [] :=
  plus_run_then_output 4 (by decide) (fun _ => noKeys) 6 2 (by decide) (by decide)

/-- One pass through the body of `[->+<]` and its `]`. -/
theorem move_loop_pass (kbd : Nat → Keyboard) (vm : VM) (m a : Nat)
    (hp : isMoveLoop vm.program) (hs : vm.program_size = 14) (hc : vm.cursor = 4)
    (ha : vm.address = 0) (h0 : vm.memory 0 = m + 1) (hm : m + 1 ≤ 255)
    (h1 : vm.memory 1 = a) (ha1 : a + 1 ≤ 255) :
    ∃ vm1, (∀ fuel, run_program kbd (fuel + 5) vm = run_program kbd fuel vm1) ∧
      (∀ fuel, visits kbd 4 (fuel + 5) vm = 1 + visits kbd 4 fuel vm1) ∧
      vm1.program = vm.program ∧ vm1.program_size = 14 ∧
      vm1.cursor = (if m = 0 then 14 else 4) ∧ vm1.address = 0 ∧
      vm1.memory 0 = m ∧ vm1.memory 1 = a + 1 ∧
      (∀ i, 2 ≤ i → vm1.memory i = vm.memory i) ∧ vm1.log = vm.log := by
  obtain ⟨prog, size, cursor, addr, mem, samples, log⟩ := vm
  simp only at hp hs hc ha h0 h1
  subst hs hc ha
  obtain ⟨p2, p3, p4, p5, p6, p7, p8, p9, p10, p11, p12, p13⟩ := hp
  have hjump : (13 + SIZE_MOD - 10 % SIZE_MOD + 1) % SIZE_MOD = 4 := by decide
  have hcell : ((m : Int) % 256).toNat = m := by omega
  have ha2 : (a + 1) % 256 = a + 1 := by omega
  refine ⟨{ program := prog, program_size := 14, cursor := if m = 0 then 14 else 4,
            address := 0, memory := store (store mem 0 m) 1 (a + 1), samples := samples,
            log := log }, ?_, ?_, rfl, rfl, rfl, rfl, ?_, ?_, ?_, rfl⟩
  · intro fuel
    simp [run_program, exec, PROGRAM_CAP, VM.inRange, VM.cell, VM.setCell, store_other,
      p4, p5, p6, p7, p8, p9, p10, p11, p12, p13, h0, h1, INT_MAX, INT_MIN]
    rw [hjump, hcell, ha2]
    by_cases hm0 : m = 0
    · have : ¬ (0 < (m : Int) % 256) := by omega
      simp [this, hm0]
    · have : 0 < (m : Int) % 256 := by omega
      simp [this, hm0]
  · intro fuel
    simp [visits, exec, PROGRAM_CAP, VM.inRange, VM.cell, VM.setCell, store_other,
      p4, p5, p6, p7, p8, p9, p10, p11, p12, p13, h0, h1, INT_MAX, INT_MIN]
    rw [hjump, hcell, ha2]
    by_cases hm0 : m = 0
    · have : ¬ (0 < (m : Int) % 256) := by omega
      simp [this, hm0]
    · have : 0 < (m : Int) % 256 := by omega
      simp [this, hm0]
  · simp [store]
  · simp [store]
  · intro i hi
    have e0 : i ≠ 0 := by omega
    have e1 : i ≠ 1 := by omega
    simp [store, e0, e1]

/-- The loop `[->+<]` entered with `m + 1` in cell 0 makes `m + 1` passes and
leaves the program. -/
theorem move_loop_runs (kbd : Nat → Keyboard) :
    ∀ (m : Nat) (vm : VM) (a : Nat), isMoveLoop vm.program → vm.program_size = 14 →
      vm.cursor = 4 → vm.address = 0 → vm.memory 0 = m + 1 → vm.memory 1 = a →
      a + m + 1 ≤ 255 → ∀ g, ∃ vm1,
        run_program kbd (5 * (m + 1) + g) vm = .halted vm1 ∧
        visits kbd 4 (5 * (m + 1) + g) vm = m + 1 ∧
        vm1.cursor = 14 ∧ vm1.address = 0 ∧ vm1.memory 0 = 0 ∧ vm1.memory 1 = a + m + 1 ∧
        (∀ i, 2 ≤ i → vm1.memory i = vm.memory i) ∧ vm1.log = vm.log := by
  intro m
  induction m with
  | zero =>
    intro vm a hp hs hc ha h0 h1 hle g
    obtain ⟨vm1, r1, r2, q1, q2, q3, q4, q5, q6, q7, q8⟩ :=
      move_loop_pass kbd vm 0 a hp hs hc ha h0 (by omega) h1 (by omega)
    have hend : vm1.program_size ≤ vm1.cursor := by rw [q2, q3]; simp
    refine ⟨vm1, ?_, ?_, ?_, q4, q5, ?_, q7, q8⟩
    · have := r1 g
      rw [Nat.add_comm] at this
      rw [show 5 * (0 + 1) + g = 5 + g from by omega, this, run_program_at_end kbd vm1 hend]
    · have := r2 g
      rw [Nat.add_comm] at this
      rw [show 5 * (0 + 1) + g = 5 + g from by omega, this, visits_at_end kbd vm1 hend]
    · rw [q3]; simp
    · rw [q6]
  | succ m ih =>
    intro vm a hp hs hc ha h0 h1 hle g
    obtain ⟨vm1, r1, r2, q1, q2, q3, q4, q5, q6, q7, q8⟩ :=
      move_loop_pass kbd vm (m + 1) a hp hs hc ha h0 (by omega) h1 (by omega)
    have hc1 : vm1.cursor = 4 := by rw [q3]; simp
    obtain ⟨vm2, t1, t2, t3, t4, t5, t6, t7, t8⟩ :=
      ih vm1 (a + 1) (by rw [q1]; exact hp) q2 hc1 q4 q5 q6 (by omega) g
    refine ⟨vm2, ?_, ?_, t3, t4, t5, ?_, ?_, ?_⟩
    · have := r1 (5 * (m + 1) + g)
      rw [show 5 * (m + 1 + 1) + g = 5 * (m + 1) + g + 5 from by omega, this, t1]
    · have := r2 (5 * (m + 1) + g)
      rw [show 5 * (m + 1 + 1) + g = 5 * (m + 1) + g + 5 from by omega, this, t2]
      omega
    · rw [t6]; omega
    · intro i hi
      rw [t7 i hi, q7 i hi]
    · rw [t8, q8]

/-- C4: for `1 <= n <= 255` the source of `n` bytes `+` followed by `[->+<]`
compiles to seven instructions, and `run_program` on the fresh machine, with
any fuel from `5 * n + 2` on, leaves through the loop test with the cursor at
the end of the program, the pointer 0, cell 0 equal to 0, cell 1 equal to `n`
and every other cell 0; the first instruction of the loop body (slot 4) is
executed exactly `n` times. -/
theorem move_loop_program (n : Nat) (hn1 : 1 ≤ n) (hn2 : n ≤ 255) (kbd : Nat → Keyboard)
    (fuel1 fuel2 : Nat) (h1 : n + 6 < fuel1) (h2 : 5 * n + 2 ≤ fuel2) :
    ∃ c vm, compile fuel1 (List.replicate n 43 ++ [91, 45, 62, 43, 60, 93]) = .done c ∧
      instrs c.program c.program_size =
        [(43, n), (91, 10), (45, 1), (62, 1), (43, 1), (60, 1), (93, 10)] ∧
      run_program kbd fuel2 (VM.fresh c) = .halted vm ∧
      vm.cursor = c.program_size ∧ vm.address = 0 ∧
      vm.memory 0 = 0 ∧ vm.memory 1 = n ∧ (∀ i, 2 ≤ i → vm.memory i = 0) ∧
      visits kbd 4 fuel2 (VM.fresh c) = n := by
  obtain ⟨m, rfl⟩ : ∃ m, n = m + 1 := ⟨n - 1, by omega⟩
  obtain ⟨g, rfl⟩ : ∃ g, fuel2 = 5 * (m + 1) + g + 2 := ⟨fuel2 - (5 * (m + 1) + 2), by omega⟩
  have hend : endsInRun (List.replicate (m + 1) 43 ++ [91, 45, 62, 43, 60, 93]) = false := by
    simp [endsInRun, isRunOp]
  have hg : groupRuns (List.replicate (m + 1) 43 ++ [91, 45, 62, 43, 60, 93])
      = [(43, m + 1), (91, 0), (45, 1), (62, 1), (43, 1), (60, 1), (93, 0)] := by
    rw [groupRuns_replicate 43 91 _ (by decide) (by decide) (by decide) m]
    rfl
  have hc := compile_eq_emit _ hend fuel1 (by simp; omega)
  rw [hg] at hc
  simp [emit, emitTok, isRunOp, PROGRAM_CAP, emitOutcome, scanBack, store] at hc
  have hmod : (m + 1) % 65536 = m + 1 := by omega
  rw [hmod] at hc
  obtain ⟨c, hc1, hsz, hp0, hp1, hloop⟩ : ∃ c,
      compile fuel1 (List.replicate (m + 1) 43 ++ [91, 45, 62, 43, 60, 93]) = .done c ∧
      c.program_size = 14 ∧ c.program 0 = 43 ∧ c.program 1 = m + 1 ∧ isMoveLoop c.program :=
    ⟨_, hc, rfl, by simp [store], by simp [store], by simp [isMoveLoop, store]⟩
  obtain ⟨prog, size, pos⟩ := c
  simp only at hsz hp0 hp1 hloop
  subst hsz
  have hloop1 := hloop
  obtain ⟨p2, p3, p4, p5, p6, p7, p8, p9, p10, p11, p12, p13⟩ := hloop1
  have hm256 : (m + 1) % 256 = m + 1 := by omega
  have hrun2 : ∀ fuel, run_program kbd (fuel + 2) (VM.fresh ⟨prog, 14, pos⟩) =
      run_program kbd fuel (VM.mk prog 14 4 0 (store (fun _ => 0) 0 (m + 1)) 0 []) := by
    intro fuel
    simp [run_program, exec, VM.fresh, PROGRAM_CAP, VM.inRange, VM.cell, VM.setCell,
      hp0, hp1, p2, p3, hm256]
  have hvis2 : ∀ fuel, visits kbd 4 (fuel + 2) (VM.fresh ⟨prog, 14, pos⟩) =
      visits kbd 4 fuel (VM.mk prog 14 4 0 (store (fun _ => 0) 0 (m + 1)) 0 []) := by
    intro fuel
    simp [visits, exec, VM.fresh, PROGRAM_CAP, VM.inRange, VM.cell, VM.setCell,
      hp0, hp1, p2, p3, hm256]
  obtain ⟨vm1, t1, t2, t3, t4, t5, t6, t7, -⟩ :=
    move_loop_runs kbd m (VM.mk prog 14 4 0 (store (fun _ => 0) 0 (m + 1)) 0 []) 0
      hloop rfl rfl rfl (by simp) (by simp [store]) (by omega) g
  refine ⟨_, vm1, hc1, ?_, ?_, t3, t4, t5, ?_, ?_, ?_⟩
  · simp [instrs, List.range_succ, hp0, hp1, p2, p3, p4, p5, p6, p7, p8, p9, p10, p11, p12, p13]
  · rw [hrun2, t1]
  · rw [t6]; omega
  · intro i hi
    rw [t7 i hi]
    have : i ≠ 0 := by omega
    simp [store, this]
  · rw [hvis2, t2]

/-- Witness of C4: `+[->+<]` halts with cell 0 = 0 and cell 1 = 1 after one pass. -/
theorem move_loop_program_witness :
    ∃ c vm, compile 8 (List.replicate 1 43 ++ [91, 45, 62, 43, 60, 93]) = .done c ∧
      instrs c.program c.program_size =
        [(43, 1), (91, 10), (45, 1), (62, 1), (43, 1), (60, 1), (93, 10)] ∧
      run_program (fun _ => noKeys) 7 (VM.fresh c) = .halted vm ∧
      vm.cursor = c.program_size ∧ vm.address = 0 ∧
      vm.memory 0 = 0 ∧ vm.memory 1 = 1 ∧ (∀ i, 2 ≤ i → vm.memory i = 0) ∧
      visits (fun _ => noKeys) 4 7 (VM.fresh c) = 1 :=
  move_loop_program 1 (by decide) (by decide) (fun _ => noKeys) 8 7 (by decide) (by decide)

/-! ## The backward scan and the emitted slots -/

theorem scanBack_unmatched (p : Nat → Nat) :
    ∀ (fuel i d : Nat), i ≤ fuel → 0 < (scanBack p fuel i d).2 → (scanBack p fuel i d).1 = 0 := by
  intro fuel
  induction fuel with
  | zero =>
    intro i d hi _
    simp [scanBack]; omega
  | succ fuel ih =>
    intro i d hi hpos
    unfold scanBack at hpos ⊢
    by_cases hc : 0 < i ∧ 0 < d
    · simp only [hc, and_self, if_true] at hpos ⊢
      exact ih _ _ (by omega) hpos
    · simp only [hc, if_false] at hpos ⊢
      omega

theorem scanBack_le (p : Nat → Nat) :
    ∀ (fuel i d : Nat), (scanBack p fuel i d).1 ≤ i := by
  intro fuel
  induction fuel with
  | zero => intro i d; simp [scanBack]
  | succ fuel ih =>
    intro i d
    unfold scanBack
    by_cases hc : 0 < i ∧ 0 < d
    · simp only [hc, and_self, if_true]
      exact Nat.le_trans (ih _ _) (by omega)
    · simp only [hc, if_false]; exact Nat.le_refl _

theorem scanBack_even (p : Nat → Nat) :
    ∀ (fuel i d : Nat), i % 2 = 0 → (scanBack p fuel i d).1 % 2 = 0 := by
  intro fuel
  induction fuel with
  | zero => intro i d h; simpa [scanBack] using h
  | succ fuel ih =>
    intro i d h
    unfold scanBack
    by_cases hc : 0 < i ∧ 0 < d
    · simp only [hc, and_self, if_true]
      exact ih _ _ (by omega)
    · simp only [hc, if_false]; exact h

theorem emitTok_size (t : Nat × Nat) (st st1 : (Nat → Nat) × Nat)
    (h : emitTok t st = some st1) : st1.2 = st.2 + 2 := by
  unfold emitTok at h
  split at h
  · split at h
    · cases h; rfl
    · cases h
  · split at h
    · split at h
      · cases h; rfl
      · cases h
    · split at h
      · cases h; rfl
      · cases h

theorem emitTok_some (t : Nat × Nat) (st : (Nat → Nat) × Nat) (h : st.2 + 2 ≤ PROGRAM_CAP) :
    ∃ st1, emitTok t st = some st1 := by
  have h1 : st.2 + 1 < PROGRAM_CAP := by omega
  have h2 : st.2 < PROGRAM_CAP := by omega
  rw [← Option.isSome_iff_exists]
  unfold emitTok
  simp only [h1, h2, if_true]
  split
  · rfl
  · split <;> rfl

/-- A token other than `]` writes only the two slots of its own instruction. -/
theorem emitTok_other (t : Nat × Nat) (st st1 : (Nat → Nat) × Nat) (ht : t.1 ≠ 93)
    (h : emitTok t st = some st1) :
    st1.1 st.2 = t.1 ∧ ∀ j, j ≠ st.2 → j ≠ st.2 + 1 → st1.1 j = st.1 j := by
  by_cases hr : isRunOp t.1 = true
  · by_cases hcap : st.2 + 1 < PROGRAM_CAP
    · simp only [emitTok, hr, hcap, if_true, Option.some.injEq] at h
      subst h
      refine ⟨by simp [store], fun j h1 h2 => by simp [store, h1, h2]⟩
    · simp [emitTok, hr, hcap] at h
  · by_cases hcap : st.2 < PROGRAM_CAP
    · simp only [emitTok, hr, ht, hcap, if_true, if_false, Bool.false_eq_true,
        Option.some.injEq] at h
      subst h
      refine ⟨by simp [store], fun j h1 _ => by simp [store, h1]⟩
    · simp [emitTok, hr, ht, hcap] at h

theorem emit_length (toks : List (Nat × Nat)) :
    ∀ (st : (Nat → Nat) × Nat), st.2 + 2 * toks.length ≤ PROGRAM_CAP →
      ∃ st1, emit toks st = some st1 ∧ st1.2 = st.2 + 2 * toks.length := by
  induction toks with
  | nil => intro st _; exact ⟨st, rfl, by simp⟩
  | cons t ts ih =>
    intro st h
    simp only [List.length_cons] at h
    obtain ⟨st1, h1⟩ := emitTok_some t st (by omega)
    have hs := emitTok_size t st st1 h1
    obtain ⟨st2, h2, h3⟩ := ih st1 (by omega)
    refine ⟨st2, by simp [emit, h1, h2], ?_⟩
    rw [h3, hs]; simp; omega

theorem pushRun_length (b : Nat) (ts : List (Nat × Nat)) :
    (pushRun b ts).length ≤ ts.length + 1 := by
  unfold pushRun
  split
  · simp
  · split <;> simp

theorem groupRuns_length (l : List Nat) : (groupRuns l).length ≤ l.length := by
  induction l with
  | nil => simp [groupRuns]
  | cons b rest ih =>
    unfold groupRuns
    split
    · have := pushRun_length b (groupRuns rest)
      simp; omega
    · split
      · simp; omega
      · simp; omega

theorem pushRun_ops (b : Nat) (ts : List (Nat × Nat)) (t : Nat × Nat)
    (h : t ∈ pushRun b ts) : t.1 = b ∨ t ∈ ts := by
  unfold pushRun at h
  split at h
  · simp at h; left; rw [h]
  · split at h
    · rcases List.mem_cons.mp h with h | h
      · left; rw [h]
      · right; exact List.mem_cons_of_mem _ h
    · rcases List.mem_cons.mp h with h | h
      · left; rw [h]
      · right; exact h

theorem groupRuns_ops (l : List Nat) : ∀ t ∈ groupRuns l, t.1 ∈ l := by
  induction l with
  | nil => intro t ht; simp [groupRuns] at ht
  | cons b rest ih =>
    intro t ht
    unfold groupRuns at ht
    split at ht
    · rcases pushRun_ops b _ t ht with h | h
      · rw [h]; exact List.mem_cons_self _ _
      · exact List.mem_cons_of_mem _ (ih t h)
    · split at ht
      · rcases List.mem_cons.mp ht with h | h
        · rw [h]; exact List.mem_cons_self _ _
        · exact List.mem_cons_of_mem _ (ih t h)
      · exact List.mem_cons_of_mem _ (ih t ht)

/-- Tokens other than `]` leave the slots already written as they are and
write no `]` opcode. -/
theorem emit_no_close (toks : List (Nat × Nat)) :
    ∀ (st st1 : (Nat → Nat) × Nat), (∀ t ∈ toks, t.1 ≠ 93) → st.2 % 2 = 0 →
      emit toks st = some st1 →
      (∀ j, j < st.2 → st1.1 j = st.1 j) ∧
        (∀ k, st.2 ≤ 2 * k → 2 * k < st1.2 → st1.1 (2 * k) ≠ 93) := by
  induction toks with
  | nil =>
    intro st st1 _ _ h
    simp only [emit, Option.some.injEq] at h
    subst h
    exact ⟨fun _ _ => rfl, fun k h1 h2 => by omega⟩
  | cons t ts ih =>
    intro st st1 hts hev h
    cases hsa : emitTok t st with
    | none => simp [emit, hsa] at h
    | some sa =>
      simp only [emit, hsa] at h
      have hsz := emitTok_size t st sa hsa
      have ht : t.1 ≠ 93 := hts t (List.mem_cons_self _ _)
      obtain ⟨ho, hk⟩ := emitTok_other t st sa ht hsa
      obtain ⟨i1, i2⟩ := ih sa st1 (fun x hx => hts x (List.mem_cons_of_mem _ hx))
        (by omega) h
      constructor
      · intro j hj
        rw [i1 j (by omega), hk j (by omega) (by omega)]
      · intro k h1 h2
        by_cases hk0 : 2 * k = st.2
        · rw [hk0, i1 _ (by omega), ho]
          exact ht
        · exact i2 k (by omega) h2

/-- On the one-byte file `+` the loop reads the byte again after every
iteration: it runs out of any fuel, or leaves the array `program`. -/
theorem compileLoop_plus :
    ∀ (fuel : Nat) (c : Compiler), c.pos = 0 →
      compileLoop [43] fuel c =
        if fuel = 0 ∨ c.program_size + 2 * fuel ≤ PROGRAM_CAP then .timeout else .undefined := by
  intro fuel
  induction fuel with
  | zero => intro c hc; simp [compileLoop, hc]
  | succ fuel ih =>
    intro c hc
    have hget : ([43] : List Nat).get? c.pos = some 43 := by rw [hc]; rfl
    simp only [compileLoop, hget]
    rw [compileStep_run _ _ _ (by decide)]
    by_cases hcap : c.program_size + 1 < PROGRAM_CAP
    · simp only [hcap, if_true]
      rw [ih _ (by simp [hc, runLoop])]
      simp only
      by_cases hle : c.program_size + 2 * (fuel + 1) ≤ PROGRAM_CAP
      · rw [if_pos (Or.inr (by omega)), if_pos (Or.inr hle)]
      · rw [if_neg (by omega), if_neg (by omega)]
    · simp only [hcap, if_false]
      rw [if_neg (by omega)]

/-! ## Claims about the compile loop, continued -/

/-- C8 as stated fails: the source `]` compiles, without any error, to the
one-instruction program `]` with operand 0. -/
theorem lone_close_compiles : (compile 2 [93]).instrs = some [(93, 0)] := by
  decide

/-- C8 amended: when the backward scan of a `]` ends with the depth still
positive, the step does not fail: the scan has stopped at slot 0, the `]` is
written at `program_size` with operand `program_size % 65536`,
`program_size` grows by 2, the file position is unchanged, and apart from
these two slots only slot 1 is written. -/
theorem unmatched_close_is_emitted (src : List Nat) (c : Compiler)
    (hcap : c.program_size + 1 < PROGRAM_CAP) (hev : c.program_size % 2 = 0)
    (hun : 0 < (scanBack (store c.program c.program_size 93)
      c.program_size c.program_size 1).2) :
    (scanBack (store c.program c.program_size 93) c.program_size c.program_size 1).1 = 0 ∧
    ∃ c1, compileStep src 93 c = some c1 ∧ c1.program_size = c.program_size + 2 ∧
      c1.pos = c.pos ∧ c1.program c.program_size = 93 ∧
      c1.program (c.program_size + 1) = c.program_size % 65536 ∧
      (∀ j, j ≠ 1 → j ≠ c.program_size → j ≠ c.program_size + 1 →
        c1.program j = c.program j) := by
  have h0 := scanBack_unmatched _ c.program_size c.program_size 1 (Nat.le_refl _) hun
  refine ⟨h0, ?_⟩
  rw [compileStep_close, if_pos hcap, h0]
  refine ⟨_, rfl, rfl, rfl, ?_, ?_, ?_⟩
  · have h1 : c.program_size ≠ c.program_size + 1 := by omega
    have h2 : c.program_size ≠ 0 + 1 := by omega
    simp [store, h1, h2]
  · simp [store]
  · intro j j1 j2 j3
    simp [store, j1, j2, j3]

/-- Witness of C8 amended: the first byte `]` of a file. -/
theorem unmatched_close_is_emitted_witness :
    (scanBack (store Compiler.init.program Compiler.init.program_size 93)
      Compiler.init.program_size Compiler.init.program_size 1).1 = 0 ∧
    ∃ c1, compileStep [93] 93 Compiler.init = some c1 ∧
      c1.program_size = Compiler.init.program_size + 2 ∧
      c1.pos = Compiler.init.pos ∧ c1.program Compiler.init.program_size = 93 ∧
      c1.program (Compiler.init.program_size + 1) = Compiler.init.program_size % 65536 ∧
      (∀ j, j ≠ 1 → j ≠ Compiler.init.program_size → j ≠ Compiler.init.program_size + 1 →
        c1.program j = Compiler.init.program j) :=
  unmatched_close_is_emitted [93] Compiler.init (by decide) (by decide) (by decide)

/-- C9 as stated fails: the source `[` compiles, without any error, to the
one-instruction program `[` with operand 0. -/
theorem lone_open_compiles : (compile 2 [91]).instrs = some [(91, 0)] := by
  decide

/-- C9 amended: a source that starts with `[`, contains no `]`, does not end in
a run operator and fits the array compiles (any fuel above its length) to a
program whose first instruction is `[` with operand 0 and which contains no
`]` instruction: the unclosed bracket is handed on as it is. -/
theorem unclosed_open_is_kept (rest : List Nat) (fuel : Nat)
    (hno : ∀ b ∈ rest, b ≠ 93) (hend : endsInRun (91 :: rest) = false)
    (hlen : 2 * (rest.length + 1) ≤ PROGRAM_CAP) (hfuel : rest.length + 1 < fuel) :
    ∃ c, compile fuel (91 :: rest) = .done c ∧ c.program 0 = 91 ∧ c.program 1 = 0 ∧
      2 ≤ c.program_size ∧ ∀ k, 2 * k < c.program_size → c.program (2 * k) ≠ 93 := by
  have hc := compile_eq_emit _ hend fuel (by simpa using hfuel)
  have hg : groupRuns (91 :: rest) = (91, 0) :: groupRuns rest := by
    simp [groupRuns, isRunOp, isBFChar]
  have hgl := groupRuns_length rest
  obtain ⟨st1, h1, h2⟩ := emit_length (groupRuns rest) (store (fun _ => 0) 0 91, 2)
    (by simp only; omega)
  have he : emit ((91, 0) :: groupRuns rest) (fun _ => 0, 0) = some st1 := by
    simp [emit, emitTok, isRunOp, PROGRAM_CAP, h1]
  rw [hg, he] at hc
  obtain ⟨k1, k2⟩ := emit_no_close (groupRuns rest) _ st1
    (fun t ht h93 => hno t.1 (groupRuns_ops rest t ht) h93) (by simp) h1
  simp only at k1 k2 h2
  refine ⟨_, hc, ?_, ?_, by simp only; omega, ?_⟩
  · simp only; rw [k1 0 (by omega)]; simp [store]
  · simp only; rw [k1 1 (by omega)]; simp [store]
  · intro k hk
    simp only at hk ⊢
    by_cases h0 : k = 0
    · subst h0
      rw [k1 0 (by omega)]; simp [store]
    · exact k2 k (by omega) hk

/-- Witness of C9 amended: the source `[+.` followed by a newline. -/
theorem unclosed_open_is_kept_witness :
    ∃ c, compile 5 (91 :: [43, 46, 10]) = .done c ∧ c.program 0 = 91 ∧ c.program 1 = 0 ∧
      2 ≤ c.program_size ∧ ∀ k, 2 * k < c.program_size → c.program (2 * k) ≠ 93 :=
  unclosed_open_is_kept [43, 46, 10] 5 (by decide) (by decide) (by decide) (by decide)

/-- C10 on the code: the two-byte source `+`, newline compiles to the single
instruction `+` 1, while for the same source without the newline the compile
loop never ends: with fuel up to 8388608 it is still running, and from then on
it writes outside the array `program`. -/
theorem trailing_byte_decides_termination :
    (compile 3 [43, 10]).instrs = some [(43, 1)] ∧
      ∀ fuel, compile fuel [43] =
        if fuel = 0 ∨ Compiler.init.program_size + 2 * fuel ≤ PROGRAM_CAP
          then .timeout else .undefined :=
  ⟨by decide, fun fuel => compileLoop_plus fuel Compiler.init rfl⟩

/-! ## The backward scan finds the bracket that the stack matching pairs -/

theorem scanBack_fuel (p : Nat → Nat) :
    ∀ (f1 f2 i d : Nat), i ≤ f1 → i ≤ f2 → scanBack p f1 i d = scanBack p f2 i d := by
  intro f1
  induction f1 with
  | zero =>
    intro f2 i d h1 _
    have hi : i = 0 := by omega
    subst hi
    cases f2 <;> simp [scanBack]
  | succ f1 ih =>
    intro f2 i d h1 h2
    cases f2 with
    | zero =>
      have hi : i = 0 := by omega
      subst hi
      simp [scanBack]
    | succ f2 =>
      unfold scanBack
      by_cases hc : 0 < i ∧ 0 < d
      · simp only [hc, and_self, if_true]
        exact ih _ _ _ (by omega) (by omega)
      · simp only [hc, if_false]

theorem scanBack_congr (p q : Nat → Nat) :
    ∀ (f i d : Nat), i % 2 = 0 → (∀ j, 2 * j < i → p (2 * j) = q (2 * j)) →
      scanBack p f i d = scanBack q f i d := by
  intro f
  induction f with
  | zero => intro i d _ _; simp [scanBack]
  | succ f ih =>
    intro i d hev h
    unfold scanBack
    by_cases hc : 0 < i ∧ 0 < d
    · have he : p (i - 2) = q (i - 2) := by
        have := h ((i - 2) / 2) (by omega)
        rwa [show 2 * ((i - 2) / 2) = i - 2 from by omega] at this
      simp only [hc, and_self, if_true, he]
      exact ih _ _ (by omega) (fun j hj => h j (by omega))
    · simp only [hc, if_false]

theorem scanBack_zero (p : Nat → Nat) (f i : Nat) : scanBack p f i 0 = (i, 0) := by
  cases f <;> simp [scanBack]

theorem scanBack_step (p : Nat → Nat) (n d : Nat) (hd : 0 < d) :
    scanBack p (n + 2) (n + 2) d =
      scanBack p n n
        (if p n = 93 then (if p n = 91 then d - 1 else d) + 1
          else (if p n = 91 then d - 1 else d)) := by
  have h : scanBack p (n + 2) (n + 2) d =
      scanBack p (n + 1) n
        (if p n = 93 then (if p n = 91 then d - 1 else d) + 1
          else (if p n = 91 then d - 1 else d)) := by
    show scanBack p ((n + 1) + 1) (n + 2) d = _
    conv_lhs => rw [scanBack]
    simp [hd]
  rw [h]
  exact scanBack_fuel p _ _ _ _ (by omega) (Nat.le_refl _)

theorem Chain_lt (p : Nat → Nat) :
    ∀ (S : List Nat) (n : Nat), Chain p n S → ∀ x ∈ S, x < n := by
  intro S
  induction S with
  | nil => intro n _ x hx; cases hx
  | cons t s ih =>
    intro n h x hx
    obtain ⟨_, h2, _, _, h5⟩ := h
    rcases List.mem_cons.mp hx with rfl | hx
    · exact h2
    · exact Nat.lt_trans (ih t h5 x hx) h2

theorem Chain_congr (p q : Nat → Nat) :
    ∀ (S : List Nat) (n : Nat), n % 2 = 0 → (∀ j, 2 * j < n → p (2 * j) = q (2 * j)) →
      Chain p n S → Chain q n S := by
  intro S
  induction S with
  | nil => intro n _ _ _; trivial
  | cons t s ih =>
    intro n hev h hc
    obtain ⟨h1, h2, h3, h4, h5⟩ := hc
    have hpt : p t = q t := by
      have := h (t / 2) (by omega)
      rwa [show 2 * (t / 2) = t from by omega] at this
    refine ⟨h1, h2, by rw [← hpt]; exact h3, ?_, ih t h1 (fun j hj => h j (by omega)) h5⟩
    intro d hd
    rw [← scanBack_congr p q n n d hev h, h4 d hd]
    exact scanBack_congr p q t t (d - 1) h1 (fun j hj => h j (by omega))

theorem pairing_congr (p q : Nat → Nat) :
    ∀ (k : Nat), (∀ j, j < k → p (2 * j) = q (2 * j)) → pairing p k = pairing q k := by
  intro k
  induction k with
  | zero => intro _; rfl
  | succ k ih =>
    intro h
    have h1 := ih (fun j hj => h j (by omega))
    have h2 := h k (by omega)
    simp only [pairing, h1, h2]

/-- The invariant after an instruction that is not a bracket. -/
theorem BracketInv.other {p q : Nat → Nat} {k : Nat} {S : List Nat} {P : List (Nat × Nat)}
    (hinv : BracketInv p k S P) (o : Nat) (hq : q (2 * k) = o)
    (hframe : ∀ j, j ≠ 2 * k → j ≠ 2 * k + 1 → q j = p j) (h1 : o ≠ 91) (h2 : o ≠ 93) :
    BracketInv q (k + 1) S P := by
  have hag : ∀ j, 2 * j < 2 * k → p (2 * j) = q (2 * j) :=
    fun j hj => (hframe (2 * j) (by omega) (by omega)).symm
  have hq1 : ¬ q (2 * k) = 91 := by rw [hq]; exact h1
  have hq2 : ¬ q (2 * k) = 93 := by rw [hq]; exact h2
  refine ⟨?_, ?_, ?_, hinv.fresh, ?_, ?_⟩
  · simp only [pairing, hq1, hq2, if_false]
    rw [← pairing_congr p q k (fun j hj => hag j (by omega))]
    exact hinv.eq
  · cases S with
    | nil => trivial
    | cons t s =>
      obtain ⟨c1, c2, c3, c4, c5⟩ := hinv.chain
      have hpt : q t = p t := hframe t (by omega) (by omega)
      refine ⟨c1, by omega, by rw [hpt]; exact c3, ?_,
        Chain_congr p q s t c1 (fun j hj => hag j (by omega)) c5⟩
      intro d hd
      rw [show 2 * (k + 1) = 2 * k + 2 from by omega, scanBack_step q (2 * k) d hd]
      simp only [hq1, hq2, if_false]
      rw [← scanBack_congr p q (2 * k) (2 * k) d (by omega) hag, c4 d hd]
      exact scanBack_congr p q t t (d - 1) c1 (fun j hj => hag j (by omega))
  · intro i j hij
    obtain ⟨a1, a2, a3, a4, a5, a6, a7, a8⟩ := hinv.pairs i j hij
    refine ⟨a1, a2, a3, by omega, ?_, ?_, ?_, ?_⟩
    · rw [hframe i (by omega) (by omega)]; exact a5
    · rw [hframe j (by omega) (by omega)]; exact a6
    · rw [hframe (i + 1) (by omega) (by omega)]; exact a7
    · rw [hframe (j + 1) (by omega) (by omega)]; exact a8
  · intro i hi h91
    by_cases hik : i = k
    · subst hik; exact absurd h91 hq1
    · rw [hframe (2 * i) (by omega) (by omega)] at h91
      exact hinv.opens i (by omega) h91
  · intro j hj h93
    by_cases hjk : j = k
    · subst hjk; exact absurd h93 hq2
    · rw [hframe (2 * j) (by omega) (by omega)] at h93
      exact hinv.closes j (by omega) h93

/-- The invariant after a `[` instruction. -/
theorem BracketInv.opening {p q : Nat → Nat} {k : Nat} {S : List Nat}
    {P : List (Nat × Nat)} (hinv : BracketInv p k S P) (hq : q (2 * k) = 91)
    (hframe : ∀ j, j ≠ 2 * k → j ≠ 2 * k + 1 → q j = p j) :
    BracketInv q (k + 1) (2 * k :: S) P := by
  have hag : ∀ j, 2 * j < 2 * k → p (2 * j) = q (2 * j) :=
    fun j hj => (hframe (2 * j) (by omega) (by omega)).symm
  have hq2 : ¬ q (2 * k) = 93 := by rw [hq]; decide
  refine ⟨?_, ?_, ?_, ?_, ?_, ?_⟩
  · simp only [pairing, hq, if_true]
    rw [← pairing_congr p q k (fun j hj => hag j (by omega)), hinv.eq]
  · refine ⟨by omega, by omega, hq, ?_, Chain_congr p q S (2 * k) (by omega) hag hinv.chain⟩
    intro d hd
    rw [show 2 * (k + 1) = 2 * k + 2 from by omega, scanBack_step q (2 * k) d hd]
    simp only [hq, if_true]
    simp
  · intro i j hij
    obtain ⟨a1, a2, a3, a4, a5, a6, a7, a8⟩ := hinv.pairs i j hij
    refine ⟨a1, a2, a3, by omega, ?_, ?_, ?_, ?_⟩
    · rw [hframe i (by omega) (by omega)]; exact a5
    · rw [hframe j (by omega) (by omega)]; exact a6
    · rw [hframe (i + 1) (by omega) (by omega)]; exact a7
    · rw [hframe (j + 1) (by omega) (by omega)]; exact a8
  · intro i j hij hmem
    obtain ⟨a1, a2, a3, a4, -⟩ := hinv.pairs i j hij
    rcases List.mem_cons.mp hmem with h | h
    · omega
    · exact hinv.fresh i j hij h
  · intro i hi h91
    by_cases hik : i = k
    · subst hik; exact Or.inl (List.mem_cons_self _ _)
    · rw [hframe (2 * i) (by omega) (by omega)] at h91
      rcases hinv.opens i (by omega) h91 with h | h
      · exact Or.inl (List.mem_cons_of_mem _ h)
      · exact Or.inr h
  · intro j hj h93
    by_cases hjk : j = k
    · subst hjk; exact absurd h93 hq2
    · rw [hframe (2 * j) (by omega) (by omega)] at h93
      exact hinv.closes j (by omega) h93

/-- The backward scan of a `]` stops at the innermost open `[`, and the
invariant holds after the write-back of the distance. -/
theorem BracketInv.closing {p : Nat → Nat} {k t0 : Nat} {s : List Nat}
    {P : List (Nat × Nat)} (hinv : BracketInv p k (t0 :: s) P) :
    (scanBack (store p (2 * k) 93) (2 * k) (2 * k) 1).1 = t0 ∧
      BracketInv
        (store (store (store p (2 * k) 93) (t0 + 1) ((2 * k - t0) % 65536)) (2 * k + 1)
          ((2 * k - t0) % 65536))
        (k + 1) s ((t0, 2 * k) :: P) := by
  obtain ⟨c1, c2, c3, c4, c5⟩ := hinv.chain
  have hscan : (scanBack (store p (2 * k) 93) (2 * k) (2 * k) 1).1 = t0 := by
    rw [← scanBack_congr p (store p (2 * k) 93) (2 * k) (2 * k) 1 (by omega)
      (fun j hj => (store_other p (2 * k) 93 (2 * j) (by omega)).symm), c4 1 (by omega),
      scanBack_zero]
  refine ⟨hscan, ?_⟩
  generalize hq : store (store (store p (2 * k) 93) (t0 + 1) ((2 * k - t0) % 65536))
    (2 * k + 1) ((2 * k - t0) % 65536) = q
  have hqk : q (2 * k) = 93 := by
    rw [← hq]
    have e1 : 2 * k ≠ 2 * k + 1 := by omega
    have e2 : 2 * k ≠ t0 + 1 := by omega
    simp [store, e1, e2]
  have hqt : q (t0 + 1) = (2 * k - t0) % 65536 := by
    rw [← hq]
    have e1 : t0 + 1 ≠ 2 * k + 1 := by omega
    simp [store, e1]
  have hqk1 : q (2 * k + 1) = (2 * k - t0) % 65536 := by
    rw [← hq]; simp [store]
  have hframe : ∀ j, j ≠ 2 * k → j ≠ t0 + 1 → j ≠ 2 * k + 1 → q j = p j := by
    intro j j1 j2 j3
    rw [← hq]; simp [store, j1, j2, j3]
  have hag : ∀ j, 2 * j < 2 * k → p (2 * j) = q (2 * j) :=
    fun j hj => (hframe (2 * j) (by omega) (by omega) (by omega)).symm
  have hq1 : ¬ q (2 * k) = 91 := by rw [hqk]; decide
  have hlt := Chain_lt p s t0 c5
  refine ⟨?_, ?_, ?_, ?_, ?_, ?_⟩
  · simp only [pairing, hqk]
    rw [← pairing_congr p q k (fun j hj => hag j (by omega)), hinv.eq]
    simp
  · cases s with
    | nil => trivial
    | cons t1 s1 =>
      obtain ⟨e1, e2, e3, e4, e5⟩ := c5
      have hpt : q t1 = p t1 := hframe t1 (by omega) (by omega) (by omega)
      refine ⟨e1, by omega, by rw [hpt]; exact e3, ?_,
        Chain_congr p q s1 t1 e1 (fun j hj => hag j (by omega)) e5⟩
      intro d hd
      have hd2 : (if q (2 * k) = 93 then (if q (2 * k) = 91 then d - 1 else d) + 1
          else (if q (2 * k) = 91 then d - 1 else d)) = d + 1 := by simp [hqk]
      rw [show 2 * (k + 1) = 2 * k + 2 from by omega, scanBack_step q (2 * k) d hd, hd2]
      rw [← scanBack_congr p q (2 * k) (2 * k) (d + 1) (by omega) hag, c4 (d + 1) (by omega),
        Nat.add_sub_cancel, e4 d hd]
      exact scanBack_congr p q t1 t1 (d - 1) e1 (fun j hj => hag j (by omega))
  · intro i j hij
    rcases List.mem_cons.mp hij with h | h
    · simp only [Prod.mk.injEq] at h
      obtain ⟨rfl, rfl⟩ := h
      refine ⟨c1, by omega, c2, by omega, ?_, hqk, hqt, hqk1⟩
      rw [hframe i (by omega) (by omega) (by omega)]; exact c3
    · obtain ⟨a1, a2, a3, a4, a5, a6, a7, a8⟩ := hinv.pairs i j h
      have hi : i ≠ t0 := fun e => hinv.fresh i j h (by rw [e]; exact List.mem_cons_self _ _)
      have hj : j ≠ t0 := fun e => by rw [e, c3] at a6; cases a6
      refine ⟨a1, a2, a3, by omega, ?_, ?_, ?_, ?_⟩
      · rw [hframe i (by omega) (by omega) (by omega)]; exact a5
      · rw [hframe j (by omega) (by omega) (by omega)]; exact a6
      · rw [hframe (i + 1) (by omega) (by omega) (by omega)]; exact a7
      · rw [hframe (j + 1) (by omega) (by omega) (by omega)]; exact a8
  · intro i j hij hmem
    rcases List.mem_cons.mp hij with h | h
    · simp only [Prod.mk.injEq] at h
      obtain ⟨rfl, rfl⟩ := h
      exact Nat.lt_irrefl _ (hlt i hmem)
    · exact hinv.fresh i j h (List.mem_cons_of_mem _ hmem)
  · intro i hi h91
    by_cases hik : i = k
    · subst hik; exact absurd h91 hq1
    · rw [hframe (2 * i) (by omega) (by omega) (by omega)] at h91
      rcases hinv.opens i (by omega) h91 with h | h
      · rcases List.mem_cons.mp h with h | h
        · exact Or.inr ⟨2 * k, by rw [h]; exact List.mem_cons_self _ _⟩
        · exact Or.inl h
      · obtain ⟨j, hj⟩ := h
        exact Or.inr ⟨j, List.mem_cons_of_mem _ hj⟩
  · intro j hj h93
    by_cases hjk : j = k
    · subst hjk; exact ⟨t0, List.mem_cons_self _ _⟩
    · rw [hframe (2 * j) (by omega) (by omega) (by omega)] at h93
      obtain ⟨i, hi⟩ := hinv.closes j (by omega) h93
      exact ⟨i, List.mem_cons_of_mem _ hi⟩

theorem emitTok_close (t : Nat × Nat) (st st1 : (Nat → Nat) × Nat) (ht : t.1 = 93)
    (h : emitTok t st = some st1) :
    st1 = (store (store (store st.1 st.2 93)
        ((scanBack (store st.1 st.2 93) st.2 st.2 1).1 + 1)
        ((st.2 - (scanBack (store st.1 st.2 93) st.2 st.2 1).1) % 65536))
        (st.2 + 1)
        ((st.2 - (scanBack (store st.1 st.2 93) st.2 st.2 1).1) % 65536), st.2 + 2) := by
  have hr : ¬ isRunOp t.1 = true := by rw [ht]; decide
  by_cases hcap : st.2 + 1 < PROGRAM_CAP
  · have h1 : emitTok t st = some (store (store (store st.1 st.2 93)
        ((scanBack (store st.1 st.2 93) st.2 st.2 1).1 + 1)
        ((st.2 - (scanBack (store st.1 st.2 93) st.2 st.2 1).1) % 65536))
        (st.2 + 1)
        ((st.2 - (scanBack (store st.1 st.2 93) st.2 st.2 1).1) % 65536), st.2 + 2) := by
      unfold emitTok
      rw [if_neg hr, if_pos ht, if_pos hcap]
    rw [h1] at h
    exact (Option.some.inj h).symm
  · have h1 : emitTok t st = none := by
      unfold emitTok
      rw [if_neg hr, if_pos ht, if_neg hcap]
    rw [h1] at h
    cases h

theorem BracketInv.init : BracketInv (fun _ => 0) 0 [] [] :=
  ⟨rfl, trivial, fun _ _ h => (by cases h), fun _ _ h => (by cases h),
    fun _ h => (by omega), fun _ h => (by omega)⟩

/-- Emitting tokens whose brackets are well nested keeps the invariant and
ends with no bracket open. -/
theorem emit_brackets (toks : List (Nat × Nat)) :
    ∀ (st : (Nat → Nat) × Nat) (k : Nat) (S : List Nat) (P : List (Nat × Nat)),
      st.2 = 2 * k → BracketInv st.1 k S P →
      nestOk (toks.map Prod.fst) S.length = true →
      ∀ st1, emit toks st = some st1 →
        ∃ k1 P1, st1.2 = 2 * k1 ∧ BracketInv st1.1 k1 [] P1 := by
  induction toks with
  | nil =>
    intro st k S P hk hinv hn st1 h
    simp only [emit, Option.some.injEq] at h
    subst h
    have hS : S = [] := by
      simp only [List.map_nil, nestOk, beq_iff_eq] at hn
      exact List.length_eq_zero.mp hn
    subst hS
    exact ⟨k, P, hk, hinv⟩
  | cons t ts ih =>
    intro st k S P hk hinv hn st1 h
    cases hsa : emitTok t st with
    | none => simp [emit, hsa] at h
    | some sa =>
      simp only [emit, hsa] at h
      have hsz := emitTok_size t st sa hsa
      simp only [List.map_cons] at hn
      by_cases h93 : t.1 = 93
      · rw [h93] at hn
        cases S with
        | nil => simp [nestOk] at hn
        | cons t0 s =>
          simp only [nestOk, List.length_cons] at hn
          simp at hn
          have hform := emitTok_close t st sa h93 hsa
          obtain ⟨hscan, hnew⟩ := hinv.closing
          rw [← hk] at hscan hnew
          rw [hscan] at hform
          have hsa1 : sa.1 = store (store (store st.1 st.2 93) (t0 + 1)
              ((st.2 - t0) % 65536)) (st.2 + 1) ((st.2 - t0) % 65536) := by rw [hform]
          rw [← hsa1] at hnew
          exact ih sa (k + 1) s _ (by omega) hnew hn st1 h
      · obtain ⟨ho, hfr⟩ := emitTok_other t st sa h93 hsa
        rw [hk] at ho hfr
        by_cases h91 : t.1 = 91
        · rw [h91] at hn ho
          simp only [nestOk, if_true] at hn
          exact ih sa (k + 1) (2 * k :: S) P (by omega) (hinv.opening ho hfr)
            (by simpa using hn) st1 h
        · simp only [nestOk, h91, h93, if_false] at hn
          exact ih sa (k + 1) S P (by omega) (hinv.other t.1 ho hfr h91 h93) hn st1 h

theorem nestOk_skip (b : Nat) (rest : List Nat) (d : Nat) (h1 : b ≠ 91) (h2 : b ≠ 93) :
    nestOk (b :: rest) d = nestOk rest d := by
  simp [nestOk, h1, h2]

theorem nestOk_pushRun (b : Nat) (hb : isRunOp b = true) (ts : List (Nat × Nat)) (d : Nat) :
    nestOk ((pushRun b ts).map Prod.fst) d = nestOk (ts.map Prod.fst) d := by
  have h1 : b ≠ 91 := by intro e; rw [e] at hb; cases hb
  have h2 : b ≠ 93 := by intro e; rw [e] at hb; cases hb
  cases ts with
  | nil => simp [pushRun, nestOk, h1, h2]
  | cons t ts1 =>
    obtain ⟨b1, k⟩ := t
    by_cases hbb : b1 = b
    · simp [pushRun, hbb]
    · simp only [pushRun, hbb, if_false, List.map_cons]
      rw [nestOk_skip b _ d h1 h2]

theorem nestOk_groupRuns (src : List Nat) :
    ∀ d, nestOk ((groupRuns src).map Prod.fst) d = nestOk src d := by
  induction src with
  | nil => intro d; rfl
  | cons b rest ih =>
    intro d
    by_cases hr : isRunOp b = true
    · have h1 : b ≠ 91 := by intro e; rw [e] at hr; cases hr
      have h2 : b ≠ 93 := by intro e; rw [e] at hr; cases hr
      simp only [groupRuns, hr, if_true]
      rw [nestOk_pushRun b hr, ih, nestOk_skip b rest d h1 h2]
    · by_cases hb : isBFChar b = true
      · simp only [groupRuns, hr, hb, if_true, if_false, List.map_cons]
        simp only [nestOk, ih]
      · have hb0 : isBFChar b = false := by simpa using hb
        have h1 : b ≠ 91 := by intro e; rw [e] at hb0; cases hb0
        have h2 : b ≠ 93 := by intro e; rw [e] at hb0; cases hb0
        rw [groupRuns_junk _ _ hb0, ih, nestOk_skip b rest d h1 h2]

/-- A well-nested source that does not end in a run operator and fits the
array compiles to a program that satisfies the bracket invariant with no
bracket left open. -/
theorem compile_brackets (src : List Nat) (fuel : Nat) (hw : wellNested src = true)
    (hend : endsInRun src = false) (hlen : 2 * src.length ≤ PROGRAM_CAP)
    (hfuel : src.length < fuel) :
    ∃ c k P, compile fuel src = .done c ∧ c.program_size = 2 * k ∧
      k = (groupRuns src).length ∧ BracketInv c.program k [] P ∧
      emit (groupRuns src) (fun _ => 0, 0) = some (c.program, c.program_size) := by
  have hc := compile_eq_emit src hend fuel hfuel
  have hgl := groupRuns_length src
  obtain ⟨st1, h1, h2⟩ := emit_length (groupRuns src) (fun _ => 0, 0) (by simp only; omega)
  rw [h1] at hc
  obtain ⟨k1, P1, e1, e2⟩ := emit_brackets (groupRuns src) (fun _ => 0, 0) 0 [] [] rfl
    BracketInv.init (by rw [nestOk_groupRuns]; exact hw) st1 h1
  refine ⟨_, k1, P1, hc, e1, ?_, e2, ?_⟩
  · simp only at h2; omega
  · simp only; rw [h1]

/-- Every token writes its opcode at `program_size` and leaves the other
even slots as they are. -/
theorem emitTok_opcode (t : Nat × Nat) (st st1 : (Nat → Nat) × Nat) (hev : st.2 % 2 = 0)
    (h : emitTok t st = some st1) :
    st1.1 st.2 = t.1 ∧ ∀ j, j % 2 = 0 → j ≠ st.2 → st1.1 j = st.1 j := by
  by_cases h93 : t.1 = 93
  · have hform := emitTok_close t st st1 h93 h
    have hsc := scanBack_even (store st.1 st.2 93) st.2 st.2 1 hev
    rw [hform, h93]
    constructor
    · have e1 : st.2 ≠ st.2 + 1 := by omega
      have e2 : st.2 ≠ (scanBack (store st.1 st.2 93) st.2 st.2 1).1 + 1 := by omega
      simp [store, e1, e2]
    · intro j hj hne
      have e1 : j ≠ st.2 + 1 := by omega
      have e2 : j ≠ (scanBack (store st.1 st.2 93) st.2 st.2 1).1 + 1 := by omega
      simp [store, e1, e2, hne]
  · obtain ⟨h1, h2⟩ := emitTok_other t st st1 h93 h
    exact ⟨h1, fun j hj hne => h2 j hne (by omega)⟩

/-- The opcodes of the emitted program are the operators of the tokens, in
order. -/
theorem emit_opcodes (toks : List (Nat × Nat)) :
    ∀ (st st1 : (Nat → Nat) × Nat), st.2 % 2 = 0 → emit toks st = some st1 →
      (∀ j, j % 2 = 0 → j < st.2 → st1.1 j = st.1 j) ∧
        (∀ i t, toks[i]? = some t → st1.1 (st.2 + 2 * i) = t.1) := by
  induction toks with
  | nil =>
    intro st st1 _ h
    simp only [emit, Option.some.injEq] at h
    subst h
    exact ⟨fun _ _ _ => rfl, fun i t hit => by simp at hit⟩
  | cons t0 ts ih =>
    intro st st1 hev h
    cases hsa : emitTok t0 st with
    | none => simp [emit, hsa] at h
    | some sa =>
      simp only [emit, hsa] at h
      have hsz := emitTok_size t0 st sa hsa
      obtain ⟨ho, hk⟩ := emitTok_opcode t0 st sa hev hsa
      obtain ⟨i1, i2⟩ := ih sa st1 (by omega) h
      constructor
      · intro j hj hlt
        rw [i1 j hj (by omega), hk j hj (by omega)]
      · intro i t hit
        cases i with
        | zero =>
          simp only [List.getElem?_cons_zero, Option.some.injEq] at hit
          subst hit
          rw [Nat.mul_zero, Nat.add_zero, i1 _ hev (by omega), ho]
        | succ i =>
          simp only [List.getElem?_cons_succ] at hit
          have := i2 i t hit
          rw [hsz] at this
          rw [show st.2 + 2 * (i + 1) = st.2 + 2 + 2 * i from by omega]
          exact this

theorem groupRuns_units (l : List Nat)
    (h : ∀ b ∈ l, isBFChar b = true ∧ isRunOp b = false) :
    groupRuns l = l.map fun b => (b, 0) := by
  induction l with
  | nil => rfl
  | cons b rest ih =>
    obtain ⟨h1, h2⟩ := h b (List.mem_cons_self _ _)
    simp only [groupRuns, h1, h2, if_true, if_false, Bool.false_eq_true, List.map_cons]
    rw [ih (fun x hx => h x (List.mem_cons_of_mem _ hx))]

theorem nestOk_replicate (b : Nat) (h1 : b ≠ 91) (h2 : b ≠ 93) (rest : List Nat) (d : Nat) :
    ∀ m, nestOk (List.replicate m b ++ rest) d = nestOk rest d := by
  intro m
  induction m with
  | zero => rfl
  | succ m ih => rw [List.replicate_succ, List.cons_append, nestOk_skip b _ d h1 h2, ih]

theorem jump_back (a d M : Nat) (h1 : d ≤ a) (h2 : a + 1 < M) :
    ((a + M - d % M) % M + 1) % M = a - d + 1 := by
  have e1 : d % M = d := Nat.mod_eq_of_lt (by omega)
  have e2 : a + M - d = (a - d) + M := by omega
  rw [e1, e2, Nat.add_mod_right, Nat.mod_eq_of_lt (by omega : a - d < M),
    Nat.mod_eq_of_lt (by omega : a - d + 1 < M)]

theorem exec_open_zero (kbd : Nat → Keyboard) (vm : VM) (h91 : vm.program vm.cursor = 91)
    (hc : vm.cursor + 1 < PROGRAM_CAP) (hr : vm.inRange) (hz : vm.cell = 0) :
    exec kbd vm =
      .next { vm with cursor := vm.cursor + 1 + vm.program (vm.cursor + 1) + 1 } := by
  have hc0 : vm.cursor < PROGRAM_CAP := by omega
  simp [exec, h91, hc, hc0, hr, hz]

theorem exec_close_nonzero (kbd : Nat → Keyboard) (vm : VM)
    (h93 : vm.program vm.cursor = 93) (hc : vm.cursor + 1 < PROGRAM_CAP) (hr : vm.inRange)
    (hnz : vm.cell ≠ 0) :
    exec kbd vm =
      .next { vm with cursor :=
        ((vm.cursor + 1 + SIZE_MOD - vm.program (vm.cursor + 1) % SIZE_MOD) % SIZE_MOD + 1)
          % SIZE_MOD } := by
  have hc0 : vm.cursor < PROGRAM_CAP := by omega
  have hnz1 : (vm.cell = 0) = False := eq_false hnz
  simp only [exec, h93, hc, hc0, hr, hnz1, if_true, if_false, and_self, ne_eq, not_false_eq_true,
    show ¬ ((93 : Nat) = 62) from by decide, show ¬ ((93 : Nat) = 60) from by decide,
    show ¬ ((93 : Nat) = 43) from by decide, show ¬ ((93 : Nat) = 45) from by decide,
    show ¬ ((93 : Nat) = 91) from by decide]

/-- The pairs of a program that satisfies the invariant with no bracket open:
every bracket is in a pair, the operands of a pair are equal, and when the
two brackets are less than 65536 slots apart each jump lands on the slot just
past the other bracket. -/
theorem BracketInv.jumps {p : Nat → Nat} {k : Nat} {P : List (Nat × Nat)}
    (hinv : BracketInv p k [] P) (hcap : 2 * k ≤ PROGRAM_CAP) :
    bracketPairs p (2 * k) = P ∧
    (∀ i, i % 2 = 0 → i < 2 * k → p i = 91 → ∃ j, (i, j) ∈ P) ∧
    (∀ j, j % 2 = 0 → j < 2 * k → p j = 93 → ∃ i, (i, j) ∈ P) ∧
    (∀ i j, (i, j) ∈ P →
      p i = 91 ∧ p j = 93 ∧ i < j ∧ j < 2 * k ∧
      p (i + 1) = p (j + 1) ∧ p (i + 1) = (j - i) % 65536 ∧
      (j - i < 65536 → ∀ (kbd : Nat → Keyboard) (vm : VM), vm.program = p → vm.inRange →
        (vm.cursor = i → vm.cell = 0 → exec kbd vm = .next { vm with cursor := j + 2 }) ∧
        (vm.cursor = j → vm.cell ≠ 0 → exec kbd vm = .next { vm with cursor := i + 2 }))) := by
  refine ⟨?_, ?_, ?_, ?_⟩
  · simp [bracketPairs, hinv.eq]
  · intro i hi hlt h91
    have h := hinv.opens (i / 2) (by omega)
    rw [show 2 * (i / 2) = i from by omega] at h
    rcases h h91 with h | h
    · cases h
    · exact h
  · intro j hj hlt h93
    have h := hinv.closes (j / 2) (by omega)
    rw [show 2 * (j / 2) = j from by omega] at h
    exact h h93
  · intro i j hij
    obtain ⟨a1, a2, a3, a4, a5, a6, a7, a8⟩ := hinv.pairs i j hij
    refine ⟨a5, a6, a3, a4, by rw [a7, a8], a7, ?_⟩
    intro hd kbd vm hp hr
    constructor
    · intro hc hz
      have h := exec_open_zero kbd vm (by rw [hp, hc]; exact a5) (by omega) hr hz
      rw [h, hp, hc, a7, Nat.mod_eq_of_lt hd]
      congr 2
      omega
    · intro hc hnz
      have h := exec_close_nonzero kbd vm (by rw [hp, hc]; exact a6) (by omega) hr hnz
      rw [h, hp, hc, a8, Nat.mod_eq_of_lt hd,
        jump_back (j + 1) (j - i) SIZE_MOD (by omega) (by unfold SIZE_MOD; unfold PROGRAM_CAP at hcap; omega)]
      congr 2
      omega

/-- The source `[`, `m` bytes `.`, `]`: it is well nested, and it compiles to
`m + 2` instructions in which the two brackets are matched with each other and
carry the operand `(2 * m + 2) % 65536`; on the fresh machine the `[` moves
the cursor by that operand. -/
theorem compile_long_loop (m : Nat) (hm : 2 * (m + 2) ≤ PROGRAM_CAP) (kbd : Nat → Keyboard) :
    wellNested (91 :: (List.replicate m 46 ++ [93])) = true ∧
    ∃ c, compile (m + 3) (91 :: (List.replicate m 46 ++ [93])) = .done c ∧
      c.program_size = 2 * m + 4 ∧
      (0, 2 * m + 2) ∈ bracketPairs c.program c.program_size ∧
      exec kbd (VM.fresh c) =
        .next { VM.fresh c with cursor := 0 + 1 + (2 * m + 2) % 65536 + 1 } := by
  have hw : wellNested (91 :: (List.replicate m 46 ++ [93])) = true := by
    unfold wellNested
    rw [nestOk, if_pos rfl, nestOk_replicate 46 (by decide) (by decide)]
    rfl
  refine ⟨hw, ?_⟩
  have hend : endsInRun (91 :: (List.replicate m 46 ++ [93])) = false := by
    have hl : (91 :: (List.replicate m 46 ++ [93])).getLast? = some 93 :=
      List.getLast?_eq_some_iff.mpr ⟨91 :: List.replicate m 46, rfl⟩
    simp only [endsInRun, hl]
    rfl
  have hlen : (91 :: (List.replicate m 46 ++ [93])).length = m + 2 := by simp
  obtain ⟨c, k, P, hc, hk, hkl, hinv, hemit⟩ :=
    compile_brackets _ (m + 3) hw hend (by rw [hlen]; exact hm) (by rw [hlen]; omega)
  have hunits : ∀ b ∈ 91 :: (List.replicate m 46 ++ [93]),
      isBFChar b = true ∧ isRunOp b = false := by
    intro b hb
    rcases List.mem_cons.mp hb with h | h
    · subst h; decide
    · rcases List.mem_append.mp h with h | h
      · rw [List.eq_of_mem_replicate h]; decide
      · simp at h; subst h; decide
  have hg := groupRuns_units _ hunits
  rw [hg] at hkl hemit
  rw [List.length_map, hlen] at hkl
  subst hkl
  obtain ⟨-, hop⟩ := emit_opcodes _ (fun _ => 0, 0) (c.program, c.program_size) rfl hemit
  have hp0 : c.program 0 = 91 := by
    have := hop 0 (91, 0) (by simp)
    simpa using this
  have hpi : ∀ i, 1 ≤ i → i ≤ m → c.program (2 * i) = 46 := by
    intro i h1 h2
    have := hop i (46, 0) (by
      obtain ⟨i1, rfl⟩ : ∃ i1, i = i1 + 1 := ⟨i - 1, by omega⟩
      simp [List.getElem?_append_left, List.getElem?_replicate, show i1 < m from by omega])
    simpa using this
  obtain ⟨j1, j2, -, -⟩ := hinv.jumps (by omega)
  obtain ⟨j, hj⟩ := j2 0 rfl (by omega) hp0
  obtain ⟨-, a2, a3, a4, -, a6, a7, -⟩ := hinv.pairs 0 j hj
  have hjm : j = 2 * m + 2 := by
    by_contra hne
    have h46 := hpi (j / 2) (by omega) (by omega)
    rw [show 2 * (j / 2) = j from by omega, a6] at h46
    cases h46
  subst hjm
  refine ⟨c, hc, by omega, ?_, ?_⟩
  · rw [hk, j1]; exact hj
  · have h := exec_open_zero kbd (VM.fresh c) hp0 (by show 0 + 1 < PROGRAM_CAP; decide)
      (by show (0 : Int) ≤ 0 ∧ (0 : Int) < 30000; decide) rfl
    rw [h]
    simp only [VM.fresh]
    rw [show 0 + 1 = 1 from rfl, a7]
    rfl

/-- C1 amended: for every well-nested source that does not end in a run
operator and fits the array, the compile loop terminates (any fuel above the
length of the source) with a program in which every `[` and every `]` belongs
to a matched pair, the two operands of a pair are equal (both are the distance
in slots modulo 65536), and, when the two brackets are less than 65536 slots
apart, a `[` executed on a zero cell leaves the cursor just past its `]` and a
`]` executed on a non-zero cell leaves the cursor just past its `[`. -/
theorem matched_brackets_jump (src : List Nat) (fuel : Nat) (hw : wellNested src = true)
    (hend : endsInRun src = false) (hlen : 2 * src.length ≤ PROGRAM_CAP)
    (hfuel : src.length < fuel) :
    ∃ c, compile fuel src = .done c ∧
      (∀ i, i % 2 = 0 → i < c.program_size → c.program i = 91 →
        ∃ j, (i, j) ∈ bracketPairs c.program c.program_size) ∧
      (∀ j, j % 2 = 0 → j < c.program_size → c.program j = 93 →
        ∃ i, (i, j) ∈ bracketPairs c.program c.program_size) ∧
      (∀ i j, (i, j) ∈ bracketPairs c.program c.program_size →
        c.program i = 91 ∧ c.program j = 93 ∧ i < j ∧ j < c.program_size ∧
        c.program (i + 1) = c.program (j + 1) ∧ c.program (i + 1) = (j - i) % 65536 ∧
        (j - i < 65536 → ∀ (kbd : Nat → Keyboard) (vm : VM),
          vm.program = c.program → vm.inRange →
          (vm.cursor = i → vm.cell = 0 → exec kbd vm = .next { vm with cursor := j + 2 }) ∧
          (vm.cursor = j → vm.cell ≠ 0 →
            exec kbd vm = .next { vm with cursor := i + 2 }))) := by
  obtain ⟨c, k, P, hc, hk, hkl, hinv, -⟩ := compile_brackets src fuel hw hend hlen hfuel
  have hgl := groupRuns_length src
  obtain ⟨j1, j2, j3, j4⟩ := hinv.jumps (by omega)
  rw [← hk] at j1 j2 j3 j4
  rw [← j1] at j2 j3 j4
  exact ⟨c, hc, j2, j3, j4⟩

/-- Witness of C1 amended: the source `+[->+<]`. -/
theorem matched_brackets_jump_witness :
    ∃ c, compile 8 [43, 91, 45, 62, 43, 60, 93] = .done c ∧
      (∀ i, i % 2 = 0 → i < c.program_size → c.program i = 91 →
        ∃ j, (i, j) ∈ bracketPairs c.program c.program_size) ∧
      (∀ j, j % 2 = 0 → j < c.program_size → c.program j = 93 →
        ∃ i, (i, j) ∈ bracketPairs c.program c.program_size) ∧
      (∀ i j, (i, j) ∈ bracketPairs c.program c.program_size →
        c.program i = 91 ∧ c.program j = 93 ∧ i < j ∧ j < c.program_size ∧
        c.program (i + 1) = c.program (j + 1) ∧ c.program (i + 1) = (j - i) % 65536 ∧
        (j - i < 65536 → ∀ (kbd : Nat → Keyboard) (vm : VM),
          vm.program = c.program → vm.inRange →
          (vm.cursor = i → vm.cell = 0 → exec kbd vm = .next { vm with cursor := j + 2 }) ∧
          (vm.cursor = j → vm.cell ≠ 0 →
            exec kbd vm = .next { vm with cursor := i + 2 }))) :=
  matched_brackets_jump [43, 91, 45, 62, 43, 60, 93] 8 (by decide) (by decide) (by decide)
    (by decide)

/-- C1 as stated fails: the well-nested source `[`, 32767 bytes `.`, `]`
compiles to a program whose `[` at slot 0 is matched with the `]` at slot
65536; the distance 65536 does not fit the 16-bit operand, which is 0, so the
`[` executed on the zero cell of the fresh machine leaves the cursor at slot 2
and not at slot 65538, just past the `]`. -/
theorem long_loop_jump_falls_short :
    wellNested (91 :: (List.replicate 32767 46 ++ [93])) = true ∧
    ∃ c, compile 32770 (91 :: (List.replicate 32767 46 ++ [93])) = .done c ∧
      c.program_size = 65538 ∧
      (0, 65536) ∈ bracketPairs c.program c.program_size ∧
      exec (fun _ => noKeys) (VM.fresh c) = .next { VM.fresh c with cursor := 2 } ∧
      2 ≠ 65536 + 2 :=
  ⟨(compile_long_loop 32767 (by decide) (fun _ => noKeys)).1,
    (compile_long_loop 32767 (by decide) (fun _ => noKeys)).2.elim
      fun c h => ⟨c, h.1, h.2.1, h.2.2.1, h.2.2.2, by decide⟩⟩

/-! ## Claims C13 to C16 -/

/-- C13 on the code: the source `.]` compiles to the `.` instruction with
operand 2 (and `]` with operand 2): the backward scan of the unmatched `]`
stops at slot 0 and the write-back `program[i + 1] = program_size - i` lands in
the operand slot of the `.` instruction. -/
theorem output_operand_overwritten :
    (compile 3 [46, 93]).instrs = some [(46, 2), (93, 2)] ∧
      (compile 2 [46]).instrs = some [(46, 0)] := by
  decide

/-- C14 as stated fails: `[]` compiles to brackets with operand 2, not 1, and
`[+]` to brackets with operand 4, not 2. -/
theorem bracket_operand_counts_slots :
    (compile 3 [91, 93]).instrs = some [(91, 2), (93, 2)] ∧
      (compile 4 [91, 43, 93]).instrs = some [(91, 4), (43, 1), (93, 4)] := by
  decide

/-- C14 amended: in the program compiled from a well-nested source (that does
not end in a run operator and fits the array) the brackets of every matched
pair stand at even slots `2 * a < 2 * b`, that is, they are the `a`-th and
`b`-th instructions, and both operands equal the distance in slots,
`2 * (b - a)`, modulo 65536. -/
theorem bracket_operand_is_slot_distance (src : List Nat) (fuel : Nat)
    (hw : wellNested src = true) (hend : endsInRun src = false)
    (hlen : 2 * src.length ≤ PROGRAM_CAP) (hfuel : src.length < fuel) :
    ∃ c, compile fuel src = .done c ∧
      ∀ i j, (i, j) ∈ bracketPairs c.program c.program_size →
        ∃ a b, i = 2 * a ∧ j = 2 * b ∧ a < b ∧ 2 * b < c.program_size ∧
          c.program (2 * a) = 91 ∧ c.program (2 * b) = 93 ∧
          c.program (2 * a + 1) = (2 * (b - a)) % 65536 ∧
          c.program (2 * b + 1) = (2 * (b - a)) % 65536 := by
  obtain ⟨c, k, P, hc, hk, hkl, hinv, -⟩ := compile_brackets src fuel hw hend hlen hfuel
  have hgl := groupRuns_length src
  obtain ⟨j1, -⟩ := hinv.jumps (by omega)
  refine ⟨c, hc, ?_⟩
  intro i j hij
  rw [hk, j1] at hij
  obtain ⟨a1, a2, a3, a4, a5, a6, a7, a8⟩ := hinv.pairs i j hij
  refine ⟨i / 2, j / 2, by omega, by omega, by omega, by omega, ?_, ?_, ?_, ?_⟩
  · rw [show 2 * (i / 2) = i from by omega]; exact a5
  · rw [show 2 * (j / 2) = j from by omega]; exact a6
  · rw [show 2 * (i / 2) = i from by omega, a7]
    congr 1; omega
  · rw [show 2 * (j / 2) = j from by omega, a8]
    congr 1; omega

/-- Witness of C14 amended: the source `[+]`. -/
theorem bracket_operand_is_slot_distance_witness :
    ∃ c, compile 4 [91, 43, 93] = .done c ∧
      ∀ i j, (i, j) ∈ bracketPairs c.program c.program_size →
        ∃ a b, i = 2 * a ∧ j = 2 * b ∧ a < b ∧ 2 * b < c.program_size ∧
          c.program (2 * a) = 91 ∧ c.program (2 * b) = 93 ∧
          c.program (2 * a + 1) = (2 * (b - a)) % 65536 ∧
          c.program (2 * b + 1) = (2 * (b - a)) % 65536 :=
  bracket_operand_is_slot_distance [91, 43, 93] 4 (by decide) (by decide) (by decide)
    (by decide)

/-- C15 as stated fails: on a program of one instruction whose opcode slot
holds 0, `run_program` reports no error; it prints the two slots as unexpected
characters, walks over them one slot at a time and returns through the loop
test, and the next call returns the same way. -/
theorem bad_opcode_is_skipped :
    ∃ vm, run_program (fun _ => noKeys) 2 vmBadOpcode = .halted vm ∧
      vm.cursor = 2 ∧ vm.log = [Event.unexpected 0, Event.unexpected 0] ∧
      run_program (fun _ => noKeys) 2 vm = .halted vm :=
  ⟨_, rfl, rfl, rfl, rfl⟩

/-- C15 amended: when the slot at the cursor holds none of the nine operator
characters, one loop iteration of `run_program` prints it as unexpected,
advances the cursor by one slot, leaves the pointer, the memory and the
program as they are, and goes on with the loop. -/
theorem unexpected_opcode_is_printed (kbd : Nat → Keyboard) (vm : VM)
    (hcur : vm.cursor < PROGRAM_CAP) (hop : isBFChar (vm.program vm.cursor) = false) :
    exec kbd vm = .next { vm with
      cursor := vm.cursor + 1
      log := vm.log ++ [Event.unexpected (vm.program vm.cursor)] } := by
  have h : ¬ (vm.program vm.cursor = 62 ∨ vm.program vm.cursor = 60 ∨
      vm.program vm.cursor = 43 ∨ vm.program vm.cursor = 45 ∨ vm.program vm.cursor = 91 ∨
      vm.program vm.cursor = 93 ∨ vm.program vm.cursor = 46 ∨ vm.program vm.cursor = 44 ∨
      vm.program vm.cursor = 63) := by
    rw [← isBFChar_iff]; simp [hop]
  have n62 : ¬ vm.program vm.cursor = 62 := fun e => h (Or.inl e)
  have n60 : ¬ vm.program vm.cursor = 60 := fun e => h (by omega)
  have n43 : ¬ vm.program vm.cursor = 43 := fun e => h (by omega)
  have n45 : ¬ vm.program vm.cursor = 45 := fun e => h (by omega)
  have n91 : ¬ vm.program vm.cursor = 91 := fun e => h (by omega)
  have n93 : ¬ vm.program vm.cursor = 93 := fun e => h (by omega)
  have n46 : ¬ vm.program vm.cursor = 46 := fun e => h (by omega)
  have n44 : ¬ vm.program vm.cursor = 44 := fun e => h (by omega)
  have n63 : ¬ vm.program vm.cursor = 63 := fun e => h (by omega)
  simp only [exec, hcur, if_true, n62, n60, n43, n45, n91, n93, n46, n44, n63, if_false]

/-- Witness of C15 amended: the machine whose opcode slot holds 0. -/
theorem unexpected_opcode_is_printed_witness :
    exec (fun _ => noKeys) vmBadOpcode = .next { vmBadOpcode with
      cursor := vmBadOpcode.cursor + 1
      log := vmBadOpcode.log ++ [Event.unexpected (vmBadOpcode.program vmBadOpcode.cursor)] } :=
  unexpected_opcode_is_printed (fun _ => noKeys) vmBadOpcode (by decide) (by decide)

/-- On a file whose last byte is a run operator, every iteration of the
compile loop leaves the file position before the end of the file. -/
theorem compileStep_pos_lt (src : List Nat) (hend : endsInRun src = true) (c c1 : Compiler)
    (hp : c.pos < src.length)
    (h : compileStep src src[c.pos] { c with pos := c.pos + 1 } = some c1) :
    c1.pos < src.length := by
  have hlast : src.getLast? = some (src[src.length - 1]) := by
    rw [List.getLast?_eq_getElem?, List.getElem?_eq_getElem (by omega)]
  have hr : isRunOp (src[src.length - 1]) = true := by
    simpa [endsInRun, hlast] using hend
  by_cases hrun : isRunOp src[c.pos] = true
  · rw [compileStep_run _ _ _ hrun] at h
    by_cases hcap : c.program_size + 1 < PROGRAM_CAP
    · simp only [hcap, if_true, Option.some.injEq] at h
      subst h
      simp only
      rw [runLoop_eq _ _ _ _ (by decide)]
      have hle := runRest_length_le src[c.pos] (src.drop (c.pos + 1))
      simp only [List.length_drop] at hle ⊢
      cases hrest : runRest src[c.pos] (src.drop (c.pos + 1)) with
      | nil => simp; omega
      | cons d r =>
        rw [hrest] at hle
        simp only [List.length_cons] at hle
        simp; omega
    · simp [hcap] at h
  · have hne : c.pos ≠ src.length - 1 := by
      intro e
      have : src[c.pos] = src[src.length - 1] := by congr 1
      rw [this, hr] at hrun
      exact hrun rfl
    have hpos : c1.pos = c.pos + 1 := by
      by_cases hbf : isBFChar src[c.pos] = true
      · by_cases h93 : src[c.pos] = 93
        · rw [h93, compileStep_close] at h
          by_cases hcap : c.program_size + 1 < PROGRAM_CAP
          · simp only [hcap, if_true, Option.some.injEq] at h
            subst h; rfl
          · simp [hcap] at h
        · have hu : src[c.pos] = 46 ∨ src[c.pos] = 44 ∨ src[c.pos] = 63 ∨ src[c.pos] = 91 := by
            have h1 := (isBFChar_iff src[c.pos]).mp hbf
            have h2 : ¬ (src[c.pos] = 62 ∨ src[c.pos] = 60 ∨ src[c.pos] = 43 ∨
                src[c.pos] = 45) := by
              rw [← isRunOp_iff]; exact hrun
            omega
          rw [compileStep_unit _ _ _ hu] at h
          by_cases hcap : c.program_size < PROGRAM_CAP
          · simp only [hcap, if_true, Option.some.injEq] at h
            subst h; rfl
          · simp [hcap] at h
      · have hbf0 : isBFChar src[c.pos] = false := by simpa using hbf
        rw [compileStep_junk _ _ _ hbf0] at h
        simp only [Option.some.injEq] at h
        subst h; rfl
    omega

theorem compileLoop_never_done (src : List Nat) (hend : endsInRun src = true) :
    ∀ (fuel : Nat) (c c1 : Compiler), c.pos < src.length →
      compileLoop src fuel c ≠ .done c1 := by
  intro fuel
  induction fuel with
  | zero =>
    intro c c1 hp
    simp [compileLoop, hp]
  | succ fuel ih =>
    intro c c1 hp
    have hget : src.get? c.pos = some src[c.pos] := by
      simp [List.getElem?_eq_getElem hp]
    simp only [compileLoop, hget]
    cases hstep : compileStep src src[c.pos] { c with pos := c.pos + 1 } with
    | none => simp
    | some c2 =>
      simp only
      exact ih c2 c1 (compileStep_pos_lt src hend c c2 hp hstep)

/-- C16 on the code: on every source whose last byte is one of `>`, `<`, `+`,
`-` the compile loop never reaches the end of the input: whatever the fuel,
it does not return a program (it is still running, or has written outside the
array `program`). -/
theorem compile_diverges_on_final_run (src : List Nat) (hend : endsInRun src = true)
    (fuel : Nat) (c : Compiler) : compile fuel src ≠ .done c := by
  have hne : 0 < src.length := by
    cases src with
    | nil => simp [endsInRun] at hend
    | cons b rest => simp
  exact compileLoop_never_done src hend fuel Compiler.init c hne

/-- Witness of C16 on the code: the one-byte source `+`. -/
theorem compile_diverges_on_final_run_witness :
    compile 1000 [43] ≠ .done Compiler.init :=
  compile_diverges_on_final_run [43] (by decide) 1000 Compiler.init

/-! ## Claim C18: one instruction with a count against single steps -/

theorem execN_right (kbd : Nat → Keyboard) :
    ∀ (k : Nat) (vm : VM),
      (∀ i, i < k → vm.program (vm.cursor + 2 * i) = 62 ∧
        vm.program (vm.cursor + 2 * i + 1) = 1) →
      vm.cursor + 2 * k ≤ PROGRAM_CAP → vm.address + k ≤ INT_MAX →
      execN kbd k vm =
        some { vm with address := vm.address + k, cursor := vm.cursor + 2 * k } := by
  intro k
  induction k with
  | zero => intro vm _ _ _; simp [execN]
  | succ k ih =>
    intro vm hp hc ha
    obtain ⟨p0, p1⟩ := hp 0 (by omega)
    simp only [Nat.mul_zero, Nat.add_zero] at p0 p1
    have hc0 : vm.cursor < PROGRAM_CAP := by omega
    have hc1 : vm.cursor + 1 < PROGRAM_CAP := by omega
    have ha1 : vm.address + 1 ≤ INT_MAX := by push_cast at ha; omega
    have hstep : exec kbd vm =
        .next { vm with address := vm.address + 1, cursor := vm.cursor + 1 + 1 } := by
      simp [exec, hc0, hc1, p0, p1, ha1]
    simp only [execN, hstep]
    rw [ih _ (fun i hi => by
        have := hp (i + 1) (by omega)
        simp only at this ⊢
        rw [show vm.cursor + 1 + 1 + 2 * i = vm.cursor + 2 * (i + 1) from by omega]
        exact this) (by simp only; omega) (by simp only; push_cast at ha ⊢; omega)]
    simp only [Option.some.injEq]
    congr 1
    · omega
    · omega

theorem execN_left (kbd : Nat → Keyboard) :
    ∀ (k : Nat) (vm : VM),
      (∀ i, i < k → vm.program (vm.cursor + 2 * i) = 60 ∧
        vm.program (vm.cursor + 2 * i + 1) = 1) →
      vm.cursor + 2 * k ≤ PROGRAM_CAP → INT_MIN ≤ vm.address - k →
      execN kbd k vm =
        some { vm with address := vm.address - k, cursor := vm.cursor + 2 * k } := by
  intro k
  induction k with
  | zero => intro vm _ _ _; simp [execN]
  | succ k ih =>
    intro vm hp hc ha
    obtain ⟨p0, p1⟩ := hp 0 (by omega)
    simp only [Nat.mul_zero, Nat.add_zero] at p0 p1
    have hc0 : vm.cursor < PROGRAM_CAP := by omega
    have hc1 : vm.cursor + 1 < PROGRAM_CAP := by omega
    have ha1 : INT_MIN ≤ vm.address - 1 := by push_cast at ha; omega
    have hstep : exec kbd vm =
        .next { vm with address := vm.address - 1, cursor := vm.cursor + 1 + 1 } := by
      simp [exec, hc0, hc1, p0, p1, ha1]
    simp only [execN, hstep]
    rw [ih _ (fun i hi => by
        have := hp (i + 1) (by omega)
        simp only at this ⊢
        rw [show vm.cursor + 1 + 1 + 2 * i = vm.cursor + 2 * (i + 1) from by omega]
        exact this) (by simp only; omega) (by simp only; push_cast at ha ⊢; omega)]
    simp only [Option.some.injEq]
    congr 1
    · omega
    · omega

theorem execN_plus (kbd : Nat → Keyboard) :
    ∀ (k : Nat) (vm : VM),
      (∀ i, i < k → vm.program (vm.cursor + 2 * i) = 43 ∧
        vm.program (vm.cursor + 2 * i + 1) = 1) →
      vm.cursor + 2 * k ≤ PROGRAM_CAP → vm.inRange →
      ∃ b, execN kbd k vm = some b ∧ b.address = vm.address ∧
        b.cursor = vm.cursor + 2 * k ∧
        (∀ j, j ≠ vm.address.toNat → b.memory j = vm.memory j) ∧
        b.memory vm.address.toNat = if k = 0 then vm.cell else (vm.cell + k) % 256 := by
  intro k
  induction k with
  | zero => intro vm _ _ _; exact ⟨vm, rfl, rfl, rfl, fun _ _ => rfl, rfl⟩
  | succ k ih =>
    intro vm hp hc hr
    obtain ⟨p0, p1⟩ := hp 0 (by omega)
    simp only [Nat.mul_zero, Nat.add_zero] at p0 p1
    have hc0 : vm.cursor < PROGRAM_CAP := by omega
    have hc1 : vm.cursor + 1 < PROGRAM_CAP := by omega
    have hstep : exec kbd vm =
        .next { vm with memory := store vm.memory vm.address.toNat ((vm.cell + 1) % 256),
                        cursor := vm.cursor + 1 + 1 } := by
      simp [exec, hc0, hc1, p0, p1, hr, VM.setCell]
    obtain ⟨b, b1, b2, b3, b4, b5⟩ := ih
      { vm with memory := store vm.memory vm.address.toNat ((vm.cell + 1) % 256),
                cursor := vm.cursor + 1 + 1 }
      (fun i hi => by
        have := hp (i + 1) (by omega)
        simp only at this ⊢
        rw [show vm.cursor + 1 + 1 + 2 * i = vm.cursor + 2 * (i + 1) from by omega]
        exact this) (by simp only; omega) hr
    simp only at b2 b3 b4 b5
    refine ⟨b, by simp only [execN, hstep]; exact b1, b2, by omega, ?_, ?_⟩
    · intro j hj
      rw [b4 j hj, store_other _ _ _ _ hj]
    · rw [b5]
      simp only [VM.cell, store_same]
      by_cases hk : k = 0
      · simp [hk]
      · simp only [hk, if_false, Nat.succ_ne_zero]
        show ((vm.memory vm.address.toNat + 1) % 256 + k) % 256 = _
        omega

theorem execN_minus (kbd : Nat → Keyboard) :
    ∀ (k : Nat) (vm : VM),
      (∀ i, i < k → vm.program (vm.cursor + 2 * i) = 45 ∧
        vm.program (vm.cursor + 2 * i + 1) = 1) →
      vm.cursor + 2 * k ≤ PROGRAM_CAP → vm.inRange →
      ∃ b, execN kbd k vm = some b ∧ b.address = vm.address ∧
        b.cursor = vm.cursor + 2 * k ∧
        (∀ j, j ≠ vm.address.toNat → b.memory j = vm.memory j) ∧
        b.memory vm.address.toNat =
          if k = 0 then vm.cell else (((vm.cell : Int) - (k : Int)) % 256).toNat := by
  intro k
  induction k with
  | zero => intro vm _ _ _; exact ⟨vm, rfl, rfl, rfl, fun _ _ => rfl, rfl⟩
  | succ k ih =>
    intro vm hp hc hr
    obtain ⟨p0, p1⟩ := hp 0 (by omega)
    simp only [Nat.mul_zero, Nat.add_zero] at p0 p1
    have hc0 : vm.cursor < PROGRAM_CAP := by omega
    have hc1 : vm.cursor + 1 < PROGRAM_CAP := by omega
    have hstep : exec kbd vm =
        .next { vm with
          memory := store vm.memory vm.address.toNat
            (((vm.cell : Int) - ((1 : Nat) : Int)) % 256).toNat,
          cursor := vm.cursor + 1 + 1 } := by
      simp [exec, hc0, hc1, p0, p1, hr, VM.setCell]
    obtain ⟨b, b1, b2, b3, b4, b5⟩ := ih
      { vm with
          memory := store vm.memory vm.address.toNat
            (((vm.cell : Int) - ((1 : Nat) : Int)) % 256).toNat,
          cursor := vm.cursor + 1 + 1 }
      (fun i hi => by
        have := hp (i + 1) (by omega)
        simp only at this ⊢
        rw [show vm.cursor + 1 + 1 + 2 * i = vm.cursor + 2 * (i + 1) from by omega]
        exact this) (by simp only; omega) hr
    simp only at b2 b3 b4 b5
    refine ⟨b, by simp only [execN, hstep]; exact b1, b2, by omega, ?_, ?_⟩
    · intro j hj
      rw [b4 j hj, store_other _ _ _ _ hj]
    · rw [b5]
      simp only [VM.cell, store_same]
      by_cases hk : k = 0
      · simp [hk]
      · simp only [hk, if_false, Nat.succ_ne_zero]
        generalize vm.memory vm.address.toNat = v
        omega

/-- C18: let `c` be one of `>`, `<`, `+`, `-` and `k >= 1`. A machine about to
execute the instruction `(c, k)` and a machine with the same pointer and memory
about to execute `k` consecutive instructions `(c, 1)` end, after one loop
iteration and after `k` loop iterations, with the same pointer and the same
memory. This holds wherever the C code is defined: for `>` and `<` while the
pointer stays in the range of `int` (in particular while it stays in
`[0, 30000)`), for `+` and `-` when the pointer is inside the memory window;
with the pointer outside the window `+` and `-` are undefined on both
machines. -/
theorem run_length_same_effect (kbd : Nat → Keyboard) (c k : Nat) (vm1 vm2 : VM)
    (hc : isRunOp c = true) (hk : 1 ≤ k)
    (h1 : vm1.program vm1.cursor = c) (h1k : vm1.program (vm1.cursor + 1) = k)
    (hcur1 : vm1.cursor + 1 < PROGRAM_CAP)
    (h2 : ∀ i, i < k → vm2.program (vm2.cursor + 2 * i) = c ∧
      vm2.program (vm2.cursor + 2 * i + 1) = 1)
    (hcur2 : vm2.cursor + 2 * k ≤ PROGRAM_CAP)
    (haddr : vm1.address = vm2.address) (hmem : vm1.memory = vm2.memory) :
    ((c = 62 → vm1.address + k ≤ INT_MAX) → (c = 60 → INT_MIN ≤ vm1.address - k) →
      (c = 43 ∨ c = 45 → vm1.inRange) →
      ∃ a b, exec kbd vm1 = .next a ∧ execN kbd k vm2 = some b ∧
        a.address = b.address ∧ a.memory = b.memory) ∧
    (c = 43 ∨ c = 45 → ¬ vm1.inRange →
      exec kbd vm1 = .undefined ∧ execN kbd k vm2 = none) := by
  have hc0 : vm1.cursor < PROGRAM_CAP := by omega
  have hr2 : vm2.inRange ↔ vm1.inRange := by simp [VM.inRange, haddr]
  have hcell : vm2.cell = vm1.cell := by simp [VM.cell, haddr, hmem]
  constructor
  · intro d62 d60 d43
    rcases (isRunOp_iff c).mp hc with rfl | rfl | rfl | rfl
    · have hle := d62 rfl
      have e1 : exec kbd vm1 =
          .next { vm1 with address := vm1.address + k, cursor := vm1.cursor + 1 + 1 } := by
        simp [exec, hc0, hcur1, h1, h1k, hle]
      exact ⟨_, _, e1, execN_right kbd k vm2 h2 hcur2 (by rw [← haddr]; exact hle),
        by simp [haddr], hmem⟩
    · have hle := d60 rfl
      have e1 : exec kbd vm1 =
          .next { vm1 with address := vm1.address - k, cursor := vm1.cursor + 1 + 1 } := by
        simp [exec, hc0, hcur1, h1, h1k, hle]
      exact ⟨_, _, e1, execN_left kbd k vm2 h2 hcur2 (by rw [← haddr]; exact hle),
        by simp [haddr], hmem⟩
    · have hr := d43 (Or.inl rfl)
      obtain ⟨b, b1, b2, b3, b4, b5⟩ := execN_plus kbd k vm2 h2 hcur2 (hr2.mpr hr)
      have e1 : exec kbd vm1 =
          .next { vm1 with memory := vm1.setCell ((vm1.cell + k) % 256),
                           cursor := vm1.cursor + 1 + 1 } := by
        simp [exec, hc0, hcur1, h1, h1k, hr]
      refine ⟨_, b, e1, b1, ?_, ?_⟩
      · simp [b2, haddr]
      · funext j
        simp only [VM.setCell]
        by_cases hj : j = vm2.address.toNat
        · subst hj
          rw [b5, if_neg (by omega), hcell, haddr, store_same]
        · rw [b4 j hj, ← hmem, store_other]
          rw [haddr]; exact hj
    · have hr := d43 (Or.inr rfl)
      obtain ⟨b, b1, b2, b3, b4, b5⟩ := execN_minus kbd k vm2 h2 hcur2 (hr2.mpr hr)
      have e1 : exec kbd vm1 =
          .next { vm1 with
            memory := vm1.setCell (((vm1.cell : Int) - (k : Int)) % 256).toNat,
            cursor := vm1.cursor + 1 + 1 } := by
        simp [exec, hc0, hcur1, h1, h1k, hr]
      refine ⟨_, b, e1, b1, ?_, ?_⟩
      · simp [b2, haddr]
      · funext j
        simp only [VM.setCell]
        by_cases hj : j = vm2.address.toNat
        · subst hj
          rw [b5, if_neg (by omega), hcell, haddr, store_same]
        · rw [b4 j hj, ← hmem, store_other]
          rw [haddr]; exact hj
  · intro h43 hnr
    obtain ⟨k1, rfl⟩ : ∃ k1, k = k1 + 1 := ⟨k - 1, by omega⟩
    obtain ⟨p0, p1⟩ := h2 0 (by omega)
    simp only [Nat.mul_zero, Nat.add_zero] at p0 p1
    have hc2 : vm2.cursor < PROGRAM_CAP := by omega
    have hnr2 : ¬ vm2.inRange := fun h => hnr (hr2.mp h)
    rcases h43 with rfl | rfl
    · constructor
      · simp [exec, hc0, h1, hnr]
      · simp [execN, exec, hc2, p0, hnr2]
    · constructor
      · simp [exec, hc0, h1, hnr]
      · simp [execN, exec, hc2, p0, hnr2]

/-- Witness of C18: `+` with operand 3 against three times `+` with operand 1. -/
theorem run_length_same_effect_witness :
    ∃ a b, exec (fun _ => noKeys) vmPlus3 = .next a ∧
      execN (fun _ => noKeys) 3 vmPlus111 = some b ∧
      a.address = b.address ∧ a.memory = b.memory :=
  (run_length_same_effect (fun _ => noKeys) 43 3 vmPlus3 vmPlus111 (by decide) (by decide)
    rfl rfl (by decide) (by decide) (by decide) rfl rfl).1
    (by decide) (by decide) (by decide)

/-! ## Every compiled program comes from the token translation -/

theorem compileLoop_mono (src : List Nat) :
    ∀ (fuel : Nat) (c c1 : Compiler), compileLoop src fuel c = .done c1 →
      compileLoop src (fuel + 1) c = .done c1 := by
  intro fuel
  induction fuel with
  | zero =>
    intro c c1 h
    by_cases hp : c.pos < src.length
    · simp [compileLoop, hp] at h
    · have hget : src.get? c.pos = none := by
        simp [List.getElem?_eq_none]; omega
      simp only [compileLoop, hp, if_false] at h
      simp only [compileLoop, hget]
      exact h
  | succ fuel ih =>
    intro c c1 h
    cases hget : src.get? c.pos with
    | none =>
      simp only [compileLoop, hget] at h ⊢
      exact h
    | some ch =>
      cases hstep : compileStep src ch { c with pos := c.pos + 1 } with
      | none =>
        simp only [compileLoop, hget, hstep] at h
        cases h
      | some c2 =>
        have h2 : compileLoop src fuel c2 = .done c1 := by
          simp only [compileLoop, hget, hstep] at h
          exact h
        have h3 := ih c2 c1 h2
        rw [compileLoop]
        simp only [hget, hstep]
        exact h3

theorem compileLoop_mono_add (src : List Nat) (fuel : Nat) (c c1 : Compiler)
    (h : compileLoop src fuel c = .done c1) :
    ∀ g, compileLoop src (fuel + g) c = .done c1 := by
  intro g
  induction g with
  | zero => exact h
  | succ g ih => exact compileLoop_mono src (fuel + g) c c1 ih

theorem endsInRun_of_done (src : List Nat) (fuel : Nat) (c : Compiler)
    (h : compile fuel src = .done c) : endsInRun src = false := by
  cases he : endsInRun src with
  | false => rfl
  | true =>
    have hne : 0 < src.length := by
      cases src with
      | nil => simp [endsInRun] at he
      | cons b rest => simp
    exact absurd h (compileLoop_never_done src he fuel Compiler.init c hne)

/-- Whatever the fuel, a program returned by the compile loop is the token
translation of the source. -/
theorem compile_done_emit (src : List Nat) (fuel : Nat) (c : Compiler)
    (h : compile fuel src = .done c) :
    emit (groupRuns src) (fun _ => 0, 0) = some (c.program, c.program_size) ∧
      c.pos = src.length := by
  have hend := endsInRun_of_done src fuel c h
  have h1 := compileLoop_mono_add src fuel Compiler.init c h (src.length + 1)
  have h2 := compile_eq_emit src hend (fuel + (src.length + 1)) (by omega)
  unfold compile at h2
  rw [h1] at h2
  cases he : emit (groupRuns src) (fun _ => 0, 0) with
  | none => rw [he] at h2; simp [emitOutcome] at h2
  | some st =>
    rw [he] at h2
    simp only [emitOutcome, Outcome.done.injEq] at h2
    subst h2
    exact ⟨rfl, rfl⟩

theorem groupRuns_isBF (l : List Nat) : ∀ t ∈ groupRuns l, isBFChar t.1 = true := by
  induction l with
  | nil => intro t ht; simp [groupRuns] at ht
  | cons b rest ih =>
    intro t ht
    by_cases hr : isRunOp b = true
    · simp only [groupRuns, hr, if_true] at ht
      rcases pushRun_ops b _ t ht with h | h
      · rw [h]; exact isBFChar_of_isRunOp hr
      · exact ih t h
    · by_cases hb : isBFChar b = true
      · simp only [groupRuns, hr, hb, if_true, if_false] at ht
        rcases List.mem_cons.mp ht with h | h
        · rw [h]; exact hb
        · exact ih t h
      · have hb0 : isBFChar b = false := by simpa using hb
        rw [groupRuns_junk _ _ hb0] at ht
        exact ih t ht

theorem scanBack_found (p : Nat → Nat) :
    ∀ (fuel i d : Nat), 0 < d → (scanBack p fuel i d).2 = 0 →
      p (scanBack p fuel i d).1 = 91 := by
  intro fuel
  induction fuel with
  | zero =>
    intro i d hd h
    simp [scanBack] at h; omega
  | succ fuel ih =>
    intro i d hd h
    unfold scanBack at h ⊢
    by_cases hc : 0 < i ∧ 0 < d
    · simp only [hc, and_self, if_true] at h ⊢
      by_cases h91 : p (i - 2) = 91
      · have h93 : ¬ p (i - 2) = 93 := by rw [h91]; decide
        have e : (if p (i - 2) = 93 then (if p (i - 2) = 91 then d - 1 else d) + 1
            else (if p (i - 2) = 91 then d - 1 else d)) = d - 1 := by
          rw [if_neg h93, if_pos h91]
        rw [e] at h ⊢
        by_cases hd1 : d - 1 = 0
        · rw [hd1, scanBack_zero]
          exact h91
        · exact ih (i - 2) (d - 1) (by omega) h
      · by_cases h93 : p (i - 2) = 93
        · have e : (if p (i - 2) = 93 then (if p (i - 2) = 91 then d - 1 else d) + 1
              else (if p (i - 2) = 91 then d - 1 else d)) = d + 1 := by
            rw [if_pos h93, if_neg h91]
          rw [e] at h ⊢
          exact ih (i - 2) (d + 1) (by omega) h
        · have e : (if p (i - 2) = 93 then (if p (i - 2) = 91 then d - 1 else d) + 1
              else (if p (i - 2) = 91 then d - 1 else d)) = d := by
            rw [if_neg h93, if_neg h91]
          rw [e] at h ⊢
          exact ih (i - 2) d hd h
    · simp only [hc, if_false] at h
      omega

theorem scanBack_stop (p : Nat → Nat) :
    ∀ (fuel i d : Nat), i ≤ fuel →
      (scanBack p fuel i d).1 = 0 ∨ (scanBack p fuel i d).2 = 0 := by
  intro fuel
  induction fuel with
  | zero =>
    intro i d hi
    simp [scanBack]; omega
  | succ fuel ih =>
    intro i d hi
    unfold scanBack
    by_cases hc : 0 < i ∧ 0 < d
    · simp only [hc, and_self, if_true]
      exact ih _ _ (by omega)
    · simp only [hc, if_false]
      omega

theorem emitTok_run_form (t : Nat × Nat) (st st1 : (Nat → Nat) × Nat)
    (hr : isRunOp t.1 = true) (h : emitTok t st = some st1) :
    st1 = (store (store st.1 st.2 t.1) (st.2 + 1) (t.2 % 65536), st.2 + 2) ∧
      st.2 + 1 < PROGRAM_CAP := by
  by_cases hcap : st.2 + 1 < PROGRAM_CAP
  · have h1 : emitTok t st =
        some (store (store st.1 st.2 t.1) (st.2 + 1) (t.2 % 65536), st.2 + 2) := by
      unfold emitTok
      rw [if_pos hr, if_pos hcap]
    rw [h1] at h
    exact ⟨(Option.some.inj h).symm, hcap⟩
  · have h1 : emitTok t st = none := by
      unfold emitTok
      rw [if_pos hr, if_neg hcap]
    rw [h1] at h
    cases h

theorem emitTok_unit_form (t : Nat × Nat) (st st1 : (Nat → Nat) × Nat)
    (hr : ¬ isRunOp t.1 = true) (h93 : ¬ t.1 = 93) (h : emitTok t st = some st1) :
    st1 = (store st.1 st.2 t.1, st.2 + 2) ∧ st.2 < PROGRAM_CAP := by
  by_cases hcap : st.2 < PROGRAM_CAP
  · have h1 : emitTok t st = some (store st.1 st.2 t.1, st.2 + 2) := by
      unfold emitTok
      rw [if_neg hr, if_neg h93, if_pos hcap]
    rw [h1] at h
    exact ⟨(Option.some.inj h).symm, hcap⟩
  · have h1 : emitTok t st = none := by
      unfold emitTok
      rw [if_neg hr, if_neg h93, if_neg hcap]
    rw [h1] at h
    cases h

theorem emitTok_close_cap (t : Nat × Nat) (st st1 : (Nat → Nat) × Nat) (ht : t.1 = 93)
    (h : emitTok t st = some st1) : st.2 + 1 < PROGRAM_CAP := by
  by_contra hcap
  have hr : ¬ isRunOp t.1 = true := by rw [ht]; decide
  have h1 : emitTok t st = none := by
    unfold emitTok
    rw [if_neg hr, if_pos ht, if_neg hcap]
  rw [h1] at h
  cases h

theorem isBFChar_lt (a : Nat) (h : isBFChar a = true) : a < 256 := by
  have := (isBFChar_iff a).mp h
  omega

theorem ProgramOK.empty_program : ProgramOK (fun _ => 0) 0 :=
  ⟨rfl, by decide, fun _ _ => rfl, fun _ _ h => (by omega), fun _ => (by decide),
    fun _ _ h => (by omega), fun _ _ _ h => (by omega)⟩

/-- Emitting one operator token keeps the shape of the program. -/
theorem ProgramOK.emit_token {p : Nat → Nat} {n : Nat} (h : ProgramOK p n) (t : Nat × Nat)
    (ht : isBFChar t.1 = true) (st1 : (Nat → Nat) × Nat)
    (he : emitTok t (p, n) = some st1) : ProgramOK st1.1 st1.2 := by
  have hev := h.even
  have hcapn := h.cap
  have ht256 := isBFChar_lt t.1 ht
  by_cases hr : isRunOp t.1 = true
  · obtain ⟨hform, hcap⟩ := emitTok_run_form t (p, n) st1 hr he
    simp only at hform hcap
    have h91 : t.1 ≠ 91 := by intro e; rw [e] at hr; cases hr
    have h93 : t.1 ≠ 93 := by intro e; rw [e] at hr; cases hr
    subst hform
    simp only
    have hfr : ∀ j, j < n → store (store p n t.1) (n + 1) (t.2 % 65536) j = p j := by
      intro j hj
      rw [store_other _ _ _ _ (by omega), store_other _ _ _ _ (by omega)]
    have hn : store (store p n t.1) (n + 1) (t.2 % 65536) n = t.1 := by
      rw [store_other _ _ _ _ (by omega), store_same]
    refine ⟨by omega, by unfold PROGRAM_CAP at hcap ⊢; omega, ?_, ?_, ?_, ?_, ?_⟩
    · intro j hj
      rw [store_other _ _ _ _ (by omega), store_other _ _ _ _ (by omega)]
      exact h.zero j (by omega)
    · intro j hj hlt
      by_cases hjn : j = n
      · rw [hjn, hn]; exact ht
      · rw [hfr j (by omega)]; exact h.ops j hj (by omega)
    · intro j
      unfold store
      split
      · exact Nat.mod_lt _ (by decide)
      · split
        · omega
        · exact h.word j
    · intro i hi hlt hi91
      by_cases hin : i = n
      · rw [hin, hn] at hi91; exact absurd hi91 h91
      · rw [hfr i (by omega)] at hi91
        rw [hfr (i + 1) (by omega)]
        have := h.opens i hi (by omega) hi91
        omega
    · intro j hj h2 hlt hj93
      by_cases hjn : j = n
      · rw [hjn, hn] at hj93; exact absurd hj93 h93
      · rw [hfr j (by omega)] at hj93
        rw [hfr (j + 1) (by omega)]
        exact h.closes j hj h2 (by omega) hj93
  · by_cases h93 : t.1 = 93
    · have hform := emitTok_close t (p, n) st1 h93 he
      have hcap := emitTok_close_cap t (p, n) st1 h93 he
      simp only at hform hcap
      have hsev := scanBack_even (store p n 93) n n 1 hev
      have hsle := scanBack_le (store p n 93) n n 1
      have hstop := scanBack_stop (store p n 93) n n 1 (Nat.le_refl _)
      have hfound := scanBack_found (store p n 93) n n 1 (by omega)
      generalize (scanBack (store p n 93) n n 1).1 = i at hform hsev hsle hstop hfound
      generalize hd : (n - i) % 65536 = d at hform
      have hdle : d ≤ n - i := by rw [← hd]; exact Nat.mod_le _ _
      have hdev : d % 2 = 0 := by rw [← hd]; omega
      have hd16 : d < 65536 := by rw [← hd]; exact Nat.mod_lt _ (by decide)
      subst hform
      simp only
      have hfr : ∀ j, j ≠ n → j ≠ i + 1 → j ≠ n + 1 →
          store (store (store p n 93) (i + 1) d) (n + 1) d j = p j := by
        intro j j1 j2 j3
        rw [store_other _ _ _ _ j3, store_other _ _ _ _ j2, store_other _ _ _ _ j1]
      have hn : store (store (store p n 93) (i + 1) d) (n + 1) d n = 93 := by
        rw [store_other _ _ _ _ (by omega), store_other _ _ _ _ (by omega), store_same]
      have hn1 : store (store (store p n 93) (i + 1) d) (n + 1) d (n + 1) = d := store_same _ _ _
      have hi1 : store (store (store p n 93) (i + 1) d) (n + 1) d (i + 1) = d := by
        by_cases e : i + 1 = n + 1
        · rw [e]; exact store_same _ _ _
        · rw [store_other _ _ _ _ e, store_same]
      refine ⟨by omega, by unfold PROGRAM_CAP at hcap ⊢; omega, ?_, ?_, ?_, ?_, ?_⟩
      · intro j hj
        rw [hfr j (by omega) (by omega) (by omega)]
        exact h.zero j (by omega)
      · intro j hj hlt
        by_cases hjn : j = n
        · rw [hjn, hn]; decide
        · rw [hfr j hjn (by omega) (by omega)]; exact h.ops j hj (by omega)
      · intro j
        unfold store
        split
        · exact hd16
        · split
          · exact hd16
          · split
            · decide
            · exact h.word j
      · intro a ha hlt ha91
        by_cases han : a = n
        · rw [han, hn] at ha91; cases ha91
        · rw [hfr a han (by omega) (by omega)] at ha91
          by_cases hai : a = i
          · rw [hai, hi1]; omega
          · rw [hfr (a + 1) (by omega) (by omega) (by omega)]
            have := h.opens a ha (by omega) ha91
            omega
      · intro j hj h2 hlt hj93
        by_cases hjn : j = n
        · rw [hjn, hn1]; omega
        · rw [hfr j hjn (by omega) (by omega)] at hj93
          have hji : j ≠ i := by
            intro e
            rcases hstop with h0 | h0
            · omega
            · have h91 := hfound h0
              rw [← e, store_other _ _ _ _ hjn, hj93] at h91
              cases h91
          rw [hfr (j + 1) (by omega) (by omega) (by omega)]
          exact h.closes j hj h2 (by omega) hj93
    · obtain ⟨hform, hcap⟩ := emitTok_unit_form t (p, n) st1 hr h93 he
      simp only at hform hcap
      subst hform
      simp only
      have hfr : ∀ j, j ≠ n → store p n t.1 j = p j := fun j hj => store_other _ _ _ _ hj
      have hn : store p n t.1 n = t.1 := store_same _ _ _
      refine ⟨by omega, by unfold PROGRAM_CAP at hcap ⊢; omega, ?_, ?_, ?_, ?_, ?_⟩
      · intro j hj
        rw [hfr j (by omega)]
        exact h.zero j (by omega)
      · intro j hj hlt
        by_cases hjn : j = n
        · rw [hjn, hn]; exact ht
        · rw [hfr j hjn]; exact h.ops j hj (by omega)
      · intro j
        unfold store
        split
        · omega
        · exact h.word j
      · intro i hi hlt hi91
        by_cases hin : i = n
        · rw [hin, hfr (n + 1) (by omega), h.zero (n + 1) (by omega)]
          omega
        · rw [hfr i hin] at hi91
          rw [hfr (i + 1) (by omega)]
          have := h.opens i hi (by omega) hi91
          omega
      · intro j hj h2 hlt hj93
        by_cases hjn : j = n
        · rw [hjn, hn] at hj93; exact absurd hj93 h93
        · rw [hfr j hjn] at hj93
          rw [hfr (j + 1) (by omega)]
          exact h.closes j hj h2 (by omega) hj93

theorem ProgramOK.emit (toks : List (Nat × Nat)) :
    ∀ (st st1 : (Nat → Nat) × Nat), ProgramOK st.1 st.2 →
      (∀ t ∈ toks, isBFChar t.1 = true) → emit toks st = some st1 →
      ProgramOK st1.1 st1.2 := by
  induction toks with
  | nil =>
    intro st st1 h _ he
    simp only [BF16.emit, Option.some.injEq] at he
    subst he
    exact h
  | cons t ts ih =>
    intro st st1 h hts he
    cases hsa : emitTok t st with
    | none => simp [BF16.emit, hsa] at he
    | some sa =>
      simp only [BF16.emit, hsa] at he
      exact ih sa st1 (h.emit_token t (hts t (List.mem_cons_self _ _)) sa hsa)
        (fun x hx => hts x (List.mem_cons_of_mem _ hx)) he

/-- Every program returned by the compile loop, for any source and fuel, has
the shape `ProgramOK`. -/
theorem compile_programOK (src : List Nat) (fuel : Nat) (c : Compiler)
    (h : compile fuel src = .done c) : ProgramOK c.program c.program_size :=
  ProgramOK.emit (groupRuns src) (fun _ => 0, 0) (c.program, c.program_size)
    ProgramOK.empty_program (groupRuns_isBF src) (compile_done_emit src fuel c h).1

/-! ## Claim C11: the binary export -/

theorem decode_records (l : List (Nat × Nat)) (h : ∀ r ∈ l, r.2 < 65536) :
    decodeRecords (l.flatMap fun r => [r.1, r.2 % 256, r.2 / 256]) = l ∧
      (l.flatMap fun r => [r.1, r.2 % 256, r.2 / 256]).length = 3 * l.length := by
  induction l with
  | nil => exact ⟨rfl, rfl⟩
  | cons r rest ih =>
    obtain ⟨i1, i2⟩ := ih (fun x hx => h x (List.mem_cons_of_mem _ hx))
    have hr := h r (List.mem_cons_self _ _)
    constructor
    · simp only [List.flatMap_cons, List.cons_append, List.nil_append, decodeRecords, i1]
      congr 1
      have : r.2 % 256 + 256 * (r.2 / 256) = r.2 := by omega
      rw [this]
    · simp only [List.flatMap_cons, List.cons_append, List.nil_append, List.length_cons, i2]
      omega

theorem exportLoop_eq (p : Nat → Nat) (n : Nat) (hev : n % 2 = 0)
    (hop : ∀ j, j % 2 = 0 → j < n → p j < 256) (hw : ∀ j, p j < 65536) :
    ∀ (fuel a : Nat), n / 2 - a ≤ fuel →
      exportLoop p n fuel (2 * a) =
        ((List.range' a (n / 2 - a)).map fun k => (p (2 * k), p (2 * k + 1))).flatMap
          fun r => [r.1, r.2 % 256, r.2 / 256] := by
  intro fuel
  induction fuel with
  | zero =>
    intro a ha
    have : n / 2 - a = 0 := by omega
    simp [exportLoop, this]
  | succ fuel ih =>
    intro a ha
    by_cases hlt : 2 * a < n
    · have e : n / 2 - a = (n / 2 - (a + 1)) + 1 := by omega
      rw [e, List.range'_succ, List.map_cons, List.flatMap_cons]
      simp only [exportLoop, hlt, if_true]
      have e2 : 2 * a + 2 = 2 * (a + 1) := by omega
      rw [e2, ih (a + 1) (by omega)]
      have h1 : p (2 * a) % 256 = p (2 * a) := Nat.mod_eq_of_lt (hop _ (by omega) hlt)
      have h2 : p (2 * a + 1) / 256 % 256 = p (2 * a + 1) / 256 :=
        Nat.mod_eq_of_lt (by have := hw (2 * a + 1); omega)
      rw [h1, h2]
    · have : n / 2 - a = 0 := by omega
      simp [exportLoop, hlt, this]

/-- C11: for every program returned by the compile loop (any source, any
fuel) the bytes written to `program.bin` are the instructions in program
order, three bytes each: the operator character, then the low and the high
byte of the operand. So the export is 3 times as long as the instruction
count, every opcode byte is one of the nine operator characters, and reading
the records back gives the compiled `(opcode, operand)` sequence. -/
theorem export_round_trip (src : List Nat) (fuel : Nat) (c : Compiler)
    (h : compile fuel src = .done c) :
    exportBytes c.program c.program_size =
        (instrs c.program c.program_size).flatMap (fun r => [r.1, r.2 % 256, r.2 / 256]) ∧
      (exportBytes c.program c.program_size).length = 3 * (c.program_size / 2) ∧
      (instrs c.program c.program_size).length = c.program_size / 2 ∧
      (∀ r ∈ instrs c.program c.program_size, isBFChar r.1 = true ∧ r.2 < 65536) ∧
      decodeRecords (exportBytes c.program c.program_size) =
        instrs c.program c.program_size := by
  have hok := compile_programOK src fuel c h
  have hexp : exportBytes c.program c.program_size =
      (instrs c.program c.program_size).flatMap (fun r => [r.1, r.2 % 256, r.2 / 256]) := by
    have := exportLoop_eq c.program c.program_size hok.even
      (fun j h1 h2 => isBFChar_lt _ (hok.ops j h1 h2)) hok.word c.program_size 0 (by omega)
    simp only [Nat.mul_zero, Nat.sub_zero] at this
    rw [exportBytes, this, instrs, List.range_eq_range']
  have hmem : ∀ r ∈ instrs c.program c.program_size, isBFChar r.1 = true ∧ r.2 < 65536 := by
    intro r hr
    simp only [instrs, List.mem_map, List.mem_range] at hr
    obtain ⟨k, hk, rfl⟩ := hr
    exact ⟨hok.ops (2 * k) (by omega) (by have := hok.even; omega), hok.word _⟩
  have hlen : (instrs c.program c.program_size).length = c.program_size / 2 := by
    simp [instrs]
  obtain ⟨d1, d2⟩ := decode_records (instrs c.program c.program_size)
    (fun r hr => (hmem r hr).2)
  refine ⟨hexp, ?_, hlen, hmem, ?_⟩
  · rw [hexp, d2, hlen]
  · rw [hexp, d1]

/-- Witness of C11: the export of the program compiled from `+[->+<]`. -/
theorem export_round_trip_witness :
    ∃ c, compile 8 [43, 91, 45, 62, 43, 60, 93] = .done c ∧
      exportBytes c.program c.program_size =
        [43, 1, 0, 91, 10, 0, 45, 1, 0, 62, 1, 0, 43, 1, 0, 60, 1, 0, 93, 10, 0] ∧
      decodeRecords (exportBytes c.program c.program_size) =
        instrs c.program c.program_size :=
  ⟨_, rfl, by decide,
    (export_round_trip [43, 91, 45, 62, 43, 60, 93] 8 _ rfl).2.2.2.2⟩

/-! ## Claim C17: the cursor stays on the instructions -/

/-- What one loop iteration does to the cursor and the log of a machine whose
program has the shape `ProgramOK` and whose cursor is on an instruction. -/
theorem exec_keeps_cursor (kbd : Nat → Keyboard) (vm v : VM) (hok : VMOK vm)
    (hlt : vm.cursor < vm.program_size)
    (hex : exec kbd vm = .next v ∨ exec kbd vm = .ret v) :
    v.program = vm.program ∧ v.program_size = vm.program_size ∧ v.cursor % 2 = 0 ∧
      2 ≤ v.cursor ∧ v.cursor ≤ vm.program_size ∧
      (v.log = vm.log ∨ ∃ a x, v.log = vm.log ++ [Event.dump a x]) := by
  have hev := hok.even
  have hpe := hok.prog.even
  have hcap := hok.prog.cap
  have hc0 : vm.cursor < PROGRAM_CAP := by omega
  have hc1 : vm.cursor + 1 < PROGRAM_CAP := by omega
  have hop := hok.prog.ops vm.cursor hev hlt
  rcases (isBFChar_iff _).mp hop with h | h | h | h | h | h | h | h | h
  · -- >
    simp only [exec, hc0, hc1, h, if_true, true_and] at hex
    split at hex
    · rcases hex with hex | hex
      · simp only [Step.next.injEq] at hex
        subst hex
        exact ⟨rfl, rfl, by simp only; omega, by simp only; omega, by simp only; omega,
          Or.inl rfl⟩
      · cases hex
    · rcases hex with hex | hex <;> cases hex
  · -- <
    simp only [exec, hc0, hc1, h, if_true, true_and, (by decide : ¬ (60 : Nat) = 62),
      if_false] at hex
    split at hex
    · rcases hex with hex | hex
      · simp only [Step.next.injEq] at hex
        subst hex
        exact ⟨rfl, rfl, by simp only; omega, by simp only; omega, by simp only; omega,
          Or.inl rfl⟩
      · cases hex
    · rcases hex with hex | hex <;> cases hex
  · -- +
    simp only [exec, hc0, hc1, h, if_true, true_and, (by decide : ¬ (43 : Nat) = 62),
      (by decide : ¬ (43 : Nat) = 60), if_false] at hex
    split at hex
    · rcases hex with hex | hex
      · simp only [Step.next.injEq] at hex
        subst hex
        exact ⟨rfl, rfl, by simp only; omega, by simp only; omega, by simp only; omega,
          Or.inl rfl⟩
      · cases hex
    · rcases hex with hex | hex <;> cases hex
  · -- -
    simp only [exec, hc0, hc1, h, if_true, true_and, (by decide : ¬ (45 : Nat) = 62),
      (by decide : ¬ (45 : Nat) = 60), (by decide : ¬ (45 : Nat) = 43), if_false] at hex
    split at hex
    · rcases hex with hex | hex
      · simp only [Step.next.injEq] at hex
        subst hex
        exact ⟨rfl, rfl, by simp only; omega, by simp only; omega, by simp only; omega,
          Or.inl rfl⟩
      · cases hex
    · rcases hex with hex | hex <;> cases hex
  · -- [
    have hb := hok.prog.opens vm.cursor hev hlt h
    simp only [exec, hc0, hc1, h, if_true, true_and, (by decide : ¬ (91 : Nat) = 62),
      (by decide : ¬ (91 : Nat) = 60), (by decide : ¬ (91 : Nat) = 43),
      (by decide : ¬ (91 : Nat) = 45), if_false] at hex
    split at hex
    · split at hex
      · rcases hex with hex | hex
        · simp only [Step.next.injEq] at hex
          subst hex
          exact ⟨rfl, rfl, by simp only; omega, by simp only; omega, by simp only; omega,
            Or.inl rfl⟩
        · cases hex
      · rcases hex with hex | hex
        · simp only [Step.next.injEq] at hex
          subst hex
          exact ⟨rfl, rfl, by simp only; omega, by simp only; omega, by simp only; omega,
            Or.inl rfl⟩
        · cases hex
    · rcases hex with hex | hex <;> cases hex
  · -- ]
    simp only [exec, hc0, hc1, h, if_true, true_and, (by decide : ¬ (93 : Nat) = 62), (by decide : ¬ (93 : Nat) = 60), (by decide : ¬ (93 : Nat) = 43), (by decide : ¬ (93 : Nat) = 45), (by decide : ¬ (93 : Nat) = 91), if_false] at hex
    split at hex
    · split at hex
      · rename_i hr hnz
        have h2 : 2 ≤ vm.cursor := by
          by_contra hcon
          have hz : vm.cursor = 0 := by omega
          obtain ⟨a0, m0⟩ := hok.start hz
          apply hnz
          simp [VM.cell, a0, m0]
        have hb := hok.prog.closes vm.cursor hev h2 hlt h
        have hj := jump_back (vm.cursor + 1) (vm.program (vm.cursor + 1)) SIZE_MOD (by omega)
          (by unfold SIZE_MOD; unfold PROGRAM_CAP at hc1; omega)
        rcases hex with hex | hex
        · simp only [Step.next.injEq] at hex
          subst hex
          refine ⟨rfl, rfl, ?_, ?_, ?_, Or.inl rfl⟩
          · simp only; rw [hj]; omega
          · simp only; rw [hj]; omega
          · simp only; rw [hj]; omega
        · cases hex
      · rcases hex with hex | hex
        · simp only [Step.next.injEq] at hex
          subst hex
          exact ⟨rfl, rfl, by simp only; omega, by simp only; omega, by simp only; omega,
            Or.inl rfl⟩
        · cases hex
    · rcases hex with hex | hex <;> cases hex
  · -- .
    simp only [exec, hc0, hc1, h, if_true, true_and, (by decide : ¬ (46 : Nat) = 62), (by decide : ¬ (46 : Nat) = 60), (by decide : ¬ (46 : Nat) = 43), (by decide : ¬ (46 : Nat) = 45), (by decide : ¬ (46 : Nat) = 91), (by decide : ¬ (46 : Nat) = 93), if_false] at hex
    rcases hex with hex | hex
    · cases hex
    · simp only [Step.ret.injEq] at hex
      subst hex
      exact ⟨rfl, rfl, by simp only; omega, by simp only; omega, by simp only; omega,
        Or.inl rfl⟩
  · -- ,
    simp only [exec, hc0, hc1, h, if_true, true_and, (by decide : ¬ (44 : Nat) = 62), (by decide : ¬ (44 : Nat) = 60), (by decide : ¬ (44 : Nat) = 43), (by decide : ¬ (44 : Nat) = 45), (by decide : ¬ (44 : Nat) = 91), (by decide : ¬ (44 : Nat) = 93), (by decide : ¬ (44 : Nat) = 46), if_false] at hex
    split at hex
    · rcases hex with hex | hex
      · simp only [Step.next.injEq] at hex
        subst hex
        exact ⟨rfl, rfl, by simp only; omega, by simp only; omega, by simp only; omega,
          Or.inl rfl⟩
      · cases hex
    · rcases hex with hex | hex <;> cases hex
  · -- ?
    simp only [exec, hc0, hc1, h, if_true, true_and, (by decide : ¬ (63 : Nat) = 62), (by decide : ¬ (63 : Nat) = 60), (by decide : ¬ (63 : Nat) = 43), (by decide : ¬ (63 : Nat) = 45), (by decide : ¬ (63 : Nat) = 91), (by decide : ¬ (63 : Nat) = 93), (by decide : ¬ (63 : Nat) = 46), (by decide : ¬ (63 : Nat) = 44), if_false] at hex
    split at hex
    · rcases hex with hex | hex
      · simp only [Step.next.injEq] at hex
        subst hex
        exact ⟨rfl, rfl, by simp only; omega, by simp only; omega, by simp only; omega,
          Or.inr ⟨_, _, rfl⟩⟩
      · cases hex
    · rcases hex with hex | hex <;> cases hex
theorem VMOK.exec_step (kbd : Nat → Keyboard) (vm v : VM) (hok : VMOK vm)
    (hlt : vm.cursor < vm.program_size)
    (hex : exec kbd vm = .next v ∨ exec kbd vm = .ret v) :
    VMOK v ∧ v.program = vm.program ∧ v.program_size = vm.program_size := by
  obtain ⟨e1, e2, e3, e4, e5, e6⟩ := exec_keeps_cursor kbd vm v hok hlt hex
  refine ⟨⟨by rw [e1, e2]; exact hok.prog, e3, by rw [e2]; exact e5,
    fun h0 => by omega, ?_⟩, e1, e2⟩
  intro ch hmem
  rcases e6 with h | ⟨a, x, h⟩
  · rw [h] at hmem; exact hok.quiet ch hmem
  · rw [h] at hmem
    rcases List.mem_append.mp hmem with h1 | h1
    · exact hok.quiet ch h1
    · simp at h1

theorem VMOK.fresh (c : Compiler) (h : ProgramOK c.program c.program_size) :
    VMOK (VM.fresh c) :=
  ⟨h, rfl, Nat.zero_le _, fun _ => ⟨rfl, rfl⟩, fun _ hm => (by cases hm)⟩

theorem boundary_ok (kbd : Nat → Keyboard) :
    ∀ (n : Nat) (vm v : VM), VMOK vm → boundary kbd n vm = some v →
      VMOK v ∧ v.program = vm.program ∧ v.program_size = vm.program_size := by
  intro n
  induction n with
  | zero =>
    intro vm v hok h
    simp only [boundary, Option.some.injEq] at h
    subst h
    exact ⟨hok, rfl, rfl⟩
  | succ n ih =>
    intro vm v hok h
    by_cases hlt : vm.cursor < vm.program_size
    · simp only [boundary, hlt, if_true] at h
      cases hex : exec kbd vm with
      | next v1 =>
        rw [hex] at h
        obtain ⟨o1, o2, o3⟩ := VMOK.exec_step kbd vm v1 hok hlt (Or.inl hex)
        obtain ⟨q1, q2, q3⟩ := ih v1 v o1 h
        exact ⟨q1, by rw [q2, o2], by rw [q3, o3]⟩
      | ret v1 =>
        rw [hex] at h
        obtain ⟨o1, o2, o3⟩ := VMOK.exec_step kbd vm v1 hok hlt (Or.inr hex)
        obtain ⟨q1, q2, q3⟩ := ih v1 v o1 h
        exact ⟨q1, by rw [q2, o2], by rw [q3, o3]⟩
      | undefined =>
        rw [hex] at h
        cases h
    · simp only [boundary, hlt, if_false, Option.some.injEq] at h
      subst h
      exact ⟨hok, rfl, rfl⟩

theorem run_program_ok (kbd : Nat → Keyboard) :
    ∀ (fuel : Nat) (vm v : VM), VMOK vm →
      (run_program kbd fuel vm = .output v ∨ run_program kbd fuel vm = .halted v) →
      VMOK v ∧ v.program = vm.program ∧ v.program_size = vm.program_size := by
  intro fuel
  induction fuel with
  | zero =>
    intro vm v hok h
    by_cases hlt : vm.cursor < vm.program_size
    · simp [run_program, hlt] at h
    · simp only [run_program, hlt, if_false, RunResult.halted.injEq] at h
      rcases h with h | h
      · cases h
      · subst h; exact ⟨hok, rfl, rfl⟩
  | succ fuel ih =>
    intro vm v hok h
    by_cases hlt : vm.cursor < vm.program_size
    · simp only [run_program, hlt, if_true] at h
      cases hex : exec kbd vm with
      | next v1 =>
        rw [hex] at h
        obtain ⟨o1, o2, o3⟩ := VMOK.exec_step kbd vm v1 hok hlt (Or.inl hex)
        obtain ⟨q1, q2, q3⟩ := ih v1 v o1 h
        exact ⟨q1, by rw [q2, o2], by rw [q3, o3]⟩
      | ret v1 =>
        rw [hex] at h
        obtain ⟨o1, o2, o3⟩ := VMOK.exec_step kbd vm v1 hok hlt (Or.inr hex)
        rcases h with h | h
        · simp only [RunResult.output.injEq] at h
          subst h
          exact ⟨o1, o2, o3⟩
        · cases h
      | undefined =>
        rw [hex] at h
        rcases h with h | h <;> cases h
    · simp only [run_program, hlt, if_false, RunResult.halted.injEq] at h
      rcases h with h | h
      · cases h
      · subst h; exact ⟨hok, rfl, rfl⟩

theorem run_calls_ok (kbd : Nat → Keyboard) (fuel : Nat) :
    ∀ (n : Nat) (vm v : VM), VMOK vm → run_calls kbd fuel n vm = some v →
      VMOK v ∧ v.program = vm.program ∧ v.program_size = vm.program_size := by
  intro n
  induction n with
  | zero =>
    intro vm v hok h
    simp only [run_calls, Option.some.injEq] at h
    subst h
    exact ⟨hok, rfl, rfl⟩
  | succ n ih =>
    intro vm v hok h
    cases hr : run_program kbd fuel vm with
    | output v1 =>
      simp only [run_calls, hr] at h
      obtain ⟨o1, o2, o3⟩ := run_program_ok kbd fuel vm v1 hok (Or.inl hr)
      obtain ⟨q1, q2, q3⟩ := ih v1 v o1 h
      exact ⟨q1, by rw [q2, o2], by rw [q3, o3]⟩
    | halted v1 =>
      simp only [run_calls, hr] at h
      obtain ⟨o1, o2, o3⟩ := run_program_ok kbd fuel vm v1 hok (Or.inr hr)
      obtain ⟨q1, q2, q3⟩ := ih v1 v o1 h
      exact ⟨q1, by rw [q2, o2], by rw [q3, o3]⟩
    | undefined => simp [run_calls, hr] at h
    | timeout => simp [run_calls, hr] at h

/-- C17: let `c` be a program returned by the compile loop, for any source
(balanced or not) and any fuel. Starting from the fresh machine, for every
keyboard input, at every instruction boundary (the state before the `n`-th
loop iteration, counted across calls of `run_program`) and after every number
of calls of `run_program`, the program is unchanged, the cursor is even and at
most `program_size`, the slot under a cursor below `program_size` holds one of
the nine operator characters, and nothing has been printed as an unexpected
character. -/
theorem compiled_program_never_misread (src : List Nat) (fuel : Nat) (c : Compiler)
    (h : compile fuel src = .done c) (kbd : Nat → Keyboard) :
    (∀ n vm, boundary kbd n (VM.fresh c) = some vm →
      vm.program = c.program ∧ vm.program_size = c.program_size ∧
      vm.cursor % 2 = 0 ∧ vm.cursor ≤ c.program_size ∧
      (vm.cursor < c.program_size → isBFChar (c.program vm.cursor) = true) ∧
      ∀ ch, Event.unexpected ch ∉ vm.log) ∧
    (∀ fuel2 n vm, run_calls kbd fuel2 n (VM.fresh c) = some vm →
      vm.program = c.program ∧ vm.program_size = c.program_size ∧
      vm.cursor % 2 = 0 ∧ vm.cursor ≤ c.program_size ∧
      (vm.cursor < c.program_size → isBFChar (c.program vm.cursor) = true) ∧
      ∀ ch, Event.unexpected ch ∉ vm.log) := by
  have hp := compile_programOK src fuel c h
  have h0 := VMOK.fresh c hp
  constructor
  · intro n vm hb
    obtain ⟨o1, o2, o3⟩ := boundary_ok kbd n (VM.fresh c) vm h0 hb
    have o2' : vm.program = c.program := o2
    have o3' : vm.program_size = c.program_size := o3
    refine ⟨o2', o3', o1.even, by rw [← o3']; exact o1.le, ?_, o1.quiet⟩
    intro hlt
    exact hp.ops vm.cursor o1.even hlt
  · intro fuel2 n vm hb
    obtain ⟨o1, o2, o3⟩ := run_calls_ok kbd fuel2 n (VM.fresh c) vm h0 hb
    have o2' : vm.program = c.program := o2
    have o3' : vm.program_size = c.program_size := o3
    refine ⟨o2', o3', o1.even, by rw [← o3']; exact o1.le, ?_, o1.quiet⟩
    intro hlt
    exact hp.ops vm.cursor o1.even hlt

/-- Witness of C17: the program compiled from `.]` followed by `+`, newline. -/
theorem compiled_program_never_misread_witness :
    ∃ c, compile 5 [46, 93, 43, 10] = .done c ∧
    ((∀ n vm, boundary (fun _ => noKeys) n (VM.fresh c) = some vm →
      vm.program = c.program ∧ vm.program_size = c.program_size ∧
      vm.cursor % 2 = 0 ∧ vm.cursor ≤ c.program_size ∧
      (vm.cursor < c.program_size → isBFChar (c.program vm.cursor) = true) ∧
      ∀ ch, Event.unexpected ch ∉ vm.log) ∧
    (∀ fuel2 n vm, run_calls (fun _ => noKeys) fuel2 n (VM.fresh c) = some vm →
      vm.program = c.program ∧ vm.program_size = c.program_size ∧
      vm.cursor % 2 = 0 ∧ vm.cursor ≤ c.program_size ∧
      (vm.cursor < c.program_size → isBFChar (c.program vm.cursor) = true) ∧
      ∀ ch, Event.unexpected ch ∉ vm.log)) :=
  ⟨_, rfl, compiled_program_never_misread [46, 93, 43, 10] 5 _ rfl (fun _ => noKeys)⟩

/-! ## Claim C12: the byte that ends a run -/

theorem closesMatched_skip (b : Nat) (rest : List Nat) (d : Nat) (h1 : b ≠ 91)
    (h2 : b ≠ 93) : closesMatched (b :: rest) d = closesMatched rest d := by
  simp [closesMatched, h1, h2]

theorem closesMatched_pushRun (b : Nat) (hb : isRunOp b = true) (ts : List (Nat × Nat))
    (d : Nat) :
    closesMatched ((pushRun b ts).map Prod.fst) d = closesMatched (ts.map Prod.fst) d := by
  have h1 : b ≠ 91 := by intro e; rw [e] at hb; cases hb
  have h2 : b ≠ 93 := by intro e; rw [e] at hb; cases hb
  cases ts with
  | nil => simp [pushRun, closesMatched, h1, h2]
  | cons t ts1 =>
    obtain ⟨b1, k⟩ := t
    by_cases hbb : b1 = b
    · simp [pushRun, hbb]
    · simp only [pushRun, hbb, if_false, List.map_cons]
      rw [closesMatched_skip b _ d h1 h2]

theorem closesMatched_groupRuns (src : List Nat) :
    ∀ d, closesMatched ((groupRuns src).map Prod.fst) d = closesMatched src d := by
  induction src with
  | nil => intro d; rfl
  | cons b rest ih =>
    intro d
    by_cases hr : isRunOp b = true
    · have h1 : b ≠ 91 := by intro e; rw [e] at hr; cases hr
      have h2 : b ≠ 93 := by intro e; rw [e] at hr; cases hr
      simp only [groupRuns, hr, if_true]
      rw [closesMatched_pushRun b hr, ih, closesMatched_skip b rest d h1 h2]
    · by_cases hb : isBFChar b = true
      · simp only [groupRuns, hr, hb, if_true, if_false, List.map_cons]
        simp only [closesMatched, ih]
      · have hb0 : isBFChar b = false := by simpa using hb
        have h1 : b ≠ 91 := by intro e; rw [e] at hb0; cases hb0
        have h2 : b ≠ 93 := by intro e; rw [e] at hb0; cases hb0
        rw [groupRuns_junk _ _ hb0, ih, closesMatched_skip b rest d h1 h2]

/-- The backward scan on a program moved up by one instruction: when the scan
finds its bracket, the scan on the moved program finds the moved bracket. -/
theorem scanBack_shift (p q : Nat → Nat) (hs : ∀ j, q (j + 2) = p j) :
    ∀ (f i d : Nat), i % 2 = 0 → (scanBack p f i d).2 = 0 →
      scanBack q (f + 2) (i + 2) d = ((scanBack p f i d).1 + 2, 0) := by
  intro f
  induction f with
  | zero =>
    intro i d _ h
    simp only [scanBack] at h
    subst h
    rw [scanBack_zero]
    simp [scanBack]
  | succ f ih =>
    intro i d hev h
    by_cases hc : 0 < i ∧ 0 < d
    · have hq : q i = p (i - 2) := by
        have := hs (i - 2)
        rwa [show i - 2 + 2 = i from by omega] at this
      have e1 : scanBack p (f + 1) i d = scanBack p f (i - 2)
          (if p (i - 2) = 93 then (if p (i - 2) = 91 then d - 1 else d) + 1
            else (if p (i - 2) = 91 then d - 1 else d)) := by
        conv_lhs => rw [scanBack]
        simp [hc]
      have e2 : scanBack q (f + 1 + 2) (i + 2) d = scanBack q (f + 2) i
          (if p (i - 2) = 93 then (if p (i - 2) = 91 then d - 1 else d) + 1
            else (if p (i - 2) = 91 then d - 1 else d)) := by
        show scanBack q ((f + 2) + 1) (i + 2) d = _
        conv_lhs => rw [scanBack]
        simp [hc.2, hq]
      rw [e1] at h ⊢
      rw [e2]
      have := ih (i - 2) _ (by omega) h
      rwa [show i - 2 + 2 = i from by omega] at this
    · have e1 : scanBack p (f + 1) i d = (i, d) := by
        conv_lhs => rw [scanBack]
        simp only [hc, if_false]
      rw [e1] at h ⊢
      simp only at h
      subst h
      rw [scanBack_zero]

theorem BracketInv.scan_matched {p : Nat → Nat} {k t0 : Nat} {s : List Nat}
    {P : List (Nat × Nat)} (hinv : BracketInv p k (t0 :: s) P) :
    scanBack (store p (2 * k) 93) (2 * k) (2 * k) 1 = (t0, 0) := by
  obtain ⟨c1, c2, c3, c4, c5⟩ := hinv.chain
  rw [← scanBack_congr p (store p (2 * k) 93) (2 * k) (2 * k) 1 (by omega)
    (fun j hj => (store_other p (2 * k) 93 (2 * j) (by omega)).symm), c4 1 (by omega),
    scanBack_zero]

theorem shifted_store (p q : Nat → Nat) (hs : ∀ j, q (j + 2) = p j) (a v : Nat) :
    ∀ j, store q (a + 2) v (j + 2) = store p a v j := by
  intro j
  unfold store
  by_cases h : j = a
  · simp [h]
  · have : ¬ j + 2 = a + 2 := by omega
    simp [h, this, hs j]
theorem emitTok_close_eq (t : Nat × Nat) (st : (Nat → Nat) × Nat) (ht : t.1 = 93)
    (hcap : st.2 + 1 < PROGRAM_CAP) :
    emitTok t st = some (store (store (store st.1 st.2 93)
        ((scanBack (store st.1 st.2 93) st.2 st.2 1).1 + 1)
        ((st.2 - (scanBack (store st.1 st.2 93) st.2 st.2 1).1) % 65536))
        (st.2 + 1)
        ((st.2 - (scanBack (store st.1 st.2 93) st.2 st.2 1).1) % 65536), st.2 + 2) := by
  have hr : ¬ isRunOp t.1 = true := by rw [ht]; decide
  unfold emitTok
  rw [if_neg hr, if_pos ht, if_pos hcap]

theorem emitTok_run_eq (t : Nat × Nat) (st : (Nat → Nat) × Nat) (hr : isRunOp t.1 = true)
    (hcap : st.2 + 1 < PROGRAM_CAP) :
    emitTok t st = some (store (store st.1 st.2 t.1) (st.2 + 1) (t.2 % 65536), st.2 + 2) := by
  unfold emitTok
  rw [if_pos hr, if_pos hcap]

theorem emitTok_unit_eq (t : Nat × Nat) (st : (Nat → Nat) × Nat)
    (hr : ¬ isRunOp t.1 = true) (h93 : ¬ t.1 = 93) (hcap : st.2 < PROGRAM_CAP) :
    emitTok t st = some (store st.1 st.2 t.1, st.2 + 2) := by
  unfold emitTok
  rw [if_neg hr, if_neg h93, if_pos hcap]

theorem emit_size (toks : List (Nat × Nat)) :
    ∀ (st st1 : (Nat → Nat) × Nat), emit toks st = some st1 →
      st1.2 = st.2 + 2 * toks.length := by
  induction toks with
  | nil =>
    intro st st1 h
    simp only [emit, Option.some.injEq] at h
    subst h; simp
  | cons t ts ih =>
    intro st st1 h
    cases hsa : emitTok t st with
    | none => simp [emit, hsa] at h
    | some sa =>
      simp only [emit, hsa] at h
      rw [ih sa st1 h, emitTok_size t st sa hsa, List.length_cons]
      omega

/-- Emitting the same tokens one instruction further up: as long as every `]`
finds its `[`, the result is the same program moved up by two slots, and the
two slots below are not touched. -/
theorem emit_shift (toks : List (Nat × Nat)) :
    ∀ (p q : Nat → Nat) (k : Nat) (S : List Nat) (P : List (Nat × Nat)),
      BracketInv p k S P → closesMatched (toks.map Prod.fst) S.length = true →
      (∀ j, q (j + 2) = p j) →
      ∀ (st1 : (Nat → Nat) × Nat), emit toks (p, 2 * k) = some st1 →
        st1.2 + 2 ≤ PROGRAM_CAP →
        ∃ q1, emit toks (q, 2 * k + 2) = some (q1, st1.2 + 2) ∧
          (∀ j, q1 (j + 2) = st1.1 j) ∧ q1 0 = q 0 ∧ q1 1 = q 1 := by
  induction toks with
  | nil =>
    intro p q k S P _ _ hs st1 h _
    simp only [emit, Option.some.injEq] at h
    subst h
    exact ⟨q, rfl, hs, rfl, rfl⟩
  | cons t ts ih =>
    intro p q k S P hinv hn hs st1 h hcap
    cases hsa : emitTok t (p, 2 * k) with
    | none => simp [emit, hsa] at h
    | some sa =>
      simp only [emit, hsa] at h
      have hsz := emitTok_size t (p, 2 * k) sa hsa
      have hfin := emit_size ts sa st1 h
      simp only at hsz
      simp only [List.map_cons] at hn
      have hcq : 2 * k + 2 + 1 < PROGRAM_CAP := by omega
      by_cases h93 : t.1 = 93
      · rw [h93] at hn
        cases S with
        | nil => simp [closesMatched] at hn
        | cons t0 s =>
          simp only [closesMatched, List.length_cons] at hn
          simp at hn
          have hform := emitTok_close t (p, 2 * k) sa h93 hsa
          have hsm := hinv.scan_matched
          obtain ⟨c1, c2, c3, c4, c5⟩ := hinv.chain
          obtain ⟨-, hnew⟩ := hinv.closing
          simp only at hform
          rw [hsm] at hform
          simp only at hform
          have hsq := scanBack_shift (store p (2 * k) 93) (store q (2 * k + 2) 93)
            (shifted_store p q hs (2 * k) 93) (2 * k) (2 * k) 1 (by omega)
            (by rw [hsm])
          rw [hsm] at hsq
          simp only at hsq
          have hqe := emitTok_close_eq t (q, 2 * k + 2) h93 hcq
          simp only at hqe
          rw [hsq] at hqe
          simp only at hqe
          have hd : (2 * k + 2 - (t0 + 2)) % 65536 = (2 * k - t0) % 65536 := by
            congr 1; omega
          rw [hd, show t0 + 2 + 1 = t0 + 1 + 2 from by omega,
            show 2 * k + 2 + 1 = 2 * k + 1 + 2 from by omega] at hqe
          have hsa1 : sa.1 = store (store (store p (2 * k) 93) (t0 + 1)
              ((2 * k - t0) % 65536)) (2 * k + 1) ((2 * k - t0) % 65536) := by rw [hform]
          have hs1 := shifted_store _ _
            (shifted_store _ _ (shifted_store p q hs (2 * k) 93) (t0 + 1)
              ((2 * k - t0) % 65536)) (2 * k + 1) ((2 * k - t0) % 65536)
          rw [← hsa1] at hnew hs1
          have h' : emit ts (sa.1, 2 * (k + 1)) = some st1 := by
            have : sa = (sa.1, 2 * (k + 1)) :=
              Prod.ext rfl (by show sa.2 = 2 * (k + 1); omega)
            rw [← this]; exact h
          obtain ⟨q1, e1, e2, e3, e4⟩ := ih sa.1 _ (k + 1) s _ hnew hn hs1 st1 h' hcap
          refine ⟨q1, ?_, e2, ?_, ?_⟩
          · simp only [emit, hqe]
            rw [show 2 * k + 2 + 2 = 2 * (k + 1) + 2 from by omega]
            exact e1
          · rw [e3, store_other _ _ _ _ (by omega), store_other _ _ _ _ (by omega),
              store_other _ _ _ _ (by omega)]
          · rw [e4, store_other _ _ _ _ (by omega), store_other _ _ _ _ (by omega),
              store_other _ _ _ _ (by omega)]
      · obtain ⟨ho, hfr⟩ := emitTok_other t (p, 2 * k) sa h93 hsa
        simp only at ho hfr
        have hinv1 : ∃ S1, BracketInv sa.1 (k + 1) S1 P ∧
            closesMatched (ts.map Prod.fst) S1.length = true := by
          by_cases h91 : t.1 = 91
          · rw [h91] at hn ho
            simp only [closesMatched, if_true] at hn
            exact ⟨2 * k :: S, hinv.opening ho hfr, by simpa using hn⟩
          · simp only [closesMatched, h91, h93, if_false] at hn
            exact ⟨S, hinv.other t.1 ho hfr h91 h93, hn⟩
        obtain ⟨S1, hi1, hn1⟩ := hinv1
        have h' : emit ts (sa.1, 2 * (k + 1)) = some st1 := by
          have : sa = (sa.1, 2 * (k + 1)) :=
            Prod.ext rfl (by show sa.2 = 2 * (k + 1); omega)
          rw [← this]; exact h
        by_cases hr : isRunOp t.1 = true
        · obtain ⟨hform, -⟩ := emitTok_run_form t (p, 2 * k) sa hr hsa
          simp only at hform
          have hqe := emitTok_run_eq t (q, 2 * k + 2) hr hcq
          simp only at hqe
          rw [show 2 * k + 2 + 1 = 2 * k + 1 + 2 from by omega] at hqe
          have hsa1 : sa.1 = store (store p (2 * k) t.1) (2 * k + 1) (t.2 % 65536) := by
            rw [hform]
          have hs1 := shifted_store _ _ (shifted_store p q hs (2 * k) t.1) (2 * k + 1)
            (t.2 % 65536)
          rw [← hsa1] at hs1
          obtain ⟨q1, e1, e2, e3, e4⟩ := ih sa.1 _ (k + 1) S1 _ hi1 hn1 hs1 st1 h' hcap
          refine ⟨q1, ?_, e2, ?_, ?_⟩
          · simp only [emit, hqe]
            rw [show 2 * k + 2 + 2 = 2 * (k + 1) + 2 from by omega]
            exact e1
          · rw [e3, store_other _ _ _ _ (by omega), store_other _ _ _ _ (by omega)]
          · rw [e4, store_other _ _ _ _ (by omega), store_other _ _ _ _ (by omega)]
        · obtain ⟨hform, -⟩ := emitTok_unit_form t (p, 2 * k) sa hr h93 hsa
          simp only at hform
          have hqe := emitTok_unit_eq t (q, 2 * k + 2) hr h93 (by simp only; omega)
          simp only at hqe
          have hsa1 : sa.1 = store p (2 * k) t.1 := by rw [hform]
          have hs1 := shifted_store p q hs (2 * k) t.1
          rw [← hsa1] at hs1
          obtain ⟨q1, e1, e2, e3, e4⟩ := ih sa.1 _ (k + 1) S1 _ hi1 hn1 hs1 st1 h' hcap
          refine ⟨q1, ?_, e2, ?_, ?_⟩
          · simp only [emit, hqe]
            rw [show 2 * k + 2 + 2 = 2 * (k + 1) + 2 from by omega]
            exact e1
          · rw [e3, store_other _ _ _ _ (by omega)]
          · rw [e4, store_other _ _ _ _ (by omega)]
theorem instrs_shift (p q : Nat → Nat) (hs : ∀ j, q (j + 2) = p j) (n : Nat) :
    instrs q (n + 2) = (q 0, q 1) :: instrs p n := by
  unfold instrs
  rw [show (n + 2) / 2 = n / 2 + 1 from by omega, List.range_succ_eq_map, List.map_cons,
    List.map_map]
  congr 1
  apply List.map_congr_left
  intro a _
  simp only [Function.comp, Nat.succ_eq_add_one]
  rw [show 2 * (a + 1) = 2 * a + 2 from by omega,
    show 2 * a + 2 + 1 = 2 * a + 1 + 2 from by omega, hs, hs]

theorem endsInRun_append (l : List Nat) (d : Nat) (r : List Nat) :
    endsInRun (l ++ d :: r) = endsInRun (d :: r) := by
  obtain ⟨x, hx⟩ : ∃ x, (d :: r).getLast? = some x := by
    cases h : (d :: r).getLast? with
    | none => simp at h
    | some x => exact ⟨x, rfl⟩
  simp only [endsInRun, List.getLast?_append, hx, Option.or_some]

/-- The program compiled from a run of `k >= 1` operators `c`, a different
operator `d` and a rest `r` in which every `]` has its `[`: the instruction
`(c, k % 65536)` followed by the instructions compiled from `d`, `r` alone. -/
theorem compile_run_before_rest (c d k : Nat) (r : List Nat) (fuel : Nat)
    (hc : isRunOp c = true) (hk : 1 ≤ k) (hd : isBFChar d = true) (hdc : d ≠ c)
    (hm : closesMatched (d :: r) 0 = true) (hend : endsInRun (d :: r) = false)
    (hlen : 2 * (k + 1 + r.length) ≤ PROGRAM_CAP) (hfuel : k + 1 + r.length < fuel) :
    ∃ c1 c2, compile fuel (List.replicate k c ++ d :: r) = .done c1 ∧
      compile fuel (d :: r) = .done c2 ∧
      instrs c1.program c1.program_size =
        (c, k % 65536) :: instrs c2.program c2.program_size := by
  obtain ⟨k1, rfl⟩ : ∃ k1, k = k1 + 1 := ⟨k - 1, by omega⟩
  have hg1 := groupRuns_replicate c d r hc hd hdc k1
  have hend1 : endsInRun (List.replicate (k1 + 1) c ++ d :: r) = false := by
    rw [endsInRun_append]; exact hend
  have hl1 : (List.replicate (k1 + 1) c ++ d :: r).length = k1 + 1 + 1 + r.length := by
    simp; omega
  have hc1 := compile_eq_emit _ hend1 fuel (by rw [hl1]; omega)
  have hc2 := compile_eq_emit _ hend fuel (by simp only [List.length_cons]; omega)
  have hgl := groupRuns_length (d :: r)
  simp only [List.length_cons] at hgl
  obtain ⟨st1, e1, e2⟩ := emit_length (groupRuns (d :: r)) (fun _ => 0, 0)
    (by simp only; omega)
  simp only at e2
  have hq0 : emitTok (c, k1 + 1) (fun _ => 0, 0) =
      some (store (store (fun _ => 0) 0 c) (0 + 1) ((k1 + 1) % 65536), 0 + 2) :=
    emitTok_run_eq (c, k1 + 1) (fun _ => 0, 0) hc (by decide)
  have hs0 : ∀ j, store (store (fun _ => 0) 0 c) (0 + 1) ((k1 + 1) % 65536) (j + 2)
      = (fun _ => 0) j := by
    intro j
    rw [store_other _ _ _ _ (by omega), store_other _ _ _ _ (by omega)]
  obtain ⟨q1, s1, s2, s3, s4⟩ := emit_shift (groupRuns (d :: r)) (fun _ => 0) _ 0 [] []
    BracketInv.init (by rw [closesMatched_groupRuns]; exact hm) hs0 st1 e1 (by omega)
  have hemit1 : emit (groupRuns (List.replicate (k1 + 1) c ++ d :: r)) (fun _ => 0, 0)
      = some (q1, st1.2 + 2) := by
    rw [hg1]
    simp only [emit, hq0]
    exact s1
  rw [hemit1] at hc1
  rw [e1] at hc2
  refine ⟨_, _, hc1, hc2, ?_⟩
  simp only [emitOutcome]
  rw [instrs_shift st1.1 q1 s2, s3, s4]
  congr 2

/-- C12 as stated fails: 65536 bytes `+` followed by `.` compile to the
instruction `+` with operand 0, not 65536, followed by the instruction that
`.` alone compiles to. -/
theorem run_of_65536_then_output :
    (∃ c1 c2, compile (65537 + 1) (List.replicate 65536 43 ++ 46 :: []) = .done c1 ∧
      compile (65537 + 1) (46 :: []) = .done c2 ∧
      instrs c1.program c1.program_size =
        (43, 65536 % 65536) :: instrs c2.program c2.program_size) ∧
    (43, 65536 % 65536) ≠ (43, 65536) :=
  ⟨compile_run_before_rest 43 46 65536 [] (65537 + 1) (by decide) (by decide) (by decide)
    (by decide) (by decide) (by decide) (by decide) (by decide), by decide⟩

/-- C12 amended: for a run operator `c`, `k >= 1`, an operator `d` other than
`c` and a rest `r` such that every `]` of `d`, `r` has a matching `[` in it,
the source does not end in a run operator and fits the array, compiling `k`
bytes `c` followed by `d` and `r` terminates with the instruction
`(c, k % 65536)` followed by exactly the instructions that `d`, `r` compiles
to; `d` is neither dropped nor counted in the run. -/
theorem run_then_rest (c d k : Nat) (r : List Nat) (fuel : Nat)
    (hc : isRunOp c = true) (hk : 1 ≤ k) (hd : isBFChar d = true) (hdc : d ≠ c)
    (hm : closesMatched (d :: r) 0 = true) (hend : endsInRun (d :: r) = false)
    (hlen : 2 * (k + 1 + r.length) ≤ PROGRAM_CAP) (hfuel : k + 1 + r.length < fuel) :
    ∃ c1 c2, compile fuel (List.replicate k c ++ d :: r) = .done c1 ∧
      compile fuel (d :: r) = .done c2 ∧
      instrs c1.program c1.program_size =
        (c, k % 65536) :: instrs c2.program c2.program_size ∧
      (k ≤ 65535 → instrs c1.program c1.program_size =
        (c, k) :: instrs c2.program c2.program_size) := by
  obtain ⟨c1, c2, h1, h2, h3⟩ := compile_run_before_rest c d k r fuel hc hk hd hdc hm hend hlen hfuel
  refine ⟨c1, c2, h1, h2, h3, fun hle => ?_⟩
  rw [h3, Nat.mod_eq_of_lt (by omega)]

/-- Witness of C12 amended: `++` followed by `[-]`. -/
theorem run_then_rest_witness :
    ∃ c1 c2, compile 6 (List.replicate 2 43 ++ 91 :: [45, 93]) = .done c1 ∧
      compile 6 (91 :: [45, 93]) = .done c2 ∧
      instrs c1.program c1.program_size =
        (43, 2 % 65536) :: instrs c2.program c2.program_size ∧
      (2 ≤ 65535 → instrs c1.program c1.program_size =
        (43, 2) :: instrs c2.program c2.program_size) :=
  run_then_rest 43 91 2 [45, 93] 6 (by decide) (by decide) (by decide) (by decide)
    (by decide) (by decide) (by decide) (by decide)

end BF16
